import Mathlib

/-!
# Badge compiler: a shallow embedding of `badge.cpp`

The C++ program scans a small procedural language into tokens (`tokenize`),
parses them (`Parser`), lowers the tree to MIPS text (`Transformer`) and
returns the text (`CodeGenerator`).

Modelling conventions.

* `std::string` is `List Char` (`Str`); literals are written `"...".toList`.
* `std::string::npos` is `none` in an `Option Nat`.
* A C++ exception is an `Exception` value; a call that throws yields
  `Outcome.thrown e s` where `s` is the state at the throw.
* `std::vector::operator[]` with an index at or past `size()` is undefined
  behaviour in C++; the model stops with `Outcome.outOfBounds index size`.
* Loops whose termination is not structural take a fuel argument and stop with
  `Outcome.fuel` (or `none`) when it runs out; every loop of the parser is
  started with one unit more than there are tokens.
-/

namespace Badge

/-- The type `std::string`. -/
abbrev Str := List Char

/-! ## Character classes of `<cctype>` in the C locale -/

/-- The function `isspace`: space, `\t`, `\n`, `\v`, `\f`, `\r`. -/
def isspace (c : Char) : Bool :=
  c == ' ' || c == '\t' || c == '\n' || c == '\x0b' || c == '\x0c' || c == '\r'

/-- The function `isdigit`. -/
def isdigit (c : Char) : Bool := '0' ≤ c && c ≤ '9'

/-- The function `isalpha`. -/
def isalpha (c : Char) : Bool := ('a' ≤ c && c ≤ 'z') || ('A' ≤ c && c ≤ 'Z')

/-- The function `isalnum`. -/
def isalnum (c : Char) : Bool := isalpha c || isdigit c

/-! ## Tokens and the scanner -/

/-- The enumeration `TokenType` of `badge.h`, in declaration order. -/
inductive TokenType where
  | Keyword | Identifier | Number | Operator | Punctuation | EndOfLine
  deriving DecidableEq, Repr

/-- The value `static_cast<int>(type)`. -/
def TokenType.toInt : TokenType → Nat
  | .Keyword => 0 | .Identifier => 1 | .Number => 2
  | .Operator => 3 | .Punctuation => 4 | .EndOfLine => 5

/-- The struct `Token`. -/
structure Token where
  type : TokenType
  value : Str
  deriving DecidableEq, Repr

/-- The static string `operators` of `tokenize`. -/
def operators : Str := "+-*/<=>!".toList

/-- The static string `punctuation` of `tokenize`. -/
def punctuation : Str := "();\x7b\x7d".toList

/-- The main loop of `tokenize`, on the part of `code` from index `i` on.
Every iteration consumes at least one character, so `code.length` units of
fuel are enough; `none` means the fuel ran out.  The warning written to
`std::cerr` for a skipped character is not part of the returned value. -/
def tokenizeLoop : Nat → Str → Option (List Token)
  | _, [] => some []
  | 0, _ :: _ => none
  | fuel + 1, c :: rest =>
    if isspace c then tokenizeLoop fuel rest
    else if isdigit c then
      (tokenizeLoop fuel (rest.dropWhile isdigit)).map
        (fun ts => ⟨.Number, c :: rest.takeWhile isdigit⟩ :: ts)
    else if isalpha c then
      let identifier := c :: rest.takeWhile isalnum
      let type :=
        if identifier = "for".toList ∨ identifier = "int".toList ∨ identifier = "if".toList
        then TokenType.Keyword else TokenType.Identifier
      (tokenizeLoop fuel (rest.dropWhile isalnum)).map (fun ts => ⟨type, identifier⟩ :: ts)
    else if c ∈ operators then
      match rest with
      | d :: rest2 =>
        if d ∈ operators ∨ d = '=' then
          (tokenizeLoop fuel rest2).map (fun ts => ⟨.Operator, [c, d]⟩ :: ts)
        else
          (tokenizeLoop fuel rest).map (fun ts => ⟨.Operator, [c]⟩ :: ts)
      | [] => (tokenizeLoop fuel rest).map (fun ts => ⟨.Operator, [c]⟩ :: ts)
    else if c ∈ punctuation then
      (tokenizeLoop fuel rest).map (fun ts => ⟨.Punctuation, [c]⟩ :: ts)
    else tokenizeLoop fuel rest

/-- The function `tokenize`. -/
def tokenize (code : Str) : Option (List Token) := tokenizeLoop code.length code

/-! ## Exceptions, outcomes and the state monad of the model -/

/-- The C++ exceptions the program can throw, with the text of `what()` where
the program builds it. -/
inductive Exception where
  | runtime_error (what : Str)
  | invalid_argument
  | out_of_range
  deriving DecidableEq, Repr

/-- How a call ends: normally with a value and a state, by a thrown exception
(with the state at the throw), by an out-of-bounds `operator[]` on a vector, or
because the model ran out of fuel. -/
inductive Outcome (σ α : Type) where
  | ok (a : α) (s : σ)
  | thrown (e : Exception) (s : σ)
  | outOfBounds (index size : Nat)
  | fuel
  deriving DecidableEq, Repr

/-- Computations on a state `σ`. -/
def M (σ α : Type) : Type := σ → Outcome σ α

/-- Sequencing: an abnormal outcome of the first computation ends the whole. -/
def M.bind {σ α β : Type} (x : M σ α) (f : α → M σ β) : M σ β := fun s =>
  match x s with
  | .ok a s1 => f a s1
  | .thrown e s1 => .thrown e s1
  | .outOfBounds i n => .outOfBounds i n
  | .fuel => .fuel

instance {σ : Type} : Monad (M σ) where
  pure a := fun s => .ok a s
  bind := M.bind

/-- The statement `throw e`. -/
def throwExc {σ α : Type} (e : Exception) : M σ α := fun s => .thrown e s

/-- A call of a function that does not touch the state: its value, or its
exception thrown in the current state. -/
def liftE {σ α : Type} : Except Exception α → M σ α
  | .ok a => pure a
  | .error e => throwExc e

/-- The decimal text of a natural number (`operator<<` on a `size_t` or a
non-negative `int`, `std::to_string`). -/
def natToStr (n : Nat) : Str := (Nat.repr n).toList

/-- The function `std::to_string(int)`. -/
def to_string : Int → Str
  | .ofNat n => natToStr n
  | .negSucc n => '-' :: natToStr (n + 1)

/-! ## The syntax tree and the parser -/

/-- The struct `Node`: a type tag, the children and a two-field leaf. -/
structure Node where
  type : Str
  children : List Node
  leaf : Str × Str

/-- The constructor `Node::Node(std::string t)`: no children, empty leaf. -/
def Node.new (t : Str) : Node := ⟨t, [], ([], [])⟩

/-- The parser reads the cursor `current`; `tokens` never changes. -/
abbrev Parser := M Nat

/-- The token under the cursor when `current < tokens.size()`. -/
def peek (tokens : List Token) : Parser (Option Token) := fun current =>
  .ok tokens[current]? current

/-- The overload `Parser::consume(std::initializer_list<TokenType>)`.  When the
cursor is past the last token the error message reads `tokens[current]`, an
out-of-bounds access. -/
def consumeTypes (tokens : List Token) (acceptableTypes : List TokenType) : Parser Token :=
  fun current =>
    match tokens[current]? with
    | some t =>
      if t.type ∈ acceptableTypes then .ok t (current + 1)
      else .thrown (.runtime_error
        ("Unexpected token at position ".toList ++ natToStr current
          ++ ": Expected types ".toList
          ++ (acceptableTypes.map (fun ty => natToStr ty.toInt ++ " ".toList)).flatten
          ++ ", but got type ".toList ++ natToStr t.type.toInt
          ++ " with value \x27".toList ++ t.value ++ "\x27".toList)) current
    | none => .outOfBounds current tokens.length

/-- The overload `Parser::consume(TokenType, const std::string&)`; the empty
`value` (the default argument) accepts every text.  When the cursor is past the
last token the error message reads `tokens[current]`, an out-of-bounds access. -/
def consume (tokens : List Token) (type : TokenType) (value : Str := []) : Parser Token :=
  fun current =>
    match tokens[current]? with
    | some t =>
      if t.type = type ∧ (value = [] ∨ t.value = value) then .ok t (current + 1)
      else .thrown (.runtime_error
        ("Unexpected token at position ".toList ++ natToStr current
          ++ ": Expected type ".toList ++ natToStr type.toInt
          ++ (if value ≠ [] then " with value \x27".toList ++ value ++ "\x27".toList else [])
          ++ ", but got type ".toList ++ natToStr t.type.toInt
          ++ (if t.value ≠ [] then " with value \x27".toList ++ t.value ++ "\x27".toList
              else []))) current
    | none => .outOfBounds current tokens.length

/-- The method `Parser::parseDeclaration`. -/
def parseDeclaration (tokens : List Token) : Parser Node := do
  let _ ← consume tokens .Keyword "int".toList
  let varName := (← consume tokens .Identifier).value
  let next ← peek tokens
  let value ←
    match next with
    | some t =>
      if t.type = .Operator ∧ t.value = "=".toList then do
        let _ ← consume tokens .Operator "=".toList
        pure (← consumeTypes tokens [.Identifier, .Number]).value
      else pure "0".toList
    | none => pure "0".toList
  let _ ← consume tokens .Punctuation ";".toList
  pure { Node.new "Declaration".toList with leaf := (varName, value) }

/-- The method `Parser::parseInitialization`. -/
def parseInitialization (tokens : List Token) : Parser Node := do
  let varName := (← consume tokens .Identifier).value
  let _ ← consume tokens .Operator "=".toList
  let valueToken ← consumeTypes tokens [.Identifier, .Number]
  pure { Node.new "Initialization".toList with leaf := (varName, valueToken.value) }

/-- The method `Parser::parseCondition`. -/
def parseCondition (tokens : List Token) : Parser Node := do
  let varName := (← consume tokens .Identifier).value
  let op := (← consume tokens .Operator).value
  let valueToken ← consumeTypes tokens [.Identifier, .Number]
  pure { Node.new "Condition".toList with leaf := (varName ++ " ".toList ++ op, valueToken.value) }

/-- The method `Parser::parseIncrement`. -/
def parseIncrement (tokens : List Token) : Parser Node := do
  let varName := (← consume tokens .Identifier).value
  let op := (← consume tokens .Operator).value
  pure { Node.new "Increment".toList with leaf := (varName, op) }

/-- The method `Parser::parseExpression`: the texts of the tokens up to the
next punctuation token (or the end), each followed by a space, then `;`. -/
def parseExpression (tokens : List Token) : Parser Node := do
  let captured ← (fun current =>
    let run := (tokens.drop current).takeWhile (fun t => t.type ≠ .Punctuation)
    Outcome.ok run (current + run.length) : Parser (List Token))
  let fullExpr := (captured.map (fun t => t.value ++ " ".toList)).flatten
  let _ ← consume tokens .Punctuation ";".toList
  pure { Node.new "Expression".toList with leaf := (fullExpr, []) }

/-- The condition of the body loops of `parseForLoop` and `parseIfStatement`:
`current < tokens.size() && type != Punctuation && value != "}"`. -/
def bodyContinues (next : Option Token) : Bool :=
  match next with
  | some t => t.type ≠ .Punctuation && t.value ≠ "\x7d".toList
  | none => false

/-- The body loop of `Parser::parseIfStatement`; `children` holds the nodes
pushed so far.  One unit of fuel is used per test of the loop condition. -/
def parseIfBody (tokens : List Token) : Nat → List Node → Parser (List Node)
  | 0, _ => fun _ => .fuel
  | fuel + 1, children => do
    if bodyContinues (← peek tokens) then
      let e ← parseExpression tokens
      parseIfBody tokens fuel (children ++ [e])
    else pure children

/-- The method `Parser::parseIfStatement`. -/
def parseIfStatement (tokens : List Token) : Parser Node := do
  let _ ← consume tokens .Keyword "if".toList
  let _ ← consume tokens .Punctuation "(".toList
  let cond ← parseCondition tokens
  let _ ← consume tokens .Punctuation ")".toList
  let _ ← consume tokens .Punctuation "\x7b".toList
  let children ← parseIfBody tokens (tokens.length + 1) [cond]
  let _ ← consume tokens .Punctuation "\x7d".toList
  pure { Node.new "IfStatement".toList with children := children }

/-- The body loop of `Parser::parseForLoop`.  One unit of fuel is used per test
of the loop condition. -/
def parseForBody (tokens : List Token) : Nat → List Node → Parser (List Node)
  | 0, _ => fun _ => .fuel
  | fuel + 1, children => do
    match ← peek tokens with
    | some t =>
      if bodyContinues (some t) then
        let child ←
          if t.value = "if".toList then parseIfStatement tokens else parseExpression tokens
        parseForBody tokens fuel (children ++ [child])
      else pure children
    | none => pure children

/-- The method `Parser::parseForLoop`. -/
def parseForLoop (tokens : List Token) : Parser Node := do
  let _ ← consume tokens .Keyword "for".toList
  let _ ← consume tokens .Punctuation "(".toList
  let init ← parseInitialization tokens
  let _ ← consume tokens .Punctuation ";".toList
  let cond ← parseCondition tokens
  let _ ← consume tokens .Punctuation ";".toList
  let incr ← parseIncrement tokens
  let _ ← consume tokens .Punctuation ")".toList
  let _ ← consume tokens .Punctuation "\x7b".toList
  let children ← parseForBody tokens (tokens.length + 1) [init, cond, incr]
  let _ ← consume tokens .Punctuation "\x7d".toList
  pure { Node.new "ForLoop".toList with children := children }

/-- The loop of `Parser::parse`; `children` holds the root's children so far.
One unit of fuel is used per test of the loop condition. -/
def parseTop (tokens : List Token) : Nat → List Node → Parser (List Node)
  | 0, _ => fun _ => .fuel
  | fuel + 1, children => do
    match ← peek tokens with
    | some t =>
      if t.value = "int".toList then do
        let d ← parseDeclaration tokens
        parseTop tokens fuel (children ++ [d])
      else if t.value = "for".toList then do
        let f ← parseForLoop tokens
        parseTop tokens fuel (children ++ [f])
      else do
        let _ ← (fun current => Outcome.ok () (current + 1) : Parser Unit)
        parseTop tokens fuel children
    | none => pure children

/-- The method `Parser::parse`, started with `current = 0` by the constructor. -/
def parse (tokens : List Token) : Outcome Nat Node :=
  (do
    let children ← parseTop tokens (tokens.length + 1) []
    pure { Node.new "Root".toList with children := children } : Parser Node) 0

/-! ## `std::string` operations used by the transformer -/

/-- The call `s.find(needle)`: index of the first occurrence of `needle` in
`s`, `none` for `npos`. -/
def find : Str → Str → Option Nat
  | [], needle => if needle = [] then some 0 else none
  | c :: cs, needle =>
    if needle.isPrefixOf (c :: cs) then some 0 else (find cs needle).map (· + 1)

/-- The call `s.find_first_of(chars)`: index of the first character of `s`
that occurs in `chars`, `none` for `npos`. -/
def find_first_of : Str → Str → Option Nat
  | [], _ => none
  | c :: cs, chars => if c ∈ chars then some 0 else (find_first_of cs chars).map (· + 1)

/-- The characters `s.substr(pos, count)` selects when `pos ≤ s.size()`, with
`count = none` for the default `npos`. -/
def substring (s : Str) (pos : Nat) (count : Option Nat) : Str :=
  match count with
  | none => s.drop pos
  | some n => (s.drop pos).take n

/-- The call `s.substr(pos, count)`; throws `std::out_of_range` when
`pos > s.size()`. -/
def substr (s : Str) (pos : Nat) (count : Option Nat := none) : Except Exception Str :=
  if pos ≤ s.length then .ok (substring s pos count) else .error .out_of_range

/-- The `size_t` value `pos + 1` for a position `pos` returned by `find`:
`npos + 1` wraps around to `0`. -/
def succPos : Option Nat → Nat
  | some p => p + 1
  | none => 0

/-- The expression `s[i]` on a `std::string`, which is `'\0'` at `i = s.size()`;
the program never uses an index beyond that. -/
def strAt (s : Str) (i : Nat) : Char := s.getD i '\x00'

/-- The value of a run of decimal digits. -/
def digitsValue (ds : Str) : Nat := ds.foldl (fun acc c => acc * 10 + (c.toNat - 48)) 0

/-- The optional sign `strtol` accepts before the digits: whether it is `-`,
and the text after it. -/
def stripSign : Str → Bool × Str
  | '-' :: r => (true, r)
  | '+' :: r => (false, r)
  | s => (false, s)

/-- The function `std::stoi(s)` (base 10): leading white space is skipped, one
sign is accepted, the longest run of digits is converted and the rest is
ignored; `std::invalid_argument` without a digit, `std::out_of_range` when the
value does not fit in an `int`. -/
def stoi (s : Str) : Except Exception Int :=
  let signed := stripSign (s.dropWhile isspace)
  let ds := signed.2.takeWhile isdigit
  if ds = [] then .error .invalid_argument
  else
    let v : Int := if signed.1 then - (digitsValue ds : Int) else (digitsValue ds : Int)
    if v < -2147483648 ∨ 2147483647 < v then .error .out_of_range else .ok v

/-! ## The lowering transformer -/

/-- The value an `int` holds after an arithmetic result `x`: `x` itself when it
is in the range of `int`; out of range (signed overflow, undefined behaviour in
C++) the wrapped-around value the compiled code continues with: after
`INT_MAX` comes `INT_MIN`. -/
def wrapInt (x : Int) : Int := (x + 2147483648) % 4294967296 - 2147483648

/-- The state the lowering works on: the member `variableToRegisterMap` of the
`Transformer`, the function-local `static int ifCount` of
`transformIfStatement` (it outlives every `Transformer`), and
`mipsNode->details`, the text built so far. -/
structure Lowering where
  variableToRegisterMap : List (Str × Str)
  ifCount : Int
  details : Str
  deriving DecidableEq, Repr

/-- Computations of the transformer. -/
abbrev Transformer := M Lowering

/-- The constructor `Transformer::Transformer`, in a process whose `ifCount`
is `ifCount`; `details` is empty until `transform` makes its `MIPSNode`. -/
def Transformer.new (ifCount : Int) : Lowering :=
  { variableToRegisterMap :=
      [("a".toList, "$t0".toList), ("i".toList, "$t1".toList), ("b".toList, "$t2".toList)]
    ifCount := ifCount
    details := [] }

/-- The expression `variableToRegisterMap[name]`: `std::map::operator[]` returns
the mapped value, and for a missing key inserts the key with an empty string
and returns that. -/
def lookupReg (name : Str) : Transformer Str := fun s =>
  match s.variableToRegisterMap.lookup name with
  | some r => .ok r s
  | none => .ok [] { s with variableToRegisterMap := s.variableToRegisterMap ++ [(name, [])] }

/-- The statement `mipsNode->details += text`. -/
def emit (text : Str) : Transformer Unit := fun s =>
  .ok () { s with details := s.details ++ text }

/-- The expression `node->children[i]`. -/
def childAt {σ : Type} (node : Node) (i : Nat) : M σ Node := fun s =>
  match node.children[i]? with
  | some c => .ok c s
  | none => .outOfBounds i node.children.length

/-- The method `Transformer::transformDeclaration`. -/
def transformDeclaration (decl : Node) : Transformer Unit := do
  let varName := decl.leaf.1
  let value := decl.leaf.2
  let reg ← lookupReg varName
  emit ("li ".toList ++ reg ++ ", ".toList ++ value ++ "\n".toList)

/-- The method `Transformer::transformIncrement`. -/
def transformIncrement (incr : Node) (reg : Str) : Transformer Unit := do
  let op := incr.leaf.2
  if op = "++".toList then
    emit ("addi ".toList ++ reg ++ ", ".toList ++ reg ++ ", 1\n".toList)
  else if op = "--".toList then
    emit ("addi ".toList ++ reg ++ ", ".toList ++ reg ++ ", -1\n".toList)
  else if find op "+=".toList ≠ none then do
    let number ← liftE <| substr op 2
    emit ("addi ".toList ++ reg ++ ", ".toList ++ reg ++ ", ".toList ++ number ++ "\n".toList)
  else if find op "-=".toList ≠ none then do
    let number ← liftE <| substr op 2
    emit ("addi ".toList ++ reg ++ ", ".toList ++ reg ++ ", -".toList ++ number ++ "\n".toList)
  else pure ()

/-- The part of `Transformer::transformExpression` that splits
`remainingExpression` at its first `+-*/` into `srcVariable`, `secOperation`
and `immediateValue`; without such a character the source is the whole
remainder, the secondary operation is empty and the immediate is `0`. -/
def splitRemaining (remainingExpression : Str) : Except Exception (Str × Str × Int) :=
  match find_first_of remainingExpression "+-*/".toList with
  | some secOpPos => do
    let srcVariable ← substr remainingExpression 0 (some secOpPos)
    let digits ← substr remainingExpression (secOpPos + 1)
    let immediateValue ← stoi digits
    pure (srcVariable, [strAt remainingExpression secOpPos], immediateValue)
  | none => pure (remainingExpression, [], 0)

/-- The part of `Transformer::transformExpression` under the comment
"Generate the MIPS code for the operation". -/
def emitOperation (expression operation secOperation remainingExpression destReg srcReg : Str)
    (immediateValue : Int) : Transformer Unit :=
  if operation = "+=".toList then
    if secOperation = "+".toList then do
      emit ("add ".toList ++ destReg ++ ", ".toList ++ destReg ++ ", ".toList ++ srcReg
        ++ "\n".toList)
      emit ("addi ".toList ++ destReg ++ ", ".toList ++ destReg ++ ", ".toList
        ++ to_string immediateValue ++ "\n".toList)
    else if secOperation = "-".toList then do
      emit ("add ".toList ++ destReg ++ ", ".toList ++ destReg ++ ", ".toList ++ srcReg
        ++ "\n".toList)
      emit ("addi ".toList ++ destReg ++ ", ".toList ++ destReg ++ ", -".toList
        ++ to_string immediateValue ++ "\n".toList)
    else pure ()
  else if operation = "-=".toList then
    if secOperation = "+".toList then do
      emit ("sub ".toList ++ destReg ++ ", ".toList ++ destReg ++ ", ".toList ++ srcReg
        ++ "\n".toList)
      emit ("addi ".toList ++ destReg ++ ", ".toList ++ destReg ++ ", ".toList
        ++ to_string immediateValue ++ "\n".toList)
    else if secOperation = "-".toList then do
      emit ("sub ".toList ++ destReg ++ ", ".toList ++ destReg ++ ", ".toList ++ srcReg
        ++ "\n".toList)
      emit ("addi ".toList ++ destReg ++ ", ".toList ++ destReg ++ ", -".toList
        ++ to_string immediateValue ++ "\n".toList)
    else pure ()
  else if operation = "=".toList then
    if secOperation ≠ [] then
      if secOperation = "+".toList then
        emit ("add ".toList ++ destReg ++ ", ".toList ++ srcReg ++ ", ".toList
          ++ to_string immediateValue ++ "\n".toList)
      else if secOperation = "-".toList then
        emit ("sub ".toList ++ destReg ++ ", ".toList ++ srcReg ++ ", ".toList
          ++ to_string immediateValue ++ "\n".toList)
      else pure ()
    else if isdigit (strAt remainingExpression 0) then
      emit ("li ".toList ++ destReg ++ ", ".toList ++ remainingExpression ++ "\n".toList)
    else
      emit ("move ".toList ++ destReg ++ ", ".toList ++ srcReg ++ "\n".toList)
  else
    throwExc (.runtime_error ("Unsupported operation in expression: ".toList ++ expression))

/-- The method `Transformer::transformExpression`: the text is stripped of
white space and split at its first `=+-*/` (followed by `=` for a compound
operator), the remainder is split by `splitRemaining`, the two registers are
looked up and `emitOperation` appends the instructions. -/
def transformExpression (expr : Node) : Transformer Unit := do
  let expression := expr.leaf.1.filter (fun c => !isspace c)
  match find_first_of expression "=+-*/".toList with
  | none =>
    throwExc (.runtime_error ("Unsupported operation in expression: ".toList ++ expression))
  | some firstOp =>
    let destVariable ← liftE <| substr expression 0 (some firstOp)
    let firstChar ← liftE <| substr expression firstOp (some 1)
    let compound : Bool := strAt expression (firstOp + 1) = '='
    let operation := if compound then firstChar ++ "=".toList else firstChar
    let opPos := if compound then firstOp + 1 else firstOp
    let remainingExpression ← liftE <| substr expression (opPos + 1)
    let (srcVariable, secOperation, immediateValue) ← liftE <| splitRemaining remainingExpression
    let destReg ← lookupReg destVariable
    let srcReg ← lookupReg srcVariable
    emitOperation expression operation secOperation remainingExpression destReg srcReg
      immediateValue

/-- The static counter of `transformIfStatement`: reads `ifCount`, then
`++ifCount` on an `int`. -/
def nextIfCount : Transformer Int := fun s =>
  .ok s.ifCount { s with ifCount := wrapInt (s.ifCount + 1) }

/-- The method `Transformer::transformIfStatement`. -/
def transformIfStatement (ifNode : Node) : Transformer Unit := do
  let condition ← childAt ifNode 0
  let space := find condition.leaf.1 " ".toList
  let varName ← liftE <| substr condition.leaf.1 0 space
  let conditionOperator ← liftE <| substr condition.leaf.1 (succPos space)
  let n ← nextIfCount
  let trueLabel := "IF_TRUE".toList ++ to_string n
  let falseLabel := "IF_FALSE".toList ++ to_string n
  let endIfLabel := "END_IF".toList ++ to_string n
  let reg ← lookupReg varName
  let valueReg ← lookupReg "b".toList
  let compareInstruction ←
    (if conditionOperator = "==".toList then pure "beq".toList
     else if conditionOperator = "!=".toList then pure "bne".toList
     else throwExc (.runtime_error
       ("Unsupported condition operator: ".toList ++ conditionOperator)) : Transformer Str)
  emit (compareInstruction ++ " ".toList ++ reg ++ ", ".toList ++ valueReg ++ ", ".toList
    ++ trueLabel ++ "\n".toList)
  emit ("j ".toList ++ falseLabel ++ "\n".toList)
  emit (trueLabel ++ ":\n".toList)
  let body ← childAt ifNode 1
  transformExpression body
  emit ("j ".toList ++ endIfLabel ++ "\n".toList)
  emit (falseLabel ++ ":\n".toList)
  emit (endIfLabel ++ ":\n".toList)

/-- The body loop of `Transformer::transformForLoop`, over `children[2]`,
`children[3]`, ... in order. -/
def transformForBody : List Node → Transformer Unit
  | [] => pure ()
  | child :: rest => do
    if child.type = "IfStatement".toList then transformIfStatement child
    else if child.type = "Expression".toList then transformExpression child
    else pure ()
    transformForBody rest

/-- The method `Transformer::transformForLoop`. -/
def transformForLoop (forLoop : Node) : Transformer Unit := do
  let init ← childAt forLoop 0
  let initReg ← lookupReg init.leaf.1
  let initializationLine := "li ".toList ++ initReg ++ ", ".toList ++ init.leaf.2
  let details ← (fun s => Outcome.ok s.details s : Transformer Str)
  if find details initializationLine = none then
    emit (initializationLine ++ "\n".toList)
  else pure ()
  let loopStartLabel := "LOOP_START".toList
  let endLoopLabel := "LOOP_END".toList
  emit (loopStartLabel ++ ":\n".toList)
  let cond ← childAt forLoop 1
  let condName ← liftE <| substr cond.leaf.1 0 (find cond.leaf.1 " ".toList)
  let condReg ← lookupReg condName
  let condValue := cond.leaf.2
  emit ("bgt ".toList ++ condReg ++ ", ".toList ++ condValue ++ ", ".toList ++ endLoopLabel
    ++ "\n".toList)
  transformForBody (forLoop.children.drop 2)
  let incr ← childAt forLoop 2
  transformIncrement incr initReg
  emit ("j ".toList ++ loopStartLabel ++ "\n".toList)
  emit (endLoopLabel ++ ":\n".toList)

/-- The loop of `Transformer::transform` over the children of the root. -/
def transformChildren : List Node → Transformer Unit
  | [] => pure ()
  | child :: rest => do
    if child.type = "Declaration".toList then transformDeclaration child
    else if child.type = "ForLoop".toList then transformForLoop child
    else pure ()
    transformChildren rest

/-- The method `Transformer::transform`: a fresh `MIPSNode("", "")`, then the
children of the root in order. -/
def transform (ast : Node) : Transformer Unit := do
  let _ ← (fun s => Outcome.ok () { s with details := [] } : Transformer Unit)
  transformChildren ast.children

/-- The method `CodeGenerator::generateCode`. -/
def generateCode (s : Lowering) : Str := s.details

/-- The pipeline of `main` on the text `code`, in a process whose `ifCount` is
`ifCount` when the transformer starts; `none` when a stage does not end
normally. -/
def compile (code : Str) (ifCount : Int) : Option Str :=
  match tokenize code with
  | none => none
  | some tokens =>
    match parse tokens with
    | .ok ast _ =>
      match transform ast (Transformer.new ifCount) with
      | .ok _ s => some (generateCode s)
      | _ => none
    | _ => none

/-! ## Vocabulary of the statements -/

/-- The register `variableToRegisterMap[name]` evaluates to in the map `m`:
the mapped value, or the empty string for a missing key. -/
def regOf (m : List (Str × Str)) (name : Str) : Str := (m.lookup name).getD []

/-- The map after `variableToRegisterMap[name]` was evaluated. -/
def touch (m : List (Str × Str)) (name : Str) : List (Str × Str) :=
  match m.lookup name with
  | some _ => m
  | none => m ++ [(name, [])]

/-- The variable name `transformIfStatement` and `transformForLoop` read from
the first leaf field of a condition: the text before the first space (all of
it without a space). -/
def conditionName (first : Str) : Str := substring first 0 (find first " ".toList)

/-- The operator `transformIfStatement` reads from the first leaf field of a
condition: the text after the first space (all of it without a space). -/
def conditionOperator (first : Str) : Str :=
  substring first (succPos (find first " ".toList)) none

/-- The computation `x`, started in `s`, ends normally and has appended exactly
`text` to `details`. -/
def Appends (x : Transformer Unit) (s : Lowering) (text : Str) : Prop :=
  ∃ s1, x s = .ok () s1 ∧ s1.details = s.details ++ text

/-- The lines of a text: it is cut after each newline; the rest after the last
newline is a line if it is not empty. -/
def lines : Str → List Str
  | [] => []
  | c :: cs =>
    if c = '\n' then [] :: lines cs
    else
      match lines cs with
      | [] => [[c]]
      | l :: ls => (c :: l) :: ls

/-- The text `t` consists of whole lines (each ended by a newline), none of
which starts with the letter `L`; with `start = false` the text begins in the
middle of a line. -/
def lined : Bool → Str → Bool
  | start, [] => start
  | start, c :: r =>
    if c = '\n' then lined true r else (!start || c != 'L') && lined false r

/-- No register of the map contains a newline. -/
def CleanRegs (m : List (Str × Str)) : Prop := ∀ k, '\n' ∉ regOf m k

/-- The text `transformForLoop` appends before the body loop, started in `s` on
a loop with the given initialization and condition nodes: the line
`li R, V` unless `find` locates it in `details`, then `LOOP_START:` and the
`bgt` exit test. -/
def loopHead (s : Lowering) (init cond : Node) : Str :=
  let initializationLine :=
    "li ".toList ++ regOf s.variableToRegisterMap init.leaf.1 ++ ", ".toList ++ init.leaf.2
  (if find s.details initializationLine = none then initializationLine ++ "\n".toList else [])
    ++ "LOOP_START:\n".toList
    ++ ("bgt ".toList ++ regOf s.variableToRegisterMap (conditionName cond.leaf.1)
        ++ ", ".toList ++ cond.leaf.2 ++ ", LOOP_END\n".toList)

/-- The exit-test line of a loop, without its newline: `bgt R, V, LOOP_END` with
`R` the register of the name `name` and `V` the compare value. -/
def exitTest (s : Lowering) (name value : Str) : Str :=
  "bgt ".toList ++ regOf s.variableToRegisterMap name ++ ", ".toList ++ value
    ++ ", LOOP_END".toList

/-- The state in which `transformForLoop` starts its body loop. -/
def afterHead (s : Lowering) (init cond : Node) : Lowering :=
  { variableToRegisterMap :=
      touch (touch s.variableToRegisterMap init.leaf.1) (conditionName cond.leaf.1)
    ifCount := s.ifCount
    details := s.details ++ loopHead s init cond }

/-- An identifier: letters and digits, starting with a letter. -/
def IsIdentifier (d : Str) : Prop :=
  (∃ c r, d = c :: r ∧ isalpha c = true) ∧ ∀ c ∈ d, isalnum c = true

/-- A non-empty string of decimal digits. -/
def IsNumber (n : Str) : Prop := n ≠ [] ∧ ∀ c ∈ n, isdigit c = true

/-- The example program of `main`. -/
def exampleCode : Str :=
  ("int a = 3; int b = 4; int i; for (i = 0; i <= 3; i++) \x7b if (a == b) \x7b a += i + 2; \x7d "
    ++ "if (a != b ) \x7b a = a + 1; \x7d \x7d").toList

/-- A small loop, `for (i = 0; i <= 3; i++) \x7b a = a + 1; \x7d`. -/
def loopCode : Str := "for (i = 0; i <= 3; i++) \x7b a = a + 1; \x7d".toList

/-- The tokens of `loopCode`. -/
def loopTokens : List Token :=
  [⟨.Keyword, "for".toList⟩, ⟨.Punctuation, "(".toList⟩, ⟨.Identifier, "i".toList⟩,
   ⟨.Operator, "=".toList⟩, ⟨.Number, "0".toList⟩, ⟨.Punctuation, ";".toList⟩,
   ⟨.Identifier, "i".toList⟩, ⟨.Operator, "<=".toList⟩, ⟨.Number, "3".toList⟩,
   ⟨.Punctuation, ";".toList⟩, ⟨.Identifier, "i".toList⟩, ⟨.Operator, "++".toList⟩,
   ⟨.Punctuation, ")".toList⟩, ⟨.Punctuation, "\x7b".toList⟩, ⟨.Identifier, "a".toList⟩,
   ⟨.Operator, "=".toList⟩, ⟨.Identifier, "a".toList⟩, ⟨.Operator, "+".toList⟩,
   ⟨.Number, "1".toList⟩, ⟨.Punctuation, ";".toList⟩, ⟨.Punctuation, "\x7d".toList⟩]

/-- The `ForLoop` node of `loopCode`. -/
def loopNode : Node :=
  ⟨"ForLoop".toList,
    [⟨"Initialization".toList, [], ("i".toList, "0".toList)⟩,
     ⟨"Condition".toList, [], ("i <=".toList, "3".toList)⟩,
     ⟨"Increment".toList, [], ("i".toList, "++".toList)⟩,
     ⟨"Expression".toList, [], ("a = a + 1 ".toList, [])⟩], ([], [])⟩

/-- The pipeline of `main` up to and including `transform`, with the outcome of
the transformer; `none` when scanning or parsing does not return a tree. -/
def lower (code : Str) (ifCount : Int) : Option (Outcome Lowering Unit) :=
  match tokenize code with
  | none => none
  | some tokens =>
    match parse tokens with
    | .ok ast _ => some (transform ast (Transformer.new ifCount))
    | _ => none

/-- Two successive runs of the pipeline of `main` on the same text in one
process, each on a freshly parsed tree and with a new `Transformer`: the first
starts with `ifCount = 0`, the second with the `ifCount` the first left.  The
result is the pair of the two output texts. -/
def compileTwice (code : Str) : Option (Str × Str) :=
  match lower code 0 with
  | some (.ok _ s1) =>
    match lower code s1.ifCount with
    | some (.ok _ s2) => some (generateCode s1, generateCode s2)
    | _ => none
  | _ => none

/-- The text `t` consists of whole lines (each ended by a newline), none of
which starts with a character for which `bad` holds; with `start = false` the
text begins in the middle of a line. -/
def linedBy (bad : Char → Bool) : Bool → Str → Bool
  | start, [] => start
  | start, c :: r =>
    if c = '\n' then linedBy bad true r else (!start || !bad c) && linedBy bad false r

/-- The first letters of the if-labels `IF_TRUE..`, `IF_FALSE..`, `END_IF..`. -/
def labelStart (c : Char) : Bool := c == 'I' || c == 'E'

/-- No character is excluded at the start of a line: `linedBy anyStart true t`
says that `t` is empty or ends with a newline. -/
def anyStart (_ : Char) : Bool := false

/-- The line `l` has the form of an if-label: it starts with `IF_TRUE`,
`IF_FALSE` or `END_IF`. -/
def isIfLabel (l : Str) : Bool :=
  "IF_TRUE".toList.isPrefixOf l || "IF_FALSE".toList.isPrefixOf l
    || "END_IF".toList.isPrefixOf l

/-- The if-label lines of a text, in order. -/
def labelLines (t : Str) : List Str := (lines t).filter isIfLabel

/-- The three label lines of the if-statement lowered with counter `n`, in the
order in which `transformIfStatement` emits them. -/
def ifLabels (n : Int) : List Str :=
  ["IF_TRUE".toList ++ to_string n ++ ":".toList,
   "IF_FALSE".toList ++ to_string n ++ ":".toList,
   "END_IF".toList ++ to_string n ++ ":".toList]

/-- The text `transformIfStatement` appends: branch line with instruction
`instr` on the registers `R` and `Rb`, jump to the false label, true label, the
text of the body, jump to the end label, false label, end label; `n` is the
printed counter. -/
def ifBlock (instr R Rb n bodyText : Str) : Str :=
  (instr ++ " ".toList ++ R ++ ", ".toList ++ Rb ++ ", IF_TRUE".toList ++ n) ++ "\n".toList
    ++ (("j IF_FALSE".toList ++ n) ++ "\n".toList
    ++ (("IF_TRUE".toList ++ n ++ ":".toList) ++ "\n".toList
    ++ (bodyText
    ++ (("j END_IF".toList ++ n) ++ "\n".toList
    ++ (("IF_FALSE".toList ++ n ++ ":".toList) ++ "\n".toList
    ++ (("END_IF".toList ++ n ++ ":".toList) ++ "\n".toList))))))

/-- The number of `IfStatement` nodes the body loop of `transformForLoop` meets
in a list of children. -/
def countIfs (body : List Node) : Nat :=
  (body.filter (fun c => c.type = "IfStatement".toList)).length

/-- The number of if-statements `transformChildren` lowers on the children of a
root: those of the body loops of the `ForLoop` children. -/
def countIfsOfChildren : List Node → Nat
  | [] => 0
  | child :: rest =>
    (if child.type = "ForLoop".toList then countIfs (child.children.drop 2) else 0)
      + countIfsOfChildren rest

/-- No payload that the lowering copies into the output contains a newline:
the second leaf field of every child of the root and of every grandchild. -/
def CleanTree (ast : Node) : Prop :=
  ∀ c ∈ ast.children, '\n' ∉ c.leaf.2 ∧ ∀ g ∈ c.children, '\n' ∉ g.leaf.2

/-- The line `addi R, R, k`, with its newline. -/
def addiLine (R k : Str) : Str :=
  "addi ".toList ++ R ++ ", ".toList ++ R ++ ", ".toList ++ k ++ "\n".toList

/-- The tree of `int a = 0;` followed by a loop that holds one if-statement. -/
def ifLoopTree : Node :=
  ⟨"Root".toList,
    [⟨"Declaration".toList, [], ("a".toList, "0".toList)⟩,
     ⟨"ForLoop".toList,
       [⟨"Initialization".toList, [], ("i".toList, "0".toList)⟩,
        ⟨"Condition".toList, [], ("i <=".toList, "3".toList)⟩,
        ⟨"Increment".toList, [], ("i".toList, "++".toList)⟩,
        ⟨"IfStatement".toList,
          [⟨"Condition".toList, [], ("a ==".toList, "b".toList)⟩,
           ⟨"Expression".toList, [], ("a = a + 1 ".toList, [])⟩], ([], [])⟩],
       ([], [])⟩],
    ([], [])⟩

/-- A loop that holds one if-statement. -/
def ifLoopCode : Str :=
  "for (i = 0; i <= 3; i++) \x7b if (a == b) \x7b a = a + 1; \x7d \x7d".toList

/-- The node has the type `t` and no children. -/
def isLeaf (t : Str) (n : Node) : Bool := n.type == t && n.children.isEmpty

/-- The shape of an `IfStatement`: a `Condition` as first child and only
`Expression` nodes after it, all without children. -/
def ifShape (n : Node) : Bool :=
  n.type == "IfStatement".toList &&
    match n.children with
    | cond :: body => isLeaf "Condition".toList cond && body.all (isLeaf "Expression".toList)
    | [] => false

/-- The shape of a `ForLoop`: at least three children, the first three an
`Initialization`, a `Condition` and an `Increment` without children, every
later child an `IfStatement` of the shape above or an `Expression` without
children. -/
def forShape (n : Node) : Bool :=
  n.type == "ForLoop".toList &&
    match n.children with
    | init :: cond :: incr :: body =>
      isLeaf "Initialization".toList init && isLeaf "Condition".toList cond
        && isLeaf "Increment".toList incr
        && body.all (fun b => ifShape b || isLeaf "Expression".toList b)
    | _ => false

/-- The shape invariant of a tree: every child of the root is a `Declaration`
without children or a `ForLoop` of the shape above. -/
def shapeInvariant (root : Node) : Bool :=
  root.children.all (fun c => isLeaf "Declaration".toList c || forShape c)

/-- The tokens of `ifLoopCode`. -/
def ifLoopTokens : List Token :=
  [⟨.Keyword, "for".toList⟩, ⟨.Punctuation, "(".toList⟩, ⟨.Identifier, "i".toList⟩,
   ⟨.Operator, "=".toList⟩, ⟨.Number, "0".toList⟩, ⟨.Punctuation, ";".toList⟩,
   ⟨.Identifier, "i".toList⟩, ⟨.Operator, "<=".toList⟩, ⟨.Number, "3".toList⟩,
   ⟨.Punctuation, ";".toList⟩, ⟨.Identifier, "i".toList⟩, ⟨.Operator, "++".toList⟩,
   ⟨.Punctuation, ")".toList⟩, ⟨.Punctuation, "\x7b".toList⟩, ⟨.Keyword, "if".toList⟩,
   ⟨.Punctuation, "(".toList⟩, ⟨.Identifier, "a".toList⟩, ⟨.Operator, "==".toList⟩,
   ⟨.Identifier, "b".toList⟩, ⟨.Punctuation, ")".toList⟩, ⟨.Punctuation, "\x7b".toList⟩,
   ⟨.Identifier, "a".toList⟩, ⟨.Operator, "=".toList⟩, ⟨.Identifier, "a".toList⟩,
   ⟨.Operator, "+".toList⟩, ⟨.Number, "1".toList⟩, ⟨.Punctuation, ";".toList⟩,
   ⟨.Punctuation, "\x7d".toList⟩, ⟨.Punctuation, "\x7d".toList⟩]

/-- The tree `parse` returns on `ifLoopTokens`. -/
def ifLoopParsed : Node :=
  ⟨"Root".toList,
    [⟨"ForLoop".toList,
       [⟨"Initialization".toList, [], ("i".toList, "0".toList)⟩,
        ⟨"Condition".toList, [], ("i <=".toList, "3".toList)⟩,
        ⟨"Increment".toList, [], ("i".toList, "++".toList)⟩,
        ⟨"IfStatement".toList,
          [⟨"Condition".toList, [], ("a ==".toList, "b".toList)⟩,
           ⟨"Expression".toList, [], ("a = a + 1 ".toList, [])⟩], ([], [])⟩],
       ([], [])⟩],
    ([], [])⟩

/-- The text of a loop whose increment operator is the token `+=`. -/
def plusAssignCode : Str := "for (i = 0; i <= 3; i +=) \x7b \x7d".toList

/-- The tokens of `plusAssignCode`. -/
def plusAssignTokens : List Token :=
  [⟨.Keyword, "for".toList⟩, ⟨.Punctuation, "(".toList⟩, ⟨.Identifier, "i".toList⟩,
   ⟨.Operator, "=".toList⟩, ⟨.Number, "0".toList⟩, ⟨.Punctuation, ";".toList⟩,
   ⟨.Identifier, "i".toList⟩, ⟨.Operator, "<=".toList⟩, ⟨.Number, "3".toList⟩,
   ⟨.Punctuation, ";".toList⟩, ⟨.Identifier, "i".toList⟩, ⟨.Operator, "+=".toList⟩,
   ⟨.Punctuation, ")".toList⟩, ⟨.Punctuation, "\x7b".toList⟩, ⟨.Punctuation, "\x7d".toList⟩]

/-- The `ForLoop` node of `plusAssignCode`. -/
def plusAssignLoop : Node :=
  ⟨"ForLoop".toList,
    [⟨"Initialization".toList, [], ("i".toList, "0".toList)⟩,
     ⟨"Condition".toList, [], ("i <=".toList, "3".toList)⟩,
     ⟨"Increment".toList, [], ("i".toList, "+=".toList)⟩],
    ([], [])⟩

/-- The tree `parse` returns on `plusAssignTokens`. -/
def plusAssignParsed : Node := ⟨"Root".toList, [plusAssignLoop], ([], [])⟩

/-- The tokens of `int a = 3; int b; int x;`. -/
def declTokens : List Token :=
  [⟨.Keyword, "int".toList⟩, ⟨.Identifier, "a".toList⟩, ⟨.Operator, "=".toList⟩,
   ⟨.Number, "3".toList⟩, ⟨.Punctuation, ";".toList⟩,
   ⟨.Keyword, "int".toList⟩, ⟨.Identifier, "b".toList⟩, ⟨.Punctuation, ";".toList⟩,
   ⟨.Keyword, "int".toList⟩, ⟨.Identifier, "x".toList⟩, ⟨.Punctuation, ";".toList⟩]

/-- The tree `parse` returns on `declTokens`. -/
def declParsed : Node :=
  ⟨"Root".toList,
    [⟨"Declaration".toList, [], ("a".toList, "3".toList)⟩,
     ⟨"Declaration".toList, [], ("b".toList, "0".toList)⟩,
     ⟨"Declaration".toList, [], ("x".toList, "0".toList)⟩],
    ([], [])⟩

/-- The characters the scanner puts into tokens: letters, digits, the
characters of `operators` and those of `punctuation`. -/
def recognized (c : Char) : Bool :=
  isalpha c || isdigit c || decide (c ∈ operators) || decide (c ∈ punctuation)

/-- The texts of the tokens, concatenated in order. -/
def tokenTexts (tokens : List Token) : Str := (tokens.map (fun t => t.value)).flatten

/-! ## Basic facts about the monad and the state operations -/

section Basics

variable {σ α β : Type}

@[simp] theorem bind_apply (x : M σ α) (f : α → M σ β) (s : σ) :
    (x >>= f) s =
      match x s with
      | .ok a s1 => f a s1
      | .thrown e s1 => .thrown e s1
      | .outOfBounds i n => .outOfBounds i n
      | .fuel => .fuel := rfl

@[simp] theorem pure_apply (a : α) (s : σ) : (pure a : M σ α) s = .ok a s := rfl

@[simp] theorem throwExc_apply (e : Exception) (s : σ) :
    (throwExc e : M σ α) s = .thrown e s := rfl

@[simp] theorem liftE_ok (a : α) (s : σ) : (liftE (.ok a) : M σ α) s = .ok a s := rfl

@[simp] theorem liftE_error (e : Exception) (s : σ) :
    (liftE (.error e) : M σ α) s = .thrown e s := rfl

@[simp] theorem except_bind_ok {ε : Type} (a : α) (f : α → Except ε β) :
    (Except.ok a >>= f) = f a := rfl

@[simp] theorem except_bind_error {ε : Type} (e : ε) (f : α → Except ε β) :
    (Except.error e >>= f) = Except.error e := rfl

@[simp] theorem except_pure {ε : Type} (a : α) : (pure a : Except ε α) = Except.ok a := rfl

@[simp] theorem except_map_ok {ε : Type} (a : α) (f : α → β) :
    (f <$> (Except.ok a : Except ε α)) = Except.ok (f a) := rfl

@[simp] theorem except_map_error {ε : Type} (e : ε) (f : α → β) :
    (f <$> (Except.error e : Except ε α)) = Except.error e := rfl

theorem substr_ok (t : Str) (pos : Nat) (count : Option Nat) (h : pos ≤ t.length) :
    substr t pos count = .ok (substring t pos count) := by
  simp [substr, h]

@[simp] theorem substr_zero (t : Str) (count : Option Nat) :
    substr t 0 count = .ok (substring t 0 count) :=
  substr_ok t 0 count (Nat.zero_le _)

end Basics

@[simp] theorem emit_apply (text : Str) (s : Lowering) :
    emit text s = .ok () { s with details := s.details ++ text } := rfl

@[simp] theorem lookupReg_apply (name : Str) (s : Lowering) :
    lookupReg name s =
      .ok (regOf s.variableToRegisterMap name)
        { s with variableToRegisterMap := touch s.variableToRegisterMap name } := by
  unfold lookupReg regOf touch
  cases h : List.lookup name s.variableToRegisterMap <;> simp

@[simp] theorem regOf_touch (m : List (Str × Str)) (k name : Str) :
    regOf (touch m k) name = regOf m name := by
  unfold regOf touch
  cases h : List.lookup k m with
  | some v => simp
  | none =>
    simp only [List.lookup_append]
    by_cases hk : name = k
    · subst hk; simp [h, List.lookup]
    · have : (name == k) = false := by simpa using hk
      simp [List.lookup, this]

theorem find_lt (needle : Str) : ∀ (t : Str) (p : Nat),
    find t needle = some p → p + needle.length ≤ t.length
  | [], p, h => by
    unfold find at h
    split at h <;> simp_all
  | c :: cs, p, h => by
    unfold find at h
    split at h
    · rename_i hp
      have hpre := List.isPrefixOf_iff_prefix.mp hp
      have := hpre.length_le
      simp at h this ⊢
      omega
    · cases hq : find cs needle with
      | none => simp [hq] at h
      | some q =>
        simp [hq] at h
        have := find_lt needle cs q hq
        simp
        omega

theorem succPos_find_le (t : Str) (c : Char) : succPos (find t [c]) ≤ t.length := by
  cases h : find t [c] with
  | none => simp [succPos]
  | some p =>
    have := find_lt _ _ _ h
    simpa [succPos] using this

@[simp] theorem substr_succPos_find (t : Str) (c : Char) (count : Option Nat) :
    substr t (succPos (find t [c])) count = .ok (substring t (succPos (find t [c])) count) :=
  substr_ok _ _ _ (succPos_find_le t c)

/-- C1: the pipeline of `main` on the example program, with the if-label counter
at 0, returns exactly the 23 listed lines, each ended by a newline; the
initialization `li $t1, 0` of the loop is not emitted a second time. -/
theorem compile_example :
    compile exampleCode 0 = some
      ("li $t0, 3\nli $t2, 4\nli $t1, 0\nLOOP_START:\nbgt $t1, 3, LOOP_END\n"
        ++ "beq $t0, $t2, IF_TRUE0\nj IF_FALSE0\nIF_TRUE0:\n"
        ++ "add $t0, $t0, $t1\naddi $t0, $t0, 2\nj END_IF0\nIF_FALSE0:\nEND_IF0:\n"
        ++ "bne $t0, $t2, IF_TRUE1\nj IF_FALSE1\nIF_TRUE1:\n"
        ++ "add $t0, $t0, 1\nj END_IF1\nIF_FALSE1:\nEND_IF1:\n"
        ++ "addi $t1, $t1, 1\nj LOOP_START\nLOOP_END:\n").toList := by
  decide!

/-- C9: an if-statement whose condition operator is neither `==` nor `!=` makes
`transformIfStatement` throw the unsupported-operator error, and `details` at
the throw is what it was before the call. -/
theorem transformIfStatement_unsupported (type : Str) (leaf : Str × Str) (cond : Node)
    (body : List Node) (s : Lowering)
    (heq : conditionOperator cond.leaf.1 ≠ "==".toList)
    (hne : conditionOperator cond.leaf.1 ≠ "!=".toList) :
    ∃ s1, transformIfStatement ⟨type, cond :: body, leaf⟩ s =
        .thrown (.runtime_error
          ("Unsupported condition operator: ".toList ++ conditionOperator cond.leaf.1)) s1
      ∧ s1.details = s.details := by
  simp only [conditionOperator] at heq hne
  simp at heq hne
  simp [transformIfStatement, childAt, nextIfCount, conditionOperator, heq, hne]

/-- Witness of C9 at an if-statement with the condition `a < b`. -/
theorem transformIfStatement_unsupported_witness :
    ∃ s1, transformIfStatement
        ⟨"IfStatement".toList, [⟨"Condition".toList, [], ("a <".toList, "b".toList)⟩],
          ([], [])⟩ (Transformer.new 0) =
        .thrown (.runtime_error
          ("Unsupported condition operator: ".toList ++ conditionOperator "a <".toList)) s1
      ∧ s1.details = [] :=
  transformIfStatement_unsupported _ _ ⟨"Condition".toList, [], ("a <".toList, "b".toList)⟩ []
    (Transformer.new 0) (by decide) (by decide)

/-- C10 (counterexample): the declaration `int x = 1;` of a variable outside the
symbol table is lowered without any error, to the line `li , 1` whose register
operand is empty. -/
theorem compile_unmapped_declaration :
    compile "int x = 1;".toList 0 = some "li , 1\n".toList := by
  decide!

/-- C10 (amended): from the map of the constructor, `variableToRegisterMap[name]`
for a name other than `a`, `i`, `b` does not throw but evaluates to the empty
string, and `transformDeclaration` of such a name appends `li , value`. -/
theorem transformDeclaration_unmapped (type : Str) (children : List Node) (name value : Str)
    (s : Lowering)
    (hmap : s.variableToRegisterMap = (Transformer.new 0).variableToRegisterMap)
    (hname : name ∉ ["a".toList, "i".toList, "b".toList]) :
    (∃ s1, lookupReg name s = .ok [] s1) ∧
      Appends (transformDeclaration ⟨type, children, (name, value)⟩) s
        ("li , ".toList ++ value ++ "\n".toList) := by
  have hreg : regOf s.variableToRegisterMap name = [] := by
    simp at hname
    obtain ⟨ha, hi, hb⟩ := hname
    have ha1 : (name == ['a']) = false := by simpa using ha
    have hi1 : (name == ['i']) = false := by simpa using hi
    have hb1 : (name == ['b']) = false := by simpa using hb
    simp [hmap, Transformer.new, regOf, List.lookup, ha1, hi1, hb1]
  simp [Appends, transformDeclaration, hreg]

/-- Witness of C10 (amended) at the declaration `int x = 1;`. -/
theorem transformDeclaration_unmapped_witness :
    (∃ s1, lookupReg "x".toList (Transformer.new 0) = .ok [] s1) ∧
      Appends (transformDeclaration ⟨"Declaration".toList, [], ("x".toList, "1".toList)⟩)
        (Transformer.new 0) ("li , ".toList ++ "1".toList ++ "\n".toList) :=
  transformDeclaration_unmapped _ _ _ _ (Transformer.new 0) rfl (by decide)

/-! ## Facts about the string operations -/

theorem find_first_of_append (chars d rest : Str) (c : Char)
    (hd : ∀ x ∈ d, x ∉ chars) (hc : c ∈ chars) :
    find_first_of (d ++ c :: rest) chars = some d.length := by
  induction d with
  | nil => simp [find_first_of, hc]
  | cons x xs ih =>
    have hx : x ∉ chars := hd x (by simp)
    have := ih (fun y hy => hd y (by simp [hy]))
    simp [find_first_of, hx, this]

theorem find_first_of_none (chars d : Str) (hd : ∀ x ∈ d, x ∉ chars) :
    find_first_of d chars = none := by
  induction d with
  | nil => simp [find_first_of]
  | cons x xs ih =>
    have hx : x ∉ chars := hd x (by simp)
    have := ih (fun y hy => hd y (by simp [hy]))
    simp [find_first_of, hx, this]

theorem substring_prefix (d rest : Str) : substring (d ++ rest) 0 (some d.length) = d := by
  simp [substring]

theorem substring_one (d rest : Str) (c : Char) :
    substring (d ++ c :: rest) d.length (some 1) = [c] := by
  simp [substring]

theorem substring_after_one (d rest : Str) (c : Char) :
    substring (d ++ c :: rest) (d.length + 1) none = rest := by
  have : d ++ c :: rest = (d ++ [c]) ++ rest := by simp
  rw [substring, this, List.drop_left' (by simp)]

theorem substring_after_two (d rest : Str) (c e : Char) :
    substring (d ++ c :: e :: rest) (d.length + 1 + 1) none = rest := by
  have : d ++ c :: e :: rest = (d ++ [c, e]) ++ rest := by simp
  rw [substring, this, List.drop_left' (by simp)]

theorem substr_one (d rest : Str) (c : Char) :
    substr (d ++ c :: rest) d.length (some 1) = .ok [c] := by
  rw [substr_ok _ _ _ (by simp), substring_one]

theorem substr_after_one (d rest : Str) (c : Char) :
    substr (d ++ c :: rest) (d.length + 1) none = .ok rest := by
  rw [substr_ok _ _ _ (by simp), substring_after_one]

theorem substr_after_two (d rest : Str) (c e : Char) :
    substr (d ++ c :: e :: rest) (d.length + 1 + 1) none = .ok rest := by
  rw [substr_ok _ _ _ (by simp; omega), substring_after_two]

theorem strAt_append (d rest : Str) (c : Char) : strAt (d ++ c :: rest) d.length = c := by
  induction d with
  | nil => simp [strAt]
  | cons x xs ih => simpa [strAt] using ih

theorem strAt_append_succ (d rest : Str) (c e : Char) :
    strAt (d ++ c :: e :: rest) (d.length + 1) = e := by
  have : d ++ c :: e :: rest = (d ++ [c]) ++ e :: rest := by simp
  rw [this]
  have := strAt_append (d ++ [c]) rest e
  simpa using this

/-- A letter or digit is none of the operator characters `=+-*/`. -/
theorem isalnum_not_op (c : Char) (h : isalnum c = true) : c ∉ ['=', '+', '-', '*', '/'] := by
  intro hc
  simp at hc
  rcases hc with rfl | rfl | rfl | rfl | rfl <;> revert h <;> decide

theorem isdigit_not_op (c : Char) (h : isdigit c = true) : c ∉ ['+', '-', '*', '/'] := by
  intro hc
  simp at hc
  rcases hc with rfl | rfl | rfl | rfl <;> revert h <;> decide

theorem isdigit_not_space (c : Char) (h : isdigit c = true) : isspace c = false := by
  have h1 : 48 ≤ c.toNat := by
    simp [isdigit] at h
    exact h.1
  unfold isspace
  have hne : ∀ d : Char, d.toNat < 48 → (c == d) = false := by
    intro d hd
    simp
    rintro rfl
    omega
  simp [hne ' ' (by decide), hne '\t' (by decide), hne '\n' (by decide),
    hne '\x0b' (by decide), hne '\x0c' (by decide), hne '\r' (by decide)]

/-- On a non-empty digit string whose value fits in an `int`, `std::stoi` returns
the value. -/
theorem stoi_number (n : Str) (hn : IsNumber n)
    (hfit : digitsValue n ≤ 2147483647) :
    stoi n = .ok (digitsValue n : Int) := by
  obtain ⟨hne, hdig⟩ := hn
  obtain ⟨c, r, rfl⟩ := List.exists_cons_of_ne_nil hne
  have hc : isdigit c = true := hdig c (by simp)
  have hsp : isspace c = false := isdigit_not_space c hc
  have hminus : c ≠ '-' := by rintro rfl; revert hc; decide
  have hplus : c ≠ '+' := by rintro rfl; revert hc; decide
  have htake : List.takeWhile isdigit (c :: r) = c :: r :=
    List.takeWhile_eq_self_iff.mpr hdig
  have hfit2 : ¬ (2147483647 : Int) < (digitsValue (c :: r) : Int) := by omega
  have hfit3 : ¬ ((digitsValue (c :: r) : Int) < -2147483648) := by omega
  have hsign : stripSign (c :: r) = (false, c :: r) := by
    unfold stripSign
    split
    · rename_i heq; simp at heq; exact absurd heq.1 hminus
    · rename_i heq; simp at heq; exact absurd heq.1 hplus
    · rfl
  unfold stoi
  simp only [List.dropWhile, hsp, hsign, htake]
  simp [hfit2, hfit3]

theorem identifier_no_op {d : Str} (h : IsIdentifier d) :
    ∀ x ∈ d, x ∉ ['=', '+', '-', '*', '/'] :=
  fun x hx => isalnum_not_op x (h.2 x hx)

theorem isalnum_not_arith (c : Char) (h : isalnum c = true) : c ∉ ['+', '-', '*', '/'] := by
  intro hc
  simp at hc
  rcases hc with rfl | rfl | rfl | rfl <;> revert h <;> decide

theorem identifier_no_arith {d : Str} (h : IsIdentifier d) :
    ∀ x ∈ d, x ∉ ['+', '-', '*', '/'] :=
  fun x hx => isalnum_not_arith x (h.2 x hx)

/-- C7 (amended): on the text of `d = s - n`, `transformExpression` appends the
single line `sub D, S, n`, the immediate printed as its decimal value and not
negated. -/
theorem transformExpression_assign_minus (type : Str) (children : List Node) (text unused : Str)
    (d s n : Str) (st : Lowering)
    (hd : IsIdentifier d) (hs : IsIdentifier s) (hn : IsNumber n)
    (hfit : digitsValue n ≤ 2147483647)
    (htext : text.filter (fun c => !isspace c) = d ++ "=".toList ++ s ++ "-".toList ++ n) :
    Appends (transformExpression ⟨type, children, (text, unused)⟩) st
      ("sub ".toList ++ regOf st.variableToRegisterMap d ++ ", ".toList
        ++ regOf st.variableToRegisterMap s ++ ", ".toList
        ++ to_string (digitsValue n) ++ "\n".toList) := by
  simp only [String.toList, List.append_assoc, List.cons_append, List.nil_append] at htext
  have hhead : strAt (d ++ '=' :: (s ++ '-' :: n)) (d.length + 1) ≠ '=' := by
    obtain ⟨c, r, rfl, hc⟩ := hs.1
    rw [List.cons_append, strAt_append_succ]
    rintro rfl; revert hc; decide
  have h1 := find_first_of_append ['=', '+', '-', '*', '/'] d (s ++ '-' :: n) '='
    (identifier_no_op hd) (by decide)
  have h2 := find_first_of_append ['+', '-', '*', '/'] s n '-' (identifier_no_arith hs) (by decide)
  unfold Appends transformExpression splitRemaining emitOperation
  simp only [htext]
  simp [h1, substring_prefix, substr_one, hhead,
    substr_after_one, h2, strAt_append, stoi_number _ hn hfit]

theorem number_no_arith {n : Str} (h : IsNumber n) : ∀ x ∈ n, x ∉ ['+', '-', '*', '/'] :=
  fun x hx => isdigit_not_op x (h.2 x hx)

theorem isalpha_not_digit (c : Char) (h : isalpha c = true) : isdigit c = false := by
  simp [isalpha] at h
  have h1 : ∀ a b : Char, a ≤ b ↔ a.toNat ≤ b.toNat := fun a b => Iff.rfl
  simp only [h1] at h
  have : ¬ (c.toNat ≤ 57) := by
    have e1 : ('a' : Char).toNat = 97 := rfl
    have e2 : ('A' : Char).toNat = 65 := rfl
    omega
  simp [isdigit, h1]
  intro _
  have e3 : ('9' : Char).toNat = 57 := rfl
  omega

/-- C6: the table of `transformExpression`.  For identifiers `d`, `s` and a
non-empty digit string `n` whose value fits in an `int`, and for every text
that is one of the seven statement forms up to white space, the lines of the
table are appended (`D`, `S` the registers of `d` and `s`, the immediate of the
two-operand forms printed as its decimal value, the literal of `d = n` as
written). -/
theorem transformExpression_table (type : Str) (children : List Node) (unused : Str)
    (d s n : Str) (st : Lowering)
    (hd : IsIdentifier d) (hs : IsIdentifier s) (hn : IsNumber n)
    (hfit : digitsValue n ≤ 2147483647) :
    let D := regOf st.variableToRegisterMap d
    let S := regOf st.variableToRegisterMap s
    let imm := to_string (digitsValue n)
    let strip := fun (text : Str) => text.filter (fun c => !isspace c)
    let lower := fun (text : Str) => transformExpression ⟨type, children, (text, unused)⟩
    (∀ text, strip text = d ++ "+=".toList ++ s ++ "+".toList ++ n →
      Appends (lower text) st
        ("add ".toList ++ D ++ ", ".toList ++ D ++ ", ".toList ++ S ++ "\n".toList
          ++ "addi ".toList ++ D ++ ", ".toList ++ D ++ ", ".toList ++ imm ++ "\n".toList)) ∧
    (∀ text, strip text = d ++ "+=".toList ++ s ++ "-".toList ++ n →
      Appends (lower text) st
        ("add ".toList ++ D ++ ", ".toList ++ D ++ ", ".toList ++ S ++ "\n".toList
          ++ "addi ".toList ++ D ++ ", ".toList ++ D ++ ", -".toList ++ imm ++ "\n".toList)) ∧
    (∀ text, strip text = d ++ "-=".toList ++ s ++ "+".toList ++ n →
      Appends (lower text) st
        ("sub ".toList ++ D ++ ", ".toList ++ D ++ ", ".toList ++ S ++ "\n".toList
          ++ "addi ".toList ++ D ++ ", ".toList ++ D ++ ", ".toList ++ imm ++ "\n".toList)) ∧
    (∀ text, strip text = d ++ "-=".toList ++ s ++ "-".toList ++ n →
      Appends (lower text) st
        ("sub ".toList ++ D ++ ", ".toList ++ D ++ ", ".toList ++ S ++ "\n".toList
          ++ "addi ".toList ++ D ++ ", ".toList ++ D ++ ", -".toList ++ imm ++ "\n".toList)) ∧
    (∀ text, strip text = d ++ "=".toList ++ s ++ "+".toList ++ n →
      Appends (lower text) st
        ("add ".toList ++ D ++ ", ".toList ++ S ++ ", ".toList ++ imm ++ "\n".toList)) ∧
    (∀ text, strip text = d ++ "=".toList ++ n →
      Appends (lower text) st ("li ".toList ++ D ++ ", ".toList ++ n ++ "\n".toList)) ∧
    (∀ text, strip text = d ++ "=".toList ++ s →
      Appends (lower text) st ("move ".toList ++ D ++ ", ".toList ++ S ++ "\n".toList)) := by
  dsimp only
  refine ⟨?_, ?_, ?_, ?_, ?_, ?_, ?_⟩
  ·
    intro text htext
    simp only [String.toList, List.append_assoc, List.cons_append, List.nil_append] at htext
    have hhead : strAt (d ++ '+' :: '=' :: (s ++ '+' :: n)) (d.length + 1) = '=' :=
      strAt_append_succ _ _ _ _
    have h1 := find_first_of_append ['=', '+', '-', '*', '/'] d ('=' :: (s ++ '+' :: n)) '+'
      (identifier_no_op hd) (by decide)
    have h2 := find_first_of_append ['+', '-', '*', '/'] s n '+' (identifier_no_arith hs) (by decide)
    unfold Appends transformExpression splitRemaining emitOperation
    simp only [htext]
    simp [h1, substring_prefix, substr_one, hhead,
      substr_after_two, h2, strAt_append, stoi_number _ hn hfit]
    simp [substr_after_one, strAt_append, stoi_number _ hn hfit]
  ·
    intro text htext
    simp only [String.toList, List.append_assoc, List.cons_append, List.nil_append] at htext
    have hhead : strAt (d ++ '+' :: '=' :: (s ++ '-' :: n)) (d.length + 1) = '=' :=
      strAt_append_succ _ _ _ _
    have h1 := find_first_of_append ['=', '+', '-', '*', '/'] d ('=' :: (s ++ '-' :: n)) '+'
      (identifier_no_op hd) (by decide)
    have h2 := find_first_of_append ['+', '-', '*', '/'] s n '-' (identifier_no_arith hs) (by decide)
    unfold Appends transformExpression splitRemaining emitOperation
    simp only [htext]
    simp [h1, substring_prefix, substr_one, hhead,
      substr_after_two, h2, strAt_append, stoi_number _ hn hfit]
    simp [substr_after_one, strAt_append, stoi_number _ hn hfit]
  ·
    intro text htext
    simp only [String.toList, List.append_assoc, List.cons_append, List.nil_append] at htext
    have hhead : strAt (d ++ '-' :: '=' :: (s ++ '+' :: n)) (d.length + 1) = '=' :=
      strAt_append_succ _ _ _ _
    have h1 := find_first_of_append ['=', '+', '-', '*', '/'] d ('=' :: (s ++ '+' :: n)) '-'
      (identifier_no_op hd) (by decide)
    have h2 := find_first_of_append ['+', '-', '*', '/'] s n '+' (identifier_no_arith hs) (by decide)
    unfold Appends transformExpression splitRemaining emitOperation
    simp only [htext]
    simp [h1, substring_prefix, substr_one, hhead,
      substr_after_two, h2, strAt_append, stoi_number _ hn hfit]
    simp [substr_after_one, strAt_append, stoi_number _ hn hfit]
  ·
    intro text htext
    simp only [String.toList, List.append_assoc, List.cons_append, List.nil_append] at htext
    have hhead : strAt (d ++ '-' :: '=' :: (s ++ '-' :: n)) (d.length + 1) = '=' :=
      strAt_append_succ _ _ _ _
    have h1 := find_first_of_append ['=', '+', '-', '*', '/'] d ('=' :: (s ++ '-' :: n)) '-'
      (identifier_no_op hd) (by decide)
    have h2 := find_first_of_append ['+', '-', '*', '/'] s n '-' (identifier_no_arith hs) (by decide)
    unfold Appends transformExpression splitRemaining emitOperation
    simp only [htext]
    simp [h1, substring_prefix, substr_one, hhead,
      substr_after_two, h2, strAt_append, stoi_number _ hn hfit]
    simp [substr_after_one, strAt_append, stoi_number _ hn hfit]
  ·
    intro text htext
    simp only [String.toList, List.append_assoc, List.cons_append, List.nil_append] at htext
    have hhead : strAt (d ++ '=' :: (s ++ '+' :: n)) (d.length + 1) ≠ '=' := by
      obtain ⟨c, r, rfl, hc⟩ := hs.1
      rw [List.cons_append, strAt_append_succ]
      rintro rfl; revert hc; decide
    have h1 := find_first_of_append ['=', '+', '-', '*', '/'] d (s ++ '+' :: n) '='
      (identifier_no_op hd) (by decide)
    have h2 := find_first_of_append ['+', '-', '*', '/'] s n '+' (identifier_no_arith hs) (by decide)
    unfold Appends transformExpression splitRemaining emitOperation
    simp only [htext]
    simp [h1, substring_prefix, substr_one, hhead,
      substr_after_one, h2, strAt_append, stoi_number _ hn hfit]
  · intro text htext
    simp only [String.toList, List.append_assoc, List.cons_append, List.nil_append] at htext
    obtain ⟨c, r, rfl⟩ := List.exists_cons_of_ne_nil hn.1
    have hc : isdigit c = true := hn.2 c (by simp)
    have hhead : strAt (d ++ '=' :: c :: r) (d.length + 1) ≠ '=' := by
      rw [strAt_append_succ]
      rintro rfl; revert hc; decide
    have h1 := find_first_of_append ['=', '+', '-', '*', '/'] d (c :: r) '='
      (identifier_no_op hd) (by decide)
    have h2 := find_first_of_none ['+', '-', '*', '/'] (c :: r) (number_no_arith hn)
    unfold Appends transformExpression splitRemaining emitOperation
    simp only [htext]
    have h0 : strAt (c :: r) 0 = c := rfl
    simp [h1, substring_prefix, substr_one, hhead,
      substr_after_one, h2, h0, hc]
  · intro text htext
    simp only [String.toList, List.append_assoc, List.cons_append, List.nil_append] at htext
    obtain ⟨c, r, rfl, hc⟩ := hs.1
    have hcd : isdigit c = false := isalpha_not_digit c hc
    have hhead : strAt (d ++ '=' :: c :: r) (d.length + 1) ≠ '=' := by
      rw [strAt_append_succ]
      rintro rfl; revert hc; decide
    have h1 := find_first_of_append ['=', '+', '-', '*', '/'] d (c :: r) '='
      (identifier_no_op hd) (by decide)
    have h2 := find_first_of_none ['+', '-', '*', '/'] (c :: r) (identifier_no_arith hs)
    unfold Appends transformExpression splitRemaining emitOperation
    simp only [htext]
    have h0 : strAt (c :: r) 0 = c := rfl
    simp [h1, substring_prefix, substr_one, hhead,
      substr_after_one, h2, h0, hcd]

/-- Witness of C6 at `a += i + 2`, the first body statement of the example. -/
theorem transformExpression_table_witness :
    IsIdentifier "a".toList ∧ IsIdentifier "i".toList ∧ IsNumber "2".toList ∧
      Appends (transformExpression ⟨"Expression".toList, [], ("a += i + 2 ".toList, [])⟩)
        (Transformer.new 0) "add $t0, $t0, $t1\naddi $t0, $t0, 2\n".toList :=
  have ha : IsIdentifier "a".toList := ⟨⟨'a', [], rfl, by decide⟩, by decide⟩
  have hi : IsIdentifier "i".toList := ⟨⟨'i', [], rfl, by decide⟩, by decide⟩
  have h2 : IsNumber "2".toList := ⟨by decide, by decide⟩
  ⟨ha, hi, h2,
    (transformExpression_table "Expression".toList [] [] "a".toList "i".toList "2".toList
      (Transformer.new 0) ha hi h2 (by decide)).1 "a += i + 2 ".toList (by decide)⟩

/-- Witness of C7 (amended) at `a = i - 2`. -/
theorem transformExpression_assign_minus_witness :
    IsIdentifier "a".toList ∧ IsIdentifier "i".toList ∧ IsNumber "2".toList ∧
      Appends (transformExpression ⟨"Expression".toList, [], ("a = i - 2 ".toList, [])⟩)
        (Transformer.new 0) "sub $t0, $t1, 2\n".toList :=
  have ha : IsIdentifier "a".toList := ⟨⟨'a', [], rfl, by decide⟩, by decide⟩
  have hi : IsIdentifier "i".toList := ⟨⟨'i', [], rfl, by decide⟩, by decide⟩
  have h2 : IsNumber "2".toList := ⟨by decide, by decide⟩
  ⟨ha, hi, h2,
    transformExpression_assign_minus "Expression".toList [] "a = i - 2 ".toList [] "a".toList
      "i".toList "2".toList (Transformer.new 0) ha hi h2 (by decide) (by decide)⟩

/-- What a computation appends is determined by the computation and the state. -/
theorem appends_unique {x : Transformer Unit} {s : Lowering} {t u : Str}
    (ht : Appends x s t) (hu : Appends x s u) : t = u := by
  obtain ⟨s1, h1, e1⟩ := ht
  obtain ⟨s2, h2, e2⟩ := hu
  rw [h1] at h2
  injection h2 with _ h
  subst h
  rw [e1] at e2
  exact List.append_cancel_left e2

/-- A way to establish `Appends` by running the computation. -/
theorem appends_of_run {x : Transformer Unit} {s : Lowering} {t : Str}
    (h : (match x s with
      | .ok _ s1 => decide (s1.details = s.details ++ t)
      | _ => false) = true) : Appends x s t := by
  unfold Appends
  cases hx : x s with
  | ok a s1 =>
    rw [hx] at h
    exact ⟨s1, rfl, by simpa using h⟩
  | thrown e s1 => rw [hx] at h; simp at h
  | outOfBounds i n => rw [hx] at h; simp at h
  | fuel => rw [hx] at h; simp at h

/-- C7 (counterexample): on `a = i - 2` the line appended is `sub $t0, $t1, 2`,
not `sub $t0, $t1, -2`. -/
theorem transformExpression_assign_minus_not_negated :
    Appends (transformExpression ⟨"Expression".toList, [], ("a = i - 2 ".toList, [])⟩)
        (Transformer.new 0) "sub $t0, $t1, 2\n".toList ∧
      ¬ Appends (transformExpression ⟨"Expression".toList, [], ("a = i - 2 ".toList, [])⟩)
        (Transformer.new 0) "sub $t0, $t1, -2\n".toList := by
  have h : Appends (transformExpression ⟨"Expression".toList, [], ("a = i - 2 ".toList, [])⟩)
      (Transformer.new 0) "sub $t0, $t1, 2\n".toList :=
    appends_of_run (by decide!)
  exact ⟨h, fun h2 => absurd (appends_unique h h2) (by decide)⟩

/-- C8 (the code at the failing inputs): on `a += i` and on `a = a * 2`,
`transformExpression` returns normally and has appended nothing. -/
theorem transformExpression_silent :
    Appends (transformExpression ⟨"Expression".toList, [], ("a += i ".toList, [])⟩)
        (Transformer.new 0) [] ∧
      Appends (transformExpression ⟨"Expression".toList, [], ("a = a * 2 ".toList, [])⟩)
        (Transformer.new 0) [] :=
  ⟨appends_of_run (by decide!), appends_of_run (by decide!)⟩

/-- C5 (the code at the failing input): with `li $t1, 10` in the buffer, the
loop `for (i = 1; i <= 3; i++) \x7b \x7d` is lowered without its
initialization line `li $t1, 1`, which `find` locates inside `li $t1, 10`. -/
theorem transformForLoop_drops_initialization :
    Appends
      (transformForLoop ⟨"ForLoop".toList,
        [⟨"Initialization".toList, [], ("i".toList, "1".toList)⟩,
         ⟨"Condition".toList, [], ("i <=".toList, "3".toList)⟩,
         ⟨"Increment".toList, [], ("i".toList, "++".toList)⟩], ([], [])⟩)
      { Transformer.new 0 with details := "li $t1, 10\n".toList }
      "LOOP_START:\nbgt $t1, 3, LOOP_END\naddi $t1, $t1, 1\nj LOOP_START\nLOOP_END:\n".toList
    ∧ compile "int i = 10; for (i = 1; i <= 3; i++) \x7b \x7d".toList 0 = some
      "li $t1, 10\nLOOP_START:\nbgt $t1, 3, LOOP_END\naddi $t1, $t1, 1\nj LOOP_START\nLOOP_END:\n".toList :=
  ⟨appends_of_run (by decide!), by decide!⟩

/-! ## How `transformExpression` depends on the state -/

theorem emit_then_emit (a b : Str) (st : Lowering) :
    (do emit a; emit b : Transformer Unit) st
      = .ok () { st with details := st.details ++ (a ++ b) } := by
  simp

theorem pure_appends_nothing (st : Lowering) :
    (pure () : Transformer Unit) st = .ok () { st with details := st.details ++ [] } := by
  simp

/-- The operation part either appends a text fixed by its arguments, or throws,
and which of the two does not depend on the registers; it changes neither the
map nor `ifCount`. -/
theorem emitOperation_uniform (expression operation secOperation remaining : Str)
    (imm : Int) :
    (∃ F : Str → Str → Str, ∀ D S st,
      emitOperation expression operation secOperation remaining D S imm st
        = .ok () { st with details := st.details ++ F D S }) ∨
    (∃ ex, ∀ D S st, emitOperation expression operation secOperation remaining D S imm st
        = .thrown ex st) := by
  unfold emitOperation
  split_ifs
  all_goals first
    | exact Or.inr ⟨_, fun D S st => rfl⟩
    | exact Or.inl ⟨fun D S => _, fun D S st => emit_then_emit _ _ st⟩
    | exact Or.inl ⟨fun D S => _, fun D S st => pure_appends_nothing st⟩
    | exact Or.inl ⟨fun D S => _, fun D S st => rfl⟩

theorem not_newline_of_not_isspace (t : Str) : '\n' ∉ t.filter (fun c => !isspace c) := by
  simp [List.mem_filter]
  intro _
  decide

theorem substring_mem (t : Str) (pos : Nat) (count : Option Nat) :
    ∀ x ∈ substring t pos count, x ∈ t := by
  intro x hx
  unfold substring at hx
  cases count with
  | none => exact List.mem_of_mem_drop hx
  | some n => exact List.mem_of_mem_drop (List.mem_of_mem_take hx)

theorem substr_mem {t r : Str} {pos : Nat} {count : Option Nat}
    (h : substr t pos count = .ok r) : ∀ x ∈ r, x ∈ t := by
  unfold substr at h
  split at h
  · injection h with h
    subst h
    exact substring_mem t pos count
  · cases h

/-- The decoding part of `transformExpression` does not look at the state:
either the call throws whatever the state, or it looks up two names and runs
`emitOperation` on arguments fixed by the expression text. -/
theorem transformExpression_eq (e : Node) :
    (∃ ex, ∀ s, transformExpression e s = .thrown ex s) ∨
    (∃ expression operation secOperation remaining dest src imm,
      '\n' ∉ remaining ∧
      ∀ s, transformExpression e s =
        emitOperation expression operation secOperation remaining
          (regOf s.variableToRegisterMap dest) (regOf s.variableToRegisterMap src) imm
          { s with variableToRegisterMap := touch (touch s.variableToRegisterMap dest) src }) := by
  unfold transformExpression
  have hclean := not_newline_of_not_isspace e.leaf.1
  generalize List.filter (fun c => !isspace c) e.leaf.1 = expression at *
  cases h1 : find_first_of expression ['=', '+', '-', '*', '/'] with
  | none =>
    exact Or.inl ⟨.runtime_error ("Unsupported operation in expression: ".toList ++ expression),
      fun s => by simp [h1]⟩
  | some firstOp =>
    cases h2 : substr expression firstOp (some 1) with
    | error ex => exact Or.inl ⟨ex, fun s => by simp [h1, h2]⟩
    | ok firstChar =>
      cases h3 : substr expression
          ((if strAt expression (firstOp + 1) = '=' then firstOp + 1 else firstOp) + 1) with
      | error ex => exact Or.inl ⟨ex, fun s => by simp [h1, h2, h3]⟩
      | ok remaining =>
        have hrem : '\n' ∉ remaining := fun hmem => hclean (substr_mem h3 _ hmem)
        cases h4 : splitRemaining remaining with
        | error ex => exact Or.inl ⟨ex, fun s => by simp [h1, h2, h3, h4]⟩
        | ok p =>
          obtain ⟨src, secOperation, imm⟩ := p
          exact Or.inr ⟨expression,
            (if strAt expression (firstOp + 1) = '=' then firstChar ++ ['='] else firstChar),
            secOperation, remaining,
            substring expression 0 (some firstOp), src, imm, hrem,
            fun s => by simp [h1, h2, h3, h4]⟩

/-- Lowering an expression either throws in every state, leaving `details` as
it was, or in every state appends a text fixed by the expression and the
registers of its two names; `ifCount` is unchanged and the map is only
touched. -/
theorem transformExpression_cases (e : Node) :
    (∃ ex, ∀ s, ∃ s1, transformExpression e s = .thrown ex s1 ∧ s1.details = s.details
      ∧ s1.ifCount = s.ifCount
      ∧ ∀ k, regOf s1.variableToRegisterMap k = regOf s.variableToRegisterMap k) ∨
    (∃ (dest src : Str) (F : Str → Str → Str), ∀ s, transformExpression e s =
      .ok () { variableToRegisterMap := touch (touch s.variableToRegisterMap dest) src
               ifCount := s.ifCount
               details := s.details
                 ++ F (regOf s.variableToRegisterMap dest) (regOf s.variableToRegisterMap src) }) := by
  rcases transformExpression_eq e with ⟨ex, h⟩ | ⟨expression, operation, secOperation, remaining,
    dest, src, imm, -, h⟩
  · exact Or.inl ⟨ex, fun s => ⟨s, h s, rfl, rfl, fun _ => rfl⟩⟩
  · rcases emitOperation_uniform expression operation secOperation remaining imm with
      ⟨F, hF⟩ | ⟨ex, hex⟩
    · exact Or.inr ⟨dest, src, F, fun s => by rw [h s, hF]⟩
    · exact Or.inl ⟨ex, fun s =>
        ⟨{ s with variableToRegisterMap := touch (touch s.variableToRegisterMap dest) src },
          by rw [h s, hex], rfl, rfl, fun k => by simp⟩⟩

/-- C2: for an if-statement with operator `==` or `!=` whose first body statement
lowers successfully (appending `bodyText`), `transformIfStatement` with counter
`n = ifCount` appends the branch line (`beq` or `bne`) to `IF_TRUEn`,
`j IF_FALSEn`, `IF_TRUEn:`, `bodyText`, `j END_IFn`, `IF_FALSEn:`, `END_IFn:`,
in this order and nothing else; the body statements after the first do not
matter. -/
theorem transformIfStatement_emits (type : Str) (leaf : Str × Str) (cond body1 : Node)
    (rest : List Node) (s : Lowering) (instr bodyText : Str)
    (hop : (conditionOperator cond.leaf.1 = "==".toList ∧ instr = "beq".toList) ∨
      (conditionOperator cond.leaf.1 = "!=".toList ∧ instr = "bne".toList))
    (hbody : Appends (transformExpression body1) s bodyText) :
    Appends (transformIfStatement ⟨type, cond :: body1 :: rest, leaf⟩) s
      (instr ++ " ".toList ++ regOf s.variableToRegisterMap (conditionName cond.leaf.1)
        ++ ", ".toList ++ regOf s.variableToRegisterMap "b".toList
        ++ ", IF_TRUE".toList ++ to_string s.ifCount ++ "\n".toList
        ++ "j IF_FALSE".toList ++ to_string s.ifCount ++ "\n".toList
        ++ "IF_TRUE".toList ++ to_string s.ifCount ++ ":\n".toList
        ++ bodyText
        ++ "j END_IF".toList ++ to_string s.ifCount ++ "\n".toList
        ++ "IF_FALSE".toList ++ to_string s.ifCount ++ ":\n".toList
        ++ "END_IF".toList ++ to_string s.ifCount ++ ":\n".toList)
    ∧ ∀ rest2, transformIfStatement ⟨type, cond :: body1 :: rest2, leaf⟩ s
        = transformIfStatement ⟨type, cond :: body1 :: rest, leaf⟩ s := by
  refine ⟨?_, fun rest2 => by simp [transformIfStatement, childAt]⟩
  rcases transformExpression_cases body1 with ⟨ex, hex⟩ | ⟨dest, src, F, hF⟩
  · obtain ⟨s1, h1, -⟩ := hex s
    obtain ⟨s2, h2, -⟩ := hbody
    rw [h1] at h2
    cases h2
  · have hT : bodyText = F (regOf s.variableToRegisterMap dest)
        (regOf s.variableToRegisterMap src) := by
      obtain ⟨s2, h2, e2⟩ := hbody
      rw [hF s] at h2
      injection h2 with _ h2
      subst h2
      exact (List.append_cancel_left e2).symm
    subst hT
    simp only [conditionOperator] at hop
    simp at hop
    unfold Appends
    rcases hop with ⟨h1, rfl⟩ | ⟨h1, rfl⟩
    · simp [transformIfStatement, childAt, nextIfCount, conditionName, h1, hF]
    · simp [transformIfStatement, childAt, nextIfCount, conditionName, h1, hF]

/-- Witness of C2 at the first if-statement of the example, with a second body
statement added. -/
theorem transformIfStatement_emits_witness :
    Appends
      (transformIfStatement ⟨"IfStatement".toList,
        [⟨"Condition".toList, [], ("a ==".toList, "b".toList)⟩,
         ⟨"Expression".toList, [], ("a += i + 2 ".toList, [])⟩,
         ⟨"Expression".toList, [], ("b = 7 ".toList, [])⟩], ([], [])⟩)
      (Transformer.new 0)
      ("beq $t0, $t2, IF_TRUE0\nj IF_FALSE0\nIF_TRUE0:\nadd $t0, $t0, $t1\naddi $t0, $t0, 2\n"
        ++ "j END_IF0\nIF_FALSE0:\nEND_IF0:\n").toList :=
  (transformIfStatement_emits "IfStatement".toList ([], [])
    ⟨"Condition".toList, [], ("a ==".toList, "b".toList)⟩
    ⟨"Expression".toList, [], ("a += i + 2 ".toList, [])⟩
    [⟨"Expression".toList, [], ("b = 7 ".toList, [])⟩] (Transformer.new 0) "beq".toList
    "add $t0, $t0, $t1\naddi $t0, $t0, 2\n".toList
    (Or.inl ⟨by decide, rfl⟩) (appends_of_run (by decide!))).1

/-! ## Lines of a text -/

theorem lines_eq_nil {t : Str} : lines t = [] ↔ t = [] := by
  cases t with
  | nil => simp [lines]
  | cons c cs =>
    simp only [lines]
    split_ifs
    · simp
    · cases lines cs <;> simp

/-- A line without newline, followed by a newline, is the first line. -/
theorem lines_line_append (l rest : Str) (h : '\n' ∉ l) :
    lines (l ++ '\n' :: rest) = l :: lines rest := by
  induction l with
  | nil => simp [lines]
  | cons c cs ih =>
    have hc : c ≠ '\n' := fun e => h (by simp [e])
    have := ih (fun hm => h (by simp [hm]))
    simp [lines, hc, this]

theorem lined_nil (b : Bool) : lined b [] = b := by
  cases b <;> rfl

@[simp] theorem lined_newline (b : Bool) (r : Str) : lined b ('\n' :: r) = lined true r := by
  simp [lined]

theorem lined_false_cons (c : Char) (r : Str) (h : c ≠ '\n') :
    lined false (c :: r) = lined false r := by
  simp [lined, h]

theorem lined_true_cons (c : Char) (r : Str) (h : c ≠ '\n') (hL : c ≠ 'L') :
    lined true (c :: r) = lined false r := by
  simp [lined, h, hL]

/-- Inside a line, a piece without newline does not matter. -/
theorem lined_false_append (d r : Str) (h : '\n' ∉ d) :
    lined false (d ++ r) = lined false r := by
  induction d with
  | nil => rfl
  | cons c cs ih =>
    have hc : c ≠ '\n' := fun e => h (by simp [e])
    rw [List.cons_append, lined_false_cons _ _ hc, ih (fun hm => h (by simp [hm]))]

/-- After a text of whole lines, the next text starts a line. -/
theorem lined_append (b : Bool) (t u : Str) (h : lined b t = true) :
    lined b (t ++ u) = lined true u := by
  induction t generalizing b with
  | nil => rw [lined_nil] at h; subst h; rfl
  | cons c cs ih =>
    rw [List.cons_append]
    simp only [lined] at h ⊢
    split_ifs at h ⊢ with hc
    · exact ih true h
    · simp only [Bool.and_eq_true] at h
      rw [ih false h.2]
      simp [h.1]

theorem lined_true_append (t u : Str) (ht : lined true t = true) (hu : lined true u = true) :
    lined true (t ++ u) = true := by
  rw [lined_append true t u ht, hu]

/-- A text of whole lines is empty or ends with a newline, so the lines of
what follows are counted separately. -/
theorem lines_append_of_lined (b : Bool) (t u : Str) (h : lined b t = true) :
    lines (t ++ u) = lines t ++ lines u := by
  induction t generalizing b with
  | nil => rfl
  | cons c cs ih =>
    simp only [lined] at h
    rw [List.cons_append]
    simp only [lines]
    split_ifs at h ⊢ with hc
    · rw [ih true h]; rfl
    · simp only [Bool.and_eq_true] at h
      rw [ih false h.2]
      have hne : cs ≠ [] := by
        rintro rfl
        simp [lined] at h
      have : lines cs ≠ [] := fun e => hne (lines_eq_nil.mp e)
      obtain ⟨l, ls, hl⟩ := List.exists_cons_of_ne_nil this
      simp [hl]

/-- In a text of whole lines none of which starts with `L`, no line starts
with `L`. -/
theorem head_of_lines_of_lined (b : Bool) (t : Str) (h : lined b t = true) :
    (∀ l ∈ (lines t).tail, l.head? ≠ some 'L') ∧
      (b = true → ∀ l ∈ (lines t).head?, l.head? ≠ some 'L') := by
  induction t generalizing b with
  | nil => simp [lines]
  | cons c cs ih =>
    simp only [lined] at h
    simp only [lines]
    split_ifs at h ⊢ with hc
    · have := ih true h
      refine ⟨?_, fun _ => by simp⟩
      intro l hl
      simp only [List.tail_cons] at hl
      cases hls : lines cs with
      | nil => simp [hls] at hl
      | cons x xs =>
        rw [hls] at hl this
        simp only [List.mem_cons] at hl
        rcases hl with rfl | hl
        · exact this.2 rfl _ (by simp)
        · exact this.1 _ (by simpa using hl)
    · simp only [Bool.and_eq_true] at h
      have := ih false h.2
      cases hls : lines cs with
      | nil =>
        refine ⟨by simp, fun hb => ?_⟩
        subst hb
        simp at h
        simpa using h.1
      | cons x xs =>
        rw [hls] at this
        refine ⟨by simpa using this.1, fun hb => ?_⟩
        subst hb
        simp at h
        simpa using h.1

theorem lines_of_lined (t : Str) (h : lined true t = true) :
    ∀ l ∈ lines t, l.head? ≠ some 'L' := by
  have := head_of_lines_of_lined true t h
  intro l hl
  cases hls : lines t with
  | nil => simp [hls] at hl
  | cons x xs =>
    rw [hls] at hl this
    simp only [List.mem_cons] at hl
    rcases hl with rfl | hl
    · exact this.2 rfl _ (by simp)
    · exact this.1 _ (by simpa using hl)

/-! ## The shape of the text the lowering appends -/

theorem digitChar_ne_newline (n : Nat) : Nat.digitChar n ≠ '\n' := by
  by_cases h : n < 16
  · interval_cases n <;> decide
  · unfold Nat.digitChar
    repeat rw [if_neg (by omega)]
    decide

theorem toDigitsCore_clean (fuel n : Nat) (ds : List Char) (h : '\n' ∉ ds) :
    '\n' ∉ Nat.toDigitsCore 10 fuel n ds := by
  induction fuel generalizing n ds with
  | zero => simpa [Nat.toDigitsCore] using h
  | succ f ih =>
    have hd : '\n' ∉ Nat.digitChar (n % 10) :: ds := by
      simp only [List.mem_cons, not_or]
      exact ⟨fun e => digitChar_ne_newline _ e.symm, h⟩
    simp only [Nat.toDigitsCore]
    split_ifs
    · exact hd
    · exact ih _ _ hd

theorem natToStr_clean (n : Nat) : '\n' ∉ natToStr n := by
  unfold natToStr Nat.repr Nat.toDigits
  simpa [List.asString] using toDigitsCore_clean (n + 1) n [] (by simp)

theorem to_string_clean (i : Int) : '\n' ∉ to_string i := by
  cases i with
  | ofNat n => exact natToStr_clean n
  | negSucc n =>
    simp only [to_string, List.mem_cons, not_or]
    exact ⟨by decide, natToStr_clean _⟩

/-- The text of the operation part consists of whole lines that do not start
with `L`, when the registers and the remainder contain no newline. -/
theorem emitOperation_shape (expression operation secOperation remaining : Str)
    (imm : Int) (hrem : '\n' ∉ remaining) :
    (∃ F : Str → Str → Str,
      (∀ D S st, emitOperation expression operation secOperation remaining D S imm st
        = .ok () { st with details := st.details ++ F D S }) ∧
      ∀ D S, '\n' ∉ D → '\n' ∉ S → lined true (F D S) = true) ∨
    (∃ ex, ∀ D S st, emitOperation expression operation secOperation remaining D S imm st
        = .thrown ex st) := by
  have himm := to_string_clean imm
  unfold emitOperation
  split_ifs
  all_goals first
    | exact Or.inr ⟨_, fun D S st => rfl⟩
    | (refine Or.inl ⟨fun D S => _, fun D S st => emit_then_emit _ _ st, fun D S hD hS => ?_⟩
       simp [lined, lined_false_append, hD, hS, himm, hrem])
    | (refine Or.inl ⟨fun D S => _, fun D S st => pure_appends_nothing st, fun D S hD hS => ?_⟩
       simp [lined])
    | (refine Or.inl ⟨fun D S => _, fun D S st => rfl, fun D S hD hS => ?_⟩
       simp [lined, lined_false_append, hD, hS, himm, hrem])

/-- What a successful `transformExpression` does to the state. -/
theorem transformExpression_ok {e : Node} {s s1 : Lowering} {a : Unit}
    (h : transformExpression e s = .ok a s1) :
    s1.ifCount = s.ifCount ∧
    (∀ k, regOf s1.variableToRegisterMap k = regOf s.variableToRegisterMap k) ∧
    ∃ text, s1.details = s.details ++ text ∧
      (CleanRegs s.variableToRegisterMap → lined true text = true) := by
  rcases transformExpression_eq e with ⟨ex, hex⟩ | ⟨expression, operation, secOperation,
    remaining, dest, src, imm, hrem, heq⟩
  · rw [hex s] at h; cases h
  · rw [heq s] at h
    rcases emitOperation_shape expression operation secOperation remaining imm hrem with
      ⟨F, hF, hshape⟩ | ⟨ex, hex⟩
    · rw [hF] at h
      injection h with _ h
      subst h
      exact ⟨rfl, fun k => by simp, _, rfl, fun hclean => hshape _ _ (hclean _) (hclean _)⟩
    · rw [hex] at h; cases h

/-- Inside the range of `int` the increment is the successor. -/
theorem wrapInt_succ (x : Int) (hlo : -2147483648 ≤ x) (hhi : x + 1 ≤ 2147483647) :
    wrapInt (x + 1) = x + 1 := by
  unfold wrapInt
  omega

/-- What a successful `transformIfStatement` does to the state. -/
theorem transformIfStatement_ok {node : Node} {s s1 : Lowering} {a : Unit}
    (h : transformIfStatement node s = .ok a s1) :
    s1.ifCount = wrapInt (s.ifCount + 1) ∧
    (∀ k, regOf s1.variableToRegisterMap k = regOf s.variableToRegisterMap k) ∧
    ∃ text, s1.details = s.details ++ text ∧
      (CleanRegs s.variableToRegisterMap → lined true text = true) := by
  unfold transformIfStatement at h
  simp only [bind_apply, childAt] at h
  cases hc : node.children[0]? with
  | none => simp [hc] at h
  | some cond =>
    cases hb : node.children[1]? with
    | none =>
      simp [hc, hb, nextIfCount] at h
      split_ifs at h
      all_goals simp at h
    | some body =>
      simp [hc, hb, nextIfCount] at h
      have hn := to_string_clean (s.ifCount : Int)
      split_ifs at h
      all_goals simp at h
      all_goals
        revert h
        cases he : transformExpression body _ with
        | ok b s2 =>
          intro h
          obtain ⟨hcount, hregs, Tb, hTb, hshape⟩ := transformExpression_ok he
          simp at h
          subst h
          simp at hcount hregs hTb
          refine ⟨by simpa using hcount, fun k => by simpa using hregs k, ?_⟩
          simp only [hTb]
          refine ⟨_, by simp only [List.append_assoc]; rfl, fun hclean => ?_⟩
          have hTbLined : lined true Tb = true := hshape (fun k => by simpa using hclean k)
          have h1 := hclean (substring cond.leaf.1 0 (find cond.leaf.1 [' ']))
          have h2 := hclean ['b']
          simp [lined, lined_false_append, h1, h2, hn, lined_append true Tb _ hTbLined]
        | thrown ex s2 => simp
        | outOfBounds i n => simp
        | fuel => simp

/-- What a successful body loop of `transformForLoop` does to the state. -/
theorem transformForBody_ok {body : List Node} {s s1 : Lowering} {a : Unit}
    (h : transformForBody body s = .ok a s1) :
    (-2147483648 ≤ s.ifCount →
      s.ifCount + (body.filter (fun c => c.type = "IfStatement".toList)).length ≤ 2147483647 →
      s1.ifCount = s.ifCount
        + (body.filter (fun c => c.type = "IfStatement".toList)).length) ∧
    (∀ k, regOf s1.variableToRegisterMap k = regOf s.variableToRegisterMap k) ∧
    ∃ text, s1.details = s.details ++ text ∧
      (CleanRegs s.variableToRegisterMap → lined true text = true) := by
  induction body generalizing s with
  | nil =>
    simp [transformForBody] at h
    subst h
    exact ⟨fun _ _ => by simp, fun _ => rfl, [], by simp, fun _ => rfl⟩
  | cons child rest ih =>
    simp only [transformForBody] at h
    by_cases hif : child.type = "IfStatement".toList
    · simp only [hif, if_true, bind_apply] at h
      cases hc : transformIfStatement child s with
      | ok b s2 =>
        rw [hc] at h
        obtain ⟨c1, r1, T1, e1, l1⟩ := transformIfStatement_ok hc
        obtain ⟨c2, r2, T2, e2, l2⟩ := ih h
        refine ⟨?_, fun k => by rw [r2, r1], T1 ++ T2, by rw [e2, e1, List.append_assoc],
          fun hclean => ?_⟩
        · intro hlo hhi
          have hlen : (List.filter (fun c => decide (c.type = "IfStatement".toList))
              (child :: rest)).length
              = (List.filter (fun c => decide (c.type = "IfStatement".toList)) rest).length
                + 1 := by
            simp [List.filter, hif]
          rw [hlen] at hhi ⊢
          push_cast at hhi ⊢
          have hs2 : s2.ifCount = s.ifCount + 1 := by
            rw [c1]; exact wrapInt_succ _ hlo (by omega)
          rw [c2 (by omega) (by omega), hs2]
          omega
        · exact lined_true_append _ _ (l1 hclean) (l2 (fun k => by rw [r1]; exact hclean k))
      | thrown ex s2 => rw [hc] at h; cases h
      | outOfBounds i n => rw [hc] at h; cases h
      | fuel => rw [hc] at h; cases h
    · simp only [hif, if_false] at h
      have hfilter : (List.filter (fun c => decide (c.type = "IfStatement".toList))
          (child :: rest)).length
          = (List.filter (fun c => decide (c.type = "IfStatement".toList)) rest).length := by
        have hif2 := hif
        simp at hif2
        simp [List.filter, hif2]
      rw [hfilter]
      by_cases hex : child.type = "Expression".toList
      · simp only [hex, if_true, bind_apply] at h
        cases hc : transformExpression child s with
        | ok b s2 =>
          rw [hc] at h
          obtain ⟨c1, r1, T1, e1, l1⟩ := transformExpression_ok hc
          obtain ⟨c2, r2, T2, e2, l2⟩ := ih h
          refine ⟨?_, fun k => by rw [r2, r1], T1 ++ T2, by rw [e2, e1, List.append_assoc],
            fun hclean => ?_⟩
          · rw [c1] at c2
            exact c2
          · exact lined_true_append _ _ (l1 hclean) (l2 (fun k => by rw [r1]; exact hclean k))
        | thrown ex s2 => rw [hc] at h; cases h
        | outOfBounds i n => rw [hc] at h; cases h
        | fuel => rw [hc] at h; cases h
      · simp only [hex, if_false, bind_apply, pure_apply] at h
        exact ih h

/-- The line `transformIncrement` appends for the four operators it handles. -/
theorem transformIncrement_handled (type : Str) (children : List Node) (name op reg k : Str)
    (s : Lowering)
    (hop : (op = "++".toList ∧ k = "1".toList) ∨ (op = "--".toList ∧ k = "-1".toList) ∨
      (op = "+=".toList ∧ k = []) ∨ (op = "-=".toList ∧ k = "-".toList)) :
    transformIncrement ⟨type, children, (name, op)⟩ reg s =
      .ok () { s with details := s.details
        ++ ("addi ".toList ++ reg ++ ", ".toList ++ reg ++ ", ".toList ++ k ++ "\n".toList) } := by
  rcases hop with ⟨rfl, rfl⟩ | ⟨rfl, rfl⟩ | ⟨rfl, rfl⟩ | ⟨rfl, rfl⟩
  · simp [transformIncrement]
  · simp [transformIncrement]
  · simp [transformIncrement, find, substr, substring]
  · simp [transformIncrement, find, substr, substring]

theorem addiLine_inj {R k k2 : Str} (h : addiLine R k = addiLine R k2) : k = k2 := by
  unfold addiLine at h
  simp only [List.append_assoc] at h
  exact List.append_cancel_right
    (List.append_cancel_left (List.append_cancel_left (List.append_cancel_left
      (List.append_cancel_left (List.append_cancel_left h)))))

theorem addiLine_ne_nil (R k : Str) : addiLine R k ≠ [] := by
  simp [addiLine]

/-- In a text of at most two characters a needle of two characters is found
only when it is the text. -/
theorem find_pair (op : Str) (a b : Char) (h : op.length ≤ 2)
    (hf : find op [a, b] ≠ none) : op = [a, b] := by
  match op, h with
  | [], _ => simp [find] at hf
  | [c], _ => simp [find, List.isPrefixOf] at hf
  | [c, d], _ =>
    simp only [find, List.isPrefixOf] at hf
    by_cases hp : (a == c && (b == d && true)) = true
    · simp only [Bool.and_true, Bool.and_eq_true, beq_iff_eq] at hp
      rw [hp.1, hp.2]
    · rw [if_neg hp] at hf
      simp at hf
  | _ :: _ :: _ :: _, h => simp at h

/-- What `transformIncrement` does on an operator text of at most two
characters: for `++`, `--`, `+=`, `-=` it appends the line `addi R, R, k` with
`k` being `1`, `-1`, empty, `-`; for every other text it appends nothing. -/
theorem transformIncrement_short (type : Str) (children : List Node) (name op reg line : Str)
    (s : Lowering)
    (hop : (op = "++".toList ∧ line = addiLine reg "1".toList) ∨
      (op = "--".toList ∧ line = addiLine reg "-1".toList) ∨
      (op = "+=".toList ∧ line = addiLine reg []) ∨
      (op = "-=".toList ∧ line = addiLine reg "-".toList) ∨
      (op.length ≤ 2 ∧ op ≠ "++".toList ∧ op ≠ "--".toList ∧ op ≠ "+=".toList ∧
        op ≠ "-=".toList ∧ line = [])) :
    transformIncrement ⟨type, children, (name, op)⟩ reg s =
      .ok () { s with details := s.details ++ line } := by
  rcases hop with ⟨h, rfl⟩ | ⟨h, rfl⟩ | ⟨h, rfl⟩ | ⟨h, rfl⟩ | ⟨hlen, h1, h2, h3, h4, rfl⟩
  · exact transformIncrement_handled type children name op reg _ s (Or.inl ⟨h, rfl⟩)
  · exact transformIncrement_handled type children name op reg _ s (Or.inr (Or.inl ⟨h, rfl⟩))
  · exact transformIncrement_handled type children name op reg _ s
      (Or.inr (Or.inr (Or.inl ⟨h, rfl⟩)))
  · exact transformIncrement_handled type children name op reg _ s
      (Or.inr (Or.inr (Or.inr ⟨h, rfl⟩)))
  · have f1 : find op "+=".toList = none := by
      by_contra hf
      exact h3 (find_pair op '+' '=' hlen hf)
    have f2 : find op "-=".toList = none := by
      by_contra hf
      exact h4 (find_pair op '-' '=' hlen hf)
    unfold transformIncrement
    simp only [h1, h2, f1, f2, if_false, ne_eq, not_true_eq_false, pure_apply,
      List.append_nil]

/-! ## The for-loop -/

/-- `transformForLoop` on a loop with its three structural children: the head,
then the body loop over `children[2..]`, the increment, the jump back and the
end label. -/
theorem transformForLoop_eq (type : Str) (leaf : Str × Str) (init cond incr : Node)
    (body : List Node) (s : Lowering) :
    transformForLoop ⟨type, init :: cond :: incr :: body, leaf⟩ s =
      (do
        transformForBody (incr :: body)
        transformIncrement incr (regOf s.variableToRegisterMap init.leaf.1)
        emit "j LOOP_START\n".toList
        emit "LOOP_END:\n".toList : Transformer Unit) (afterHead s init cond) := by
  unfold transformForLoop afterHead loopHead conditionName
  by_cases hfind : find s.details
      ("li ".toList ++ regOf s.variableToRegisterMap init.leaf.1 ++ ", ".toList ++ init.leaf.2)
      = none
  · simp at hfind
    simp [childAt, hfind]
  · simp at hfind
    simp [childAt, hfind]

/-- C4 (amended): in a for-loop whose lowering succeeds and whose increment
operator has at most two characters (as every operator token of the scanner
has), `transformIncrement` appends exactly the line `addi R, R, k` when the
operator is `++`, `--`, `+=` or `-=` (`R` the register of the initialization
variable, `k` is `1`, `-1`, empty, `-`) and nothing for every other operator;
in the text `transformForLoop` appends, this comes after the head and
everything the body loop appended and immediately before `j LOOP_START` and
`LOOP_END:`. -/
theorem transformForLoop_increment (type : Str) (leaf : Str × Str) (init cond incr : Node)
    (body : List Node) (s : Lowering) (line appended : Str)
    (hop : (incr.leaf.2 = "++".toList ∧
        line = addiLine (regOf s.variableToRegisterMap init.leaf.1) "1".toList) ∨
      (incr.leaf.2 = "--".toList ∧
        line = addiLine (regOf s.variableToRegisterMap init.leaf.1) "-1".toList) ∨
      (incr.leaf.2 = "+=".toList ∧
        line = addiLine (regOf s.variableToRegisterMap init.leaf.1) []) ∨
      (incr.leaf.2 = "-=".toList ∧
        line = addiLine (regOf s.variableToRegisterMap init.leaf.1) "-".toList) ∨
      (incr.leaf.2.length ≤ 2 ∧ incr.leaf.2 ≠ "++".toList ∧ incr.leaf.2 ≠ "--".toList ∧
        incr.leaf.2 ≠ "+=".toList ∧ incr.leaf.2 ≠ "-=".toList ∧ line = []))
    (h : Appends (transformForLoop ⟨type, init :: cond :: incr :: body, leaf⟩) s appended) :
    (∀ st, Appends (transformIncrement incr (regOf s.variableToRegisterMap init.leaf.1)) st
      line) ∧
    ∃ bodyText, Appends (transformForBody (incr :: body)) (afterHead s init cond) bodyText ∧
      appended = loopHead s init cond ++ bodyText ++ line
        ++ "j LOOP_START\n".toList ++ "LOOP_END:\n".toList := by
  have hincr : ∀ st, transformIncrement incr (regOf s.variableToRegisterMap init.leaf.1) st
      = .ok () { st with details := st.details ++ line } :=
    fun st => transformIncrement_short incr.type incr.children incr.leaf.1 incr.leaf.2 _ line
      st hop
  refine ⟨fun st => ⟨_, hincr st, rfl⟩, ?_⟩
  obtain ⟨s1, h1, e1⟩ := h
  rw [transformForLoop_eq] at h1
  simp only [bind_apply] at h1
  cases hb : transformForBody (incr :: body) (afterHead s init cond) with
  | ok b sB =>
    rw [hb] at h1
    obtain ⟨-, -, bodyText, eB, -⟩ := transformForBody_ok hb
    refine ⟨bodyText, ⟨sB, hb, eB⟩, ?_⟩
    simp only [hincr, emit_apply] at h1
    injection h1 with _ h1
    subst h1
    simp only [eB, afterHead, List.append_assoc] at e1
    have := List.append_cancel_left e1
    rw [← this]
    simp only [List.append_assoc]
  | thrown ex s2 => rw [hb] at h1; cases h1
  | outOfBounds i n => rw [hb] at h1; cases h1
  | fuel => rw [hb] at h1; cases h1

/-- C4 (counterexample): the parser accepts the loop `for (i = 0; i <= 3; i *)`
and its lowering has no increment line. -/
theorem compile_increment_skipped :
    compile "for (i = 0; i <= 3; i *) \x7b \x7d".toList 0 = some
      "li $t1, 0\nLOOP_START:\nbgt $t1, 3, LOOP_END\nj LOOP_START\nLOOP_END:\n".toList := by
  decide!

/-- Witness of C4 (amended) at the loop `for (i = 0; i <= 3; i =+)` with the
body `a = a + 1;`: the operator `=+` is none of the four, and nothing stands
between the body and `j LOOP_START`. -/
theorem transformForLoop_increment_witness :
    (∀ st, Appends (transformIncrement ⟨"Increment".toList, [], ("i".toList, "=+".toList)⟩
      "$t1".toList) st []) ∧
    ∃ bodyText,
      Appends (transformForBody
          [⟨"Increment".toList, [], ("i".toList, "=+".toList)⟩,
           ⟨"Expression".toList, [], ("a = a + 1 ".toList, [])⟩])
        (afterHead (Transformer.new 0)
          ⟨"Initialization".toList, [], ("i".toList, "0".toList)⟩
          ⟨"Condition".toList, [], ("i <=".toList, "3".toList)⟩) bodyText ∧
      ("li $t1, 0\nLOOP_START:\nbgt $t1, 3, LOOP_END\nadd $t0, $t0, 1\n"
          ++ "j LOOP_START\nLOOP_END:\n").toList
        = loopHead (Transformer.new 0)
            ⟨"Initialization".toList, [], ("i".toList, "0".toList)⟩
            ⟨"Condition".toList, [], ("i <=".toList, "3".toList)⟩
          ++ bodyText ++ []
          ++ "j LOOP_START\n".toList ++ "LOOP_END:\n".toList :=
  transformForLoop_increment "ForLoop".toList ([], [])
    ⟨"Initialization".toList, [], ("i".toList, "0".toList)⟩
    ⟨"Condition".toList, [], ("i <=".toList, "3".toList)⟩
    ⟨"Increment".toList, [], ("i".toList, "=+".toList)⟩
    [⟨"Expression".toList, [], ("a = a + 1 ".toList, [])⟩]
    (Transformer.new 0) [] _
    (Or.inr (Or.inr (Or.inr (Or.inr ⟨by decide, by decide, by decide, by decide, by decide,
      rfl⟩))))
    (appends_of_run (by decide!))

/-! ## Facts about the scanner and the parser -/

theorem isalpha_not_space (c : Char) (h : isalpha c = true) : isspace c = false := by
  have h1 : ∀ a b : Char, a ≤ b ↔ a.toNat ≤ b.toNat := fun a b => Iff.rfl
  simp only [isalpha, Bool.or_eq_true, Bool.and_eq_true, decide_eq_true_eq, h1] at h
  have e1 : ('a' : Char).toNat = 97 := rfl
  have e2 : ('A' : Char).toNat = 65 := rfl
  have hge : 65 ≤ c.toNat := by omega
  unfold isspace
  have hne : ∀ d : Char, d.toNat < 65 → (c == d) = false := by
    intro d hd
    simp
    rintro rfl
    omega
  simp [hne ' ' (by decide), hne '\t' (by decide), hne '\n' (by decide),
    hne '\x0b' (by decide), hne '\x0c' (by decide), hne '\r' (by decide)]

theorem isalnum_not_space (c : Char) (h : isalnum c = true) : isspace c = false := by
  simp only [isalnum, Bool.or_eq_true] at h
  rcases h with h | h
  · exact isalpha_not_space c h
  · exact isdigit_not_space c h

theorem operators_not_space (c : Char) (h : c ∈ operators) : isspace c = false := by
  simp [operators] at h
  rcases h with rfl | rfl | rfl | rfl | rfl | rfl | rfl | rfl <;> decide

theorem punctuation_not_space (c : Char) (h : c ∈ punctuation) : isspace c = false := by
  simp [punctuation] at h
  rcases h with rfl | rfl | rfl | rfl | rfl <;> decide

/-- One step of the scanner: a token without white space in front of tokens
that have none. -/
theorem no_space_cons (r : Option (List Token)) (tok : Token)
    (ts : List Token)
    (h : r.map (fun ts => tok :: ts) = some ts)
    (htok : ∀ c ∈ tok.value, isspace c = false)
    (ih : ∀ ts2, r = some ts2 → ∀ t ∈ ts2, ∀ c ∈ t.value, isspace c = false) :
    ∀ t ∈ ts, ∀ c ∈ t.value, isspace c = false := by
  simp only [Option.map_eq_some'] at h
  obtain ⟨ts2, h2, rfl⟩ := h
  intro t ht
  simp only [List.mem_cons] at ht
  rcases ht with rfl | ht
  · exact htok
  · exact ih ts2 h2 t ht

/-- No token text contains a white-space character. -/
theorem tokenizeLoop_no_space : ∀ (fuel : Nat) (code : Str) (ts : List Token),
    tokenizeLoop fuel code = some ts → ∀ t ∈ ts, ∀ c ∈ t.value, isspace c = false := by
  intro fuel
  induction fuel with
  | zero =>
    intro code ts h
    cases code with
    | nil => simp [tokenizeLoop] at h; subst h; simp
    | cons c rest => simp [tokenizeLoop] at h
  | succ fuel ih =>
    intro code ts h
    cases code with
    | nil => simp [tokenizeLoop] at h; subst h; simp
    | cons c rest =>
      unfold tokenizeLoop at h
      by_cases hsp : isspace c = true
      · rw [if_pos hsp] at h
        exact ih _ _ h
      rw [if_neg hsp] at h
      by_cases hdig : isdigit c = true
      · rw [if_pos hdig] at h
        refine no_space_cons _ _ _ h ?_ (fun ts2 h2 => ih _ _ h2)
        intro x hx
        simp only [List.mem_cons] at hx
        rcases hx with rfl | hx
        · exact isdigit_not_space _ hdig
        · exact isdigit_not_space _ (List.mem_takeWhile_imp hx)
      rw [if_neg hdig] at h
      by_cases halpha : isalpha c = true
      · rw [if_pos halpha] at h
        refine no_space_cons _ _ _ h ?_ (fun ts2 h2 => ih _ _ h2)
        intro x hx
        simp only [List.mem_cons] at hx
        rcases hx with rfl | hx
        · exact isalpha_not_space _ halpha
        · exact isalnum_not_space _ (List.mem_takeWhile_imp hx)
      rw [if_neg halpha] at h
      by_cases hop : c ∈ operators
      · rw [if_pos hop] at h
        cases rest with
        | nil =>
          refine no_space_cons _ _ _ h ?_ (fun ts2 h2 => ih _ _ h2)
          intro x hx
          simp only [List.mem_singleton] at hx
          subst hx
          exact operators_not_space _ hop
        | cons d rest2 =>
          simp only at h
          by_cases hd : d ∈ operators ∨ d = '='
          · rw [if_pos hd] at h
            refine no_space_cons _ _ _ h ?_ (fun ts2 h2 => ih _ _ h2)
            intro x hx
            simp only [List.mem_cons, List.mem_singleton, List.not_mem_nil, or_false] at hx
            rcases hx with rfl | rfl
            · exact operators_not_space _ hop
            · rcases hd with hd | rfl
              · exact operators_not_space _ hd
              · decide
          · rw [if_neg hd] at h
            refine no_space_cons _ _ _ h ?_ (fun ts2 h2 => ih _ _ h2)
            intro x hx
            simp only [List.mem_singleton] at hx
            subst hx
            exact operators_not_space _ hop
      rw [if_neg hop] at h
      by_cases hpunct : c ∈ punctuation
      · rw [if_pos hpunct] at h
        refine no_space_cons _ _ _ h ?_ (fun ts2 h2 => ih _ _ h2)
        intro x hx
        simp only [List.mem_singleton] at hx
        subst hx
        exact punctuation_not_space _ hpunct
      rw [if_neg hpunct] at h
      exact ih _ _ h

/-- A sequence ends normally exactly when both parts do. -/
theorem bind_ok_iff {σ α β : Type} (x : M σ α) (f : α → M σ β) (s s2 : σ) (b : β) :
    (x >>= f) s = .ok b s2 ↔ ∃ a s1, x s = .ok a s1 ∧ f a s1 = .ok b s2 := by
  rw [bind_apply]
  cases x s with
  | ok a s1 =>
    constructor
    · intro h
      exact ⟨a, s1, rfl, h⟩
    · rintro ⟨a2, s3, h1, h2⟩
      injection h1 with h1 h3
      subst h1 h3
      exact h2
  | thrown e s1 => simp
  | outOfBounds i n => simp
  | fuel => simp

theorem consume_ok {tokens : List Token} {type : TokenType} {value : Str} {cur cur2 : Nat}
    {t : Token} (h : consume tokens type value cur = .ok t cur2) :
    t ∈ tokens ∧ t.type = type := by
  unfold consume at h
  cases hg : tokens[cur]? with
  | none => simp [hg] at h
  | some u =>
    simp only [hg] at h
    split_ifs at h with hc
    injection h with h1 h2
    subst h1
    exact ⟨List.getElem?_mem hg, hc.1⟩

theorem consumeTypes_ok {tokens : List Token} {types : List TokenType} {cur cur2 : Nat}
    {t : Token} (h : consumeTypes tokens types cur = .ok t cur2) :
    t ∈ tokens ∧ t.type ∈ types := by
  unfold consumeTypes at h
  cases hg : tokens[cur]? with
  | none => simp [hg] at h
  | some u =>
    simp only [hg] at h
    split_ifs at h with hc
    injection h with h1 h2
    subst h1
    exact ⟨List.getElem?_mem hg, hc⟩

/-- The text `x` is the text of one of the tokens. -/
theorem parseInitialization_ok {tokens : List Token} {cur cur2 : Nat} {n : Node}
    (h : parseInitialization tokens cur = .ok n cur2) :
    n.type = "Initialization".toList ∧ n.children = [] ∧
      (∃ t ∈ tokens, t.value = n.leaf.1) ∧ (∃ t ∈ tokens, t.value = n.leaf.2) := by
  unfold parseInitialization at h
  simp only [bind_ok_iff] at h
  obtain ⟨t1, c1, h1, _, c2, h2, t3, c3, h3, h4⟩ := h
  simp only [pure_apply] at h4
  injection h4 with h4 _
  subst h4
  exact ⟨rfl, rfl, ⟨t1, (consume_ok h1).1, rfl⟩, ⟨t3, (consumeTypes_ok h3).1, rfl⟩⟩

theorem parseCondition_ok {tokens : List Token} {cur cur2 : Nat} {n : Node}
    (h : parseCondition tokens cur = .ok n cur2) :
    n.type = "Condition".toList ∧ n.children = [] ∧
      ∃ name op value, n.leaf = (name.value ++ " ".toList ++ op.value, value.value) ∧
        name ∈ tokens ∧ op ∈ tokens ∧ value ∈ tokens := by
  unfold parseCondition at h
  simp only [bind_ok_iff] at h
  obtain ⟨t1, c1, h1, t2, c2, h2, t3, c3, h3, h4⟩ := h
  simp only [pure_apply] at h4
  injection h4 with h4 _
  subst h4
  exact ⟨rfl, rfl, t1, t2, t3, rfl, (consume_ok h1).1, (consume_ok h2).1,
    (consumeTypes_ok h3).1⟩

theorem parseIncrement_ok {tokens : List Token} {cur cur2 : Nat} {n : Node}
    (h : parseIncrement tokens cur = .ok n cur2) :
    n.type = "Increment".toList ∧ n.children = [] ∧
      (∃ t ∈ tokens, t.value = n.leaf.1) ∧
      (∃ t ∈ tokens, t.type = .Operator ∧ t.value = n.leaf.2) := by
  unfold parseIncrement at h
  simp only [bind_ok_iff] at h
  obtain ⟨t1, c1, h1, t2, c2, h2, h4⟩ := h
  simp only [pure_apply] at h4
  injection h4 with h4 _
  subst h4
  exact ⟨rfl, rfl, ⟨t1, (consume_ok h1).1, rfl⟩, ⟨t2, (consume_ok h2).1, (consume_ok h2).2, rfl⟩⟩

/-- The body loop of `parseForLoop` only pushes nodes behind those it starts
with. -/
theorem parseForBody_prefix (tokens : List Token) : ∀ (fuel : Nat) (acc children : List Node)
    (cur cur2 : Nat), parseForBody tokens fuel acc cur = .ok children cur2 →
    ∃ more, children = acc ++ more := by
  intro fuel
  induction fuel with
  | zero =>
    intro acc children cur cur2 h
    cases h
  | succ fuel ih =>
    intro acc children cur cur2 h
    unfold parseForBody at h
    simp only [bind_ok_iff, peek] at h
    obtain ⟨next, c1, h1, h2⟩ := h
    injection h1 with h1 hc
    subst h1 hc
    cases hn : tokens[cur]? with
    | none =>
      simp only [hn, pure_apply] at h2
      injection h2 with h2 _
      exact ⟨[], by simp [h2]⟩
    | some t =>
      simp only [hn] at h2
      by_cases hb : bodyContinues (some t) = true
      · rw [if_pos hb] at h2
        split_ifs at h2
        all_goals
          simp only [bind_ok_iff] at h2
          obtain ⟨child, c2, -, h3⟩ := h2
          obtain ⟨more, hm⟩ := ih _ _ _ _ h3
          exact ⟨child :: more, by simp [hm]⟩
      · rw [if_neg hb, pure_apply] at h2
        injection h2 with h2 _
        exact ⟨[], by simp [h2]⟩

/-- A node returned by `parseForLoop` is a `ForLoop` whose first three children
are the results of `parseInitialization`, `parseCondition` and
`parseIncrement`. -/
theorem parseForLoop_ok {tokens : List Token} {cur cur2 : Nat} {n : Node}
    (h : parseForLoop tokens cur = .ok n cur2) :
    n.type = "ForLoop".toList ∧ n.leaf = ([], []) ∧
      ∃ init cond incr body, n.children = init :: cond :: incr :: body ∧
        (∃ c c2, parseInitialization tokens c = .ok init c2) ∧
        (∃ c c2, parseCondition tokens c = .ok cond c2) ∧
        (∃ c c2, parseIncrement tokens c = .ok incr c2) := by
  unfold parseForLoop at h
  simp only [bind_ok_iff] at h
  obtain ⟨_, c1, -, _, c2, -, init, c3, h3, _, c4, -, cond, c5, h5, _, c6, -, incr, c7, h7,
    _, c8, -, _, c9, -, children, c10, h10, _, c11, -, h12⟩ := h
  simp only [pure_apply] at h12
  injection h12 with h12 _
  subst h12
  obtain ⟨more, hm⟩ := parseForBody_prefix _ _ _ _ _ _ h10
  exact ⟨rfl, rfl, init, cond, incr, more, by simp [hm], ⟨_, _, h3⟩, ⟨_, _, h5⟩, ⟨_, _, h7⟩⟩

theorem parseDeclaration_type {tokens : List Token} {cur cur2 : Nat} {n : Node}
    (h : parseDeclaration tokens cur = .ok n cur2) : n.type = "Declaration".toList := by
  unfold parseDeclaration at h
  simp only [bind_ok_iff] at h
  obtain ⟨_, c1, -, t2, c2, -, next, c3, -, h4⟩ := h
  split at h4
  · split_ifs at h4
    · simp only [bind_ok_iff, pure_apply, Outcome.ok.injEq] at h4
      obtain ⟨_, _, -, _, _, -, _, _, -, _, _, -, rfl, -⟩ := h4
      rfl
    · simp only [bind_ok_iff, pure_apply, Outcome.ok.injEq] at h4
      obtain ⟨_, _, -, _, _, -, rfl, -⟩ := h4
      rfl
  · simp only [bind_ok_iff, pure_apply, Outcome.ok.injEq] at h4
    obtain ⟨_, _, -, _, _, -, rfl, -⟩ := h4
    rfl

/-- Every node the top-level loop pushes comes from `parseDeclaration` or from
`parseForLoop`. -/
theorem parseTop_children (tokens : List Token) : ∀ (fuel : Nat) (acc children : List Node)
    (cur cur2 : Nat), parseTop tokens fuel acc cur = .ok children cur2 →
    ∀ n ∈ children, n ∈ acc ∨ (∃ c c2, parseDeclaration tokens c = .ok n c2) ∨
      (∃ c c2, parseForLoop tokens c = .ok n c2) := by
  intro fuel
  induction fuel with
  | zero =>
    intro acc children cur cur2 h
    cases h
  | succ fuel ih =>
    intro acc children cur cur2 h
    unfold parseTop at h
    simp only [bind_ok_iff, peek] at h
    obtain ⟨next, c1, h1, h2⟩ := h
    injection h1 with h1 hc
    subst h1 hc
    cases hn : tokens[cur]? with
    | none =>
      simp only [hn, pure_apply] at h2
      injection h2 with h2 _
      subst h2
      exact fun n hn => Or.inl hn
    | some t =>
      simp only [hn] at h2
      split_ifs at h2
      · simp only [bind_ok_iff] at h2
        obtain ⟨d, c2, hd, h3⟩ := h2
        intro n hmem
        rcases ih _ _ _ _ h3 n hmem with hacc | hrest
        · simp only [List.mem_append, List.mem_singleton] at hacc
          rcases hacc with hacc | rfl
          · exact Or.inl hacc
          · exact Or.inr (Or.inl ⟨_, _, hd⟩)
        · exact Or.inr hrest
      · simp only [bind_ok_iff] at h2
        obtain ⟨d, c2, hd, h3⟩ := h2
        intro n hmem
        rcases ih _ _ _ _ h3 n hmem with hacc | hrest
        · simp only [List.mem_append, List.mem_singleton] at hacc
          rcases hacc with hacc | rfl
          · exact Or.inl hacc
          · exact Or.inr (Or.inr ⟨_, _, hd⟩)
        · exact Or.inr hrest
      · simp only [bind_ok_iff] at h2
        obtain ⟨_, c2, -, h3⟩ := h2
        exact ih _ _ _ _ h3

/-- Every child of the root `parse` returns comes from `parseDeclaration` or
from `parseForLoop`. -/
theorem parse_children {tokens : List Token} {root : Node} {cur : Nat}
    (h : parse tokens = .ok root cur) :
    ∀ n ∈ root.children, (∃ c c2, parseDeclaration tokens c = .ok n c2) ∨
      (∃ c c2, parseForLoop tokens c = .ok n c2) := by
  unfold parse at h
  simp only [bind_ok_iff] at h
  obtain ⟨children, c1, h1, h2⟩ := h
  simp only [pure_apply] at h2
  injection h2 with h2 _
  subst h2
  intro n hn
  rcases parseTop_children tokens _ _ _ _ _ h1 n hn with hacc | hrest
  · simp at hacc
  · exact hrest

/-- What a successful `transformIncrement` does to the state. -/
theorem transformIncrement_ok {incr : Node} {reg : Str} {s s1 : Lowering} {a : Unit}
    (h : transformIncrement incr reg s = .ok a s1) :
    ∃ text, s1 = { s with details := s.details ++ text } ∧
      ('\n' ∉ reg → '\n' ∉ incr.leaf.2 → lined true text = true) := by
  unfold transformIncrement at h
  split_ifs at h
  · simp at h
    exact ⟨_, h.symm, fun hr _ => by simp [lined, lined_false_append, hr]⟩
  · simp at h
    exact ⟨_, h.symm, fun hr _ => by simp [lined, lined_false_append, hr]⟩
  · cases hsub : substr incr.leaf.2 2 with
    | error ex => simp [hsub] at h
    | ok number =>
      simp [hsub] at h
      refine ⟨_, h.symm, fun hr hop => ?_⟩
      have hnum : '\n' ∉ number := fun hm => hop (substr_mem hsub _ hm)
      simp [lined, lined_false_append, hr, hnum]
  · cases hsub : substr incr.leaf.2 2 with
    | error ex => simp [hsub] at h
    | ok number =>
      simp [hsub] at h
      refine ⟨_, h.symm, fun hr hop => ?_⟩
      have hnum : '\n' ∉ number := fun hm => hop (substr_mem hsub _ hm)
      simp [lined, lined_false_append, hr, hnum]
  · simp at h
    exact ⟨[], by simp [← h], fun _ _ => rfl⟩

theorem find_char_append (name rest : Str) (c : Char) (h : c ∉ name) :
    find (name ++ c :: rest) [c] = some name.length := by
  induction name with
  | nil => simp [find]
  | cons x xs ih =>
    have hx : x ≠ c := fun e => h (by simp [e])
    have := ih (fun hm => h (by simp [hm]))
    simp [find, hx, Ne.symm hx, this]

/-- The name read back from the first leaf field of a parsed condition. -/
theorem conditionName_append (name op : Str) (h : ' ' ∉ name) :
    conditionName (name ++ " ".toList ++ op) = name := by
  unfold conditionName
  have : name ++ " ".toList ++ op = name ++ ' ' :: op := by simp
  rw [this]
  have hf : find (name ++ ' ' :: op) " ".toList = some name.length :=
    find_char_append name op ' ' h
  rw [hf]
  simp [substring]

theorem not_space_of_isspace_false {t : Str} (h : ∀ c ∈ t, isspace c = false) :
    ' ' ∉ t ∧ '\n' ∉ t :=
  ⟨fun hm => absurd (h _ hm) (by decide), fun hm => absurd (h _ hm) (by decide)⟩

/-- The lines of the head of a loop: at most the initialization line, then
`LOOP_START:` and the exit test. -/
theorem lines_loopHead (s : Lowering) (init cond : Node) (rest : Str)
    (hclean : CleanRegs s.variableToRegisterMap) (hinit : '\n' ∉ init.leaf.2)
    (hval : '\n' ∉ cond.leaf.2) :
    ∃ before, (∀ l ∈ before, l.head? ≠ some 'L') ∧
      lines (loopHead s init cond ++ rest) =
        before ++ "LOOP_START:".toList
          :: exitTest s (conditionName cond.leaf.1) cond.leaf.2 :: lines rest := by
  have e1 : "LOOP_START:\n".toList = "LOOP_START:".toList ++ ['\n'] := rfl
  have e2 : ", LOOP_END\n".toList = ", LOOP_END".toList ++ ['\n'] := rfl
  have e3 : "\n".toList = ['\n'] := rfl
  have hR := hclean init.leaf.1
  have hC := hclean (conditionName cond.leaf.1)
  have hls : '\n' ∉ "LOOP_START:".toList := by decide
  have hbgt : '\n' ∉ exitTest s (conditionName cond.leaf.1) cond.leaf.2 := by
    simp [exitTest, hC, hval]
  have hli : '\n' ∉ "li ".toList ++ regOf s.variableToRegisterMap init.leaf.1
      ++ ", ".toList ++ init.leaf.2 := by
    simp [hR, hinit]
  unfold loopHead
  simp only []
  split_ifs
  · refine ⟨["li ".toList ++ regOf s.variableToRegisterMap init.leaf.1
      ++ ", ".toList ++ init.leaf.2], by simp, ?_⟩
    rw [e1, e2, e3]
    have hre : ("li ".toList ++ regOf s.variableToRegisterMap init.leaf.1 ++ ", ".toList
          ++ init.leaf.2 ++ ['\n'] ++ ("LOOP_START:".toList ++ ['\n'])
          ++ ("bgt ".toList ++ regOf s.variableToRegisterMap (conditionName cond.leaf.1)
            ++ ", ".toList ++ cond.leaf.2 ++ (", LOOP_END".toList ++ ['\n'])) ++ rest)
        = ("li ".toList ++ regOf s.variableToRegisterMap init.leaf.1 ++ ", ".toList
          ++ init.leaf.2) ++ '\n' :: ("LOOP_START:".toList ++ '\n'
            :: (exitTest s (conditionName cond.leaf.1) cond.leaf.2 ++ '\n' :: rest)) := by
      simp only [exitTest, List.append_assoc, List.singleton_append, List.cons_append,
        List.nil_append]
    rw [hre, lines_line_append _ _ hli, lines_line_append _ _ hls,
      lines_line_append _ _ hbgt]
    rfl
  · refine ⟨[], by simp, ?_⟩
    rw [e1, e2]
    have hre : ([] ++ ("LOOP_START:".toList ++ ['\n'])
          ++ ("bgt ".toList ++ regOf s.variableToRegisterMap (conditionName cond.leaf.1)
            ++ ", ".toList ++ cond.leaf.2 ++ (", LOOP_END".toList ++ ['\n'])) ++ rest)
        = "LOOP_START:".toList ++ '\n'
            :: (exitTest s (conditionName cond.leaf.1) cond.leaf.2 ++ '\n' :: rest) := by
      simp only [exitTest, List.append_assoc, List.singleton_append, List.cons_append,
        List.nil_append]
    rw [hre, lines_line_append _ _ hls, lines_line_append _ _ hbgt]
    rfl

/-- The lines `transformForLoop` appends on a loop with newline-free leaves:
some lines not starting with `L`, `LOOP_START:`, the exit test, more lines not
starting with `L`, `j LOOP_START`, `LOOP_END:`. -/
theorem transformForLoop_lines (type : Str) (leaf : Str × Str) (init cond incr : Node)
    (body : List Node) (s : Lowering) (appended : Str)
    (hclean : CleanRegs s.variableToRegisterMap) (hinit : '\n' ∉ init.leaf.2)
    (hval : '\n' ∉ cond.leaf.2) (hop : '\n' ∉ incr.leaf.2)
    (h : Appends (transformForLoop ⟨type, init :: cond :: incr :: body, leaf⟩) s appended) :
    ∃ before after, (∀ l ∈ before, l.head? ≠ some 'L') ∧ (∀ l ∈ after, l.head? ≠ some 'L') ∧
      lines appended =
        before ++ "LOOP_START:".toList
          :: exitTest s (conditionName cond.leaf.1) cond.leaf.2
          :: (after ++ ["j LOOP_START".toList, "LOOP_END:".toList]) := by
  obtain ⟨s1, h1, e1⟩ := h
  rw [transformForLoop_eq] at h1
  simp only [bind_ok_iff, emit_apply, Outcome.ok.injEq] at h1
  obtain ⟨_, sB, hb, _, sI, hi, _, sJ, ⟨-, hj⟩, -, hk⟩ := h1
  obtain ⟨-, -, Tb, eB, lB⟩ := transformForBody_ok hb
  obtain ⟨Ti, eI, lI⟩ := transformIncrement_ok hi
  have hTb : lined true Tb = true := lB (fun k => by simpa [afterHead] using hclean k)
  have hTi : lined true Ti = true := lI (hclean _) hop
  have hmid : lined true (Tb ++ Ti) = true := lined_true_append _ _ hTb hTi
  have happ : appended = loopHead s init cond
      ++ ((Tb ++ Ti) ++ "j LOOP_START\nLOOP_END:\n".toList) := by
    subst hk hj eI
    simp only [eB, afterHead, List.append_assoc] at e1
    have := List.append_cancel_left e1
    rw [← this]
    simp only [List.append_assoc]
    rfl
  obtain ⟨before, hbefore, hlines⟩ :=
    lines_loopHead s init cond ((Tb ++ Ti) ++ "j LOOP_START\nLOOP_END:\n".toList)
      hclean hinit hval
  refine ⟨before, lines (Tb ++ Ti), hbefore, lines_of_lined _ hmid, ?_⟩
  rw [happ, hlines, lines_append_of_lined true _ _ hmid]
  rfl

/-- Counting the two loop labels in a list of lines of the shape
`transformForLoop` produces. -/
theorem count_loop_labels (before after : List Str) (x : Str)
    (hb : ∀ l ∈ before, l.head? ≠ some 'L') (ha : ∀ l ∈ after, l.head? ≠ some 'L')
    (hx : x.head? ≠ some 'L') :
    let ls := before ++ "LOOP_START:".toList :: x
      :: (after ++ ["j LOOP_START".toList, "LOOP_END:".toList])
    ls.count "LOOP_START:".toList = 1 ∧ ls.count "LOOP_END:".toList = 1 ∧
      ls.getLast? = some "LOOP_END:".toList := by
  intro ls
  have hnot : ∀ (l : List Str) (y : Str), (∀ z ∈ l, z.head? ≠ some 'L') → y.head? = some 'L' →
      l.count y = 0 := fun l y hl hy => List.count_eq_zero.mpr (fun hm => hl y hm hy)
  have hxs : x ≠ "LOOP_START:".toList := fun e => hx (by rw [e]; rfl)
  have hxe : x ≠ "LOOP_END:".toList := fun e => hx (by rw [e]; rfl)
  have hxs2 : (x == "LOOP_START:".toList) = false := by simpa using hxs
  have hxe2 : (x == "LOOP_END:".toList) = false := by simpa using hxe
  have c1 := hnot before "LOOP_START:".toList hb rfl
  have c2 := hnot after "LOOP_START:".toList ha rfl
  have c3 := hnot before "LOOP_END:".toList hb rfl
  have c4 := hnot after "LOOP_END:".toList ha rfl
  have d1 : ("LOOP_END:".toList == "LOOP_START:".toList) = false := by decide
  have d2 : ("j LOOP_START".toList == "LOOP_START:".toList) = false := by decide
  have d3 : ("LOOP_START:".toList == "LOOP_END:".toList) = false := by decide
  have d4 : ("j LOOP_START".toList == "LOOP_END:".toList) = false := by decide
  refine ⟨?_, ?_, ?_⟩
  · simp only [ls, List.count_append, List.count_cons, c1, c2, List.count_nil, hxs2, d1, d2,
      beq_self_eq_true]
    simp
  · simp only [ls, List.count_append, List.count_cons, c3, c4, List.count_nil, hxe2, d3, d4,
      beq_self_eq_true]
    simp
  · show (before ++ "LOOP_START:".toList :: x
      :: (after ++ ["j LOOP_START".toList, "LOOP_END:".toList])).getLast? = _
    have : before ++ "LOOP_START:".toList :: x
        :: (after ++ ["j LOOP_START".toList, "LOOP_END:".toList])
        = (before ++ "LOOP_START:".toList :: x :: (after ++ ["j LOOP_START".toList]))
          ++ ["LOOP_END:".toList] := by simp
    rw [this, List.getLast?_append]
    rfl

theorem cleanRegs_new (n : Int) : CleanRegs (Transformer.new n).variableToRegisterMap := by
  intro k
  simp only [regOf, Transformer.new, List.lookup]
  split
  · decide
  · split
    · decide
    · split
      · decide
      · decide

/-- C3: for a `ForLoop` node parsed from the tokens of a text and lowered
successfully (from a state whose registers contain no newline), the appended
text has exactly one line `LOOP_START:` and exactly one line `LOOP_END:`, the
latter being the last line; the line right after `LOOP_START:` is
`bgt R, V, LOOP_END` with `R` the register of the name in the condition and `V`
its compare value; and replacing the comparison operator by any other text
gives the same result. -/
theorem transformForLoop_labels (code : Str) (tokens : List Token) (root node : Node)
    (cur : Nat) (s : Lowering) (appended : Str)
    (htok : tokenize code = some tokens) (hparse : parse tokens = .ok root cur)
    (hnode : node ∈ root.children) (htype : node.type = "ForLoop".toList)
    (hclean : CleanRegs s.variableToRegisterMap)
    (h : Appends (transformForLoop node) s appended) :
    (lines appended).count "LOOP_START:".toList = 1 ∧
    (lines appended).count "LOOP_END:".toList = 1 ∧
    (lines appended).getLast? = some "LOOP_END:".toList ∧
    ∃ init cond incr body name op value,
      node.children = init :: cond :: incr :: body ∧
      cond.leaf = (name ++ " ".toList ++ op, value) ∧
      (∃ before after, lines appended =
        before ++ "LOOP_START:".toList :: exitTest s name value :: after) ∧
      ∀ op2, transformForLoop
          ⟨node.type, init :: ⟨cond.type, cond.children, (name ++ " ".toList ++ op2, value)⟩
            :: incr :: body, node.leaf⟩ s
        = transformForLoop node s := by
  have hns := tokenizeLoop_no_space _ _ _ htok
  rcases parse_children hparse node hnode with ⟨c, c2, hd⟩ | ⟨c, c2, hf⟩
  · have := parseDeclaration_type hd
    rw [htype] at this
    exact absurd this (by decide)
  obtain ⟨-, -, init, cond, incr, body, hch, ⟨_, _, hI⟩, ⟨_, _, hC⟩, ⟨_, _, hN⟩⟩ :=
    parseForLoop_ok hf
  obtain ⟨-, -, -, ⟨ti, hti, hiv⟩⟩ := parseInitialization_ok hI
  obtain ⟨-, -, name, op, value, hleaf, hname, -, hvalue⟩ := parseCondition_ok hC
  obtain ⟨-, -, -, ⟨tn, htn, -, hnv⟩⟩ := parseIncrement_ok hN
  have hinit : '\n' ∉ init.leaf.2 := by
    rw [← hiv]; exact (not_space_of_isspace_false (hns ti hti)).2
  have hop : '\n' ∉ incr.leaf.2 := by
    rw [← hnv]; exact (not_space_of_isspace_false (hns tn htn)).2
  have hval : '\n' ∉ cond.leaf.2 := by
    rw [hleaf]; exact (not_space_of_isspace_false (hns value hvalue)).2
  have hsp : ' ' ∉ name.value := (not_space_of_isspace_false (hns name hname)).1
  have hcn : conditionName cond.leaf.1 = name.value := by
    rw [hleaf]; exact conditionName_append _ _ hsp
  have heta : node = ⟨node.type, init :: cond :: incr :: body, node.leaf⟩ := by
    cases node
    simp only at hch
    subst hch
    rfl
  rw [heta] at h
  obtain ⟨before, after, hb, ha, hlines⟩ :=
    transformForLoop_lines _ _ init cond incr body s appended hclean hinit hval hop h
  have hx : (exitTest s (conditionName cond.leaf.1) cond.leaf.2).head? ≠ some 'L' := by
    simp [exitTest]
  obtain ⟨k1, k2, k3⟩ := count_loop_labels before after _ hb ha hx
  rw [← hlines] at k1 k2 k3
  refine ⟨k1, k2, k3, init, cond, incr, body, name.value, op.value, value.value, hch, hleaf,
    ⟨before, after ++ ["j LOOP_START".toList, "LOOP_END:".toList], ?_⟩, fun op2 => ?_⟩
  · rw [hlines, hcn, hleaf]
  · conv_rhs => rw [heta]
    rw [transformForLoop_eq, transformForLoop_eq]
    have hcn2 : conditionName (name.value ++ " ".toList ++ op2) = name.value :=
      conditionName_append _ _ hsp
    have hsame : afterHead s init ⟨cond.type, cond.children,
        (name.value ++ " ".toList ++ op2, value.value)⟩ = afterHead s init cond := by
      have hv : cond.leaf.2 = value.value := by rw [hleaf]
      simp only [afterHead, loopHead, hcn, hcn2, hv]
    rw [hsame]

/-- Witness of C3 at the loop `for (i = 0; i <= 3; i++) \x7b a = a + 1; \x7d`. -/
theorem transformForLoop_labels_witness :
    let appended :=
      ("li $t1, 0\nLOOP_START:\nbgt $t1, 3, LOOP_END\nadd $t0, $t0, 1\naddi $t1, $t1, 1\n"
        ++ "j LOOP_START\nLOOP_END:\n").toList
    tokenize loopCode = some loopTokens ∧
    parse loopTokens = .ok ⟨"Root".toList, [loopNode], ([], [])⟩ 21 ∧
    Appends (transformForLoop loopNode) (Transformer.new 0) appended ∧
    (lines appended).count "LOOP_START:".toList = 1 ∧
    (lines appended).count "LOOP_END:".toList = 1 ∧
    (lines appended).getLast? = some "LOOP_END:".toList :=
  have htok : tokenize loopCode = some loopTokens := by decide!
  have hparse : parse loopTokens = .ok ⟨"Root".toList, [loopNode], ([], [])⟩ 21 := rfl
  have happ : Appends (transformForLoop loopNode) (Transformer.new 0)
      ("li $t1, 0\nLOOP_START:\nbgt $t1, 3, LOOP_END\nadd $t0, $t0, 1\naddi $t1, $t1, 1\n"
        ++ "j LOOP_START\nLOOP_END:\n").toList := appends_of_run (by decide!)
  have hall := transformForLoop_labels loopCode loopTokens ⟨"Root".toList, [loopNode], ([], [])⟩
    loopNode 21 (Transformer.new 0) _ htok hparse (List.mem_singleton.mpr rfl) rfl
    (cleanRegs_new 0) happ
  ⟨htok, hparse, happ, hall.1, hall.2.1, hall.2.2.1⟩

/-! ## The parser on an exhausted token stream -/

theorem consume_exhausted (tokens : List Token) (type : TokenType) (value : Str) (cur : Nat)
    (h : tokens.length ≤ cur) :
    consume tokens type value cur = .outOfBounds cur tokens.length := by
  unfold consume
  rw [List.getElem?_eq_none h]

theorem consumeTypes_exhausted (tokens : List Token) (types : List TokenType) (cur : Nat)
    (h : tokens.length ≤ cur) :
    consumeTypes tokens types cur = .outOfBounds cur tokens.length := by
  unfold consumeTypes
  rw [List.getElem?_eq_none h]

/-- C15 (the code at the failing inputs): when the cursor is at or past the end
of the tokens, both overloads of `consume` read `tokens[current]` out of
bounds while building the error message; on the tokens of `int a` and of
`int a =` this is how `parse` ends, not with a grammar error. -/
theorem parse_reads_past_end :
    (∀ (tokens : List Token) (type : TokenType) (value : Str) (cur : Nat),
      tokens.length ≤ cur → consume tokens type value cur = .outOfBounds cur tokens.length) ∧
    (∀ (tokens : List Token) (types : List TokenType) (cur : Nat),
      tokens.length ≤ cur → consumeTypes tokens types cur = .outOfBounds cur tokens.length) ∧
    (tokenize "int a".toList).map parse = some (.outOfBounds 2 2) ∧
    (tokenize "int a =".toList).map parse = some (.outOfBounds 3 3) ∧
    (tokenize "for ( i = 0".toList).map parse = some (.outOfBounds 5 5) :=
  ⟨consume_exhausted, consumeTypes_exhausted, rfl, rfl, rfl⟩

/-- C20 (the code at the failing input): the if-statement `if (a == b) \x7b \x7d`
is parsed into a node with the condition as its only child, and
`transformIfStatement` then reads `children[1]` out of bounds. -/
theorem transformIfStatement_empty_body :
    (tokenize "if (a == b) \x7b \x7d".toList).map (fun tokens => parseIfStatement tokens 0)
      = some (.ok ⟨"IfStatement".toList,
          [⟨"Condition".toList, [], ("a ==".toList, "b".toList)⟩], ([], [])⟩ 8) ∧
    transformIfStatement ⟨"IfStatement".toList,
        [⟨"Condition".toList, [], ("a ==".toList, "b".toList)⟩], ([], [])⟩ (Transformer.new 0)
      = .outOfBounds 1 1 ∧
    lower "for (i = 0; i <= 3; i++) \x7b if (a == b) \x7b \x7d \x7d".toList 0
      = some (.outOfBounds 1 1) :=
  ⟨rfl, by decide!, by decide!⟩

/-- C12 (counterexample): two successive runs on the example program give
different texts: the first numbers its if-labels 0 and 1, the second 2 and 3. -/
theorem compileTwice_example :
    compileTwice exampleCode = some
      (("li $t0, 3\nli $t2, 4\nli $t1, 0\nLOOP_START:\nbgt $t1, 3, LOOP_END\n"
        ++ "beq $t0, $t2, IF_TRUE0\nj IF_FALSE0\nIF_TRUE0:\n"
        ++ "add $t0, $t0, $t1\naddi $t0, $t0, 2\nj END_IF0\nIF_FALSE0:\nEND_IF0:\n"
        ++ "bne $t0, $t2, IF_TRUE1\nj IF_FALSE1\nIF_TRUE1:\n"
        ++ "add $t0, $t0, 1\nj END_IF1\nIF_FALSE1:\nEND_IF1:\n"
        ++ "addi $t1, $t1, 1\nj LOOP_START\nLOOP_END:\n").toList,
       ("li $t0, 3\nli $t2, 4\nli $t1, 0\nLOOP_START:\nbgt $t1, 3, LOOP_END\n"
        ++ "beq $t0, $t2, IF_TRUE2\nj IF_FALSE2\nIF_TRUE2:\n"
        ++ "add $t0, $t0, $t1\naddi $t0, $t0, 2\nj END_IF2\nIF_FALSE2:\nEND_IF2:\n"
        ++ "bne $t0, $t2, IF_TRUE3\nj IF_FALSE3\nIF_TRUE3:\n"
        ++ "add $t0, $t0, 1\nj END_IF3\nIF_FALSE3:\nEND_IF3:\n"
        ++ "addi $t1, $t1, 1\nj LOOP_START\nLOOP_END:\n").toList) := by
  decide!

/-- C18 (counterexample): the parser accepts the loop `for (i = 0; i <= 3; i +=)`,
whose increment operator is the token `+=`, and `transformIncrement` takes its
`+=` branch on it, with an empty operand. -/
theorem compile_plus_assign_increment :
    compile "for (i = 0; i <= 3; i +=) \x7b \x7d".toList 0 = some
      "li $t1, 0\nLOOP_START:\nbgt $t1, 3, LOOP_END\naddi $t1, $t1, \nj LOOP_START\nLOOP_END:\n".toList := by
  decide!

/-! ## Whole lines with excluded first characters -/

theorem linedBy_nil (bad : Char → Bool) (b : Bool) : linedBy bad b [] = b := by
  cases b <;> rfl

@[simp] theorem linedBy_newline (bad : Char → Bool) (b : Bool) (r : Str) :
    linedBy bad b ('\n' :: r) = linedBy bad true r := by
  simp [linedBy]

theorem linedBy_false_cons (bad : Char → Bool) (c : Char) (r : Str) (h : c ≠ '\n') :
    linedBy bad false (c :: r) = linedBy bad false r := by
  simp [linedBy, h]

/-- Inside a line, a piece without newline does not matter. -/
theorem linedBy_false_append (bad : Char → Bool) (d r : Str) (h : '\n' ∉ d) :
    linedBy bad false (d ++ r) = linedBy bad false r := by
  induction d with
  | nil => rfl
  | cons c cs ih =>
    have hc : c ≠ '\n' := fun e => h (by simp [e])
    rw [List.cons_append, linedBy_false_cons _ _ _ hc, ih (fun hm => h (by simp [hm]))]

/-- After a text of whole lines, the next text starts a line. -/
theorem linedBy_append (bad : Char → Bool) (b : Bool) (t u : Str)
    (h : linedBy bad b t = true) : linedBy bad b (t ++ u) = linedBy bad true u := by
  induction t generalizing b with
  | nil => rw [linedBy_nil] at h; subst h; rfl
  | cons c cs ih =>
    rw [List.cons_append]
    simp only [linedBy] at h ⊢
    split_ifs at h ⊢ with hc
    · exact ih true h
    · simp only [Bool.and_eq_true] at h
      rw [ih false h.2]
      simp [h.1]

theorem linedBy_true_append (bad : Char → Bool) (t u : Str)
    (ht : linedBy bad true t = true) (hu : linedBy bad true u = true) :
    linedBy bad true (t ++ u) = true := by
  rw [linedBy_append bad true t u ht, hu]

/-- Excluding fewer first characters keeps the property. -/
theorem linedBy_anyStart (bad : Char → Bool) (b : Bool) (t : Str)
    (h : linedBy bad b t = true) : linedBy anyStart b t = true := by
  induction t generalizing b with
  | nil => simpa [linedBy_nil] using h
  | cons c cs ih =>
    simp only [linedBy] at h ⊢
    split_ifs at h ⊢ with hc
    · exact ih true h
    · simp only [Bool.and_eq_true] at h
      simp [anyStart, ih false h.2]

/-- After a text of whole lines, the lines of what follows are counted
separately. -/
theorem lines_append_of_linedBy (bad : Char → Bool) (b : Bool) (t u : Str)
    (h : linedBy bad b t = true) : lines (t ++ u) = lines t ++ lines u := by
  induction t generalizing b with
  | nil => rfl
  | cons c cs ih =>
    simp only [linedBy] at h
    rw [List.cons_append]
    simp only [lines]
    split_ifs at h ⊢ with hc
    · rw [ih true h]; rfl
    · simp only [Bool.and_eq_true] at h
      rw [ih false h.2]
      have hne : cs ≠ [] := by
        rintro rfl
        simp [linedBy] at h
      have : lines cs ≠ [] := fun e => hne (lines_eq_nil.mp e)
      obtain ⟨l, ls, hl⟩ := List.exists_cons_of_ne_nil this
      simp [hl]

/-- In a text of whole lines with excluded first characters, no line starts
with an excluded character. -/
theorem head_of_lines_of_linedBy (bad : Char → Bool) (b : Bool) (t : Str)
    (h : linedBy bad b t = true) :
    (∀ l ∈ (lines t).tail, ∀ c, l.head? = some c → bad c = false) ∧
      (b = true → ∀ l ∈ (lines t).head?, ∀ c, l.head? = some c → bad c = false) := by
  induction t generalizing b with
  | nil => simp [lines]
  | cons c cs ih =>
    simp only [linedBy] at h
    simp only [lines]
    split_ifs at h ⊢ with hc
    · have := ih true h
      refine ⟨?_, fun _ => by simp⟩
      intro l hl
      simp only [List.tail_cons] at hl
      cases hls : lines cs with
      | nil => simp [hls] at hl
      | cons x xs =>
        rw [hls] at hl this
        simp only [List.mem_cons] at hl
        rcases hl with rfl | hl
        · exact this.2 rfl _ (by simp)
        · exact this.1 _ (by simpa using hl)
    · simp only [Bool.and_eq_true] at h
      have := ih false h.2
      cases hls : lines cs with
      | nil =>
        refine ⟨by simp, fun hb => ?_⟩
        subst hb
        simp at h
        simpa using h.1
      | cons x xs =>
        rw [hls] at this
        refine ⟨by simpa using this.1, fun hb => ?_⟩
        subst hb
        simp at h
        simpa using h.1

theorem lines_of_linedBy (bad : Char → Bool) (t : Str) (h : linedBy bad true t = true) :
    ∀ l ∈ lines t, ∀ c, l.head? = some c → bad c = false := by
  have := head_of_lines_of_linedBy bad true t h
  intro l hl
  cases hls : lines t with
  | nil => simp [hls] at hl
  | cons x xs =>
    rw [hls] at hl this
    simp only [List.mem_cons] at hl
    rcases hl with rfl | hl
    · exact this.2 rfl _ (by simp)
    · exact this.1 _ (by simpa using hl)

/-- A line of the form of an if-label starts with `I` or `E`. -/
theorem labelStart_of_isIfLabel (l : Str) (h : isIfLabel l = true) :
    ∃ c, l.head? = some c ∧ labelStart c = true := by
  cases l with
  | nil => simp [isIfLabel, List.isPrefixOf] at h
  | cons c r =>
    refine ⟨c, rfl, ?_⟩
    simp only [isIfLabel, String.toList, List.isPrefixOf, Bool.or_eq_true,
      Bool.and_eq_true, beq_iff_eq] at h
    rcases h with (h | h) | h
    · simp [labelStart, ← h.1]
    · simp [labelStart, ← h.1]
    · simp [labelStart, ← h.1]

/-- A text of whole lines none of which starts with `I` or `E` has no if-label
line. -/
theorem labelLines_of_plain (t : Str) (h : linedBy labelStart true t = true) :
    labelLines t = [] := by
  unfold labelLines
  rw [List.filter_eq_nil_iff]
  intro l hl hlab
  obtain ⟨c, hc, hs⟩ := labelStart_of_isIfLabel l hlab
  have := lines_of_linedBy labelStart t h l hl c hc
  rw [this] at hs
  cases hs

theorem labelLines_append (bad : Char → Bool) (t u : Str) (h : linedBy bad true t = true) :
    labelLines (t ++ u) = labelLines t ++ labelLines u := by
  unfold labelLines
  rw [lines_append_of_linedBy bad true t u h, List.filter_append]

/-! ## The if-label lines of the text the lowering appends -/

/-- The text of the operation part consists of whole lines that start with
neither `I` nor `E`, when the registers and the remainder contain no newline. -/
theorem emitOperation_plain (expression operation secOperation remaining : Str)
    (imm : Int) (hrem : '\n' ∉ remaining) :
    (∃ F : Str → Str → Str,
      (∀ D S st, emitOperation expression operation secOperation remaining D S imm st
        = .ok () { st with details := st.details ++ F D S }) ∧
      ∀ D S, '\n' ∉ D → '\n' ∉ S → linedBy labelStart true (F D S) = true) ∨
    (∃ ex, ∀ D S st, emitOperation expression operation secOperation remaining D S imm st
        = .thrown ex st) := by
  have himm := to_string_clean imm
  unfold emitOperation
  split_ifs
  all_goals first
    | exact Or.inr ⟨_, fun D S st => rfl⟩
    | (refine Or.inl ⟨fun D S => _, fun D S st => emit_then_emit _ _ st, fun D S hD hS => ?_⟩
       simp [linedBy, labelStart, linedBy_false_append, hD, hS, himm, hrem])
    | (refine Or.inl ⟨fun D S => _, fun D S st => pure_appends_nothing st, fun D S hD hS => ?_⟩
       simp [linedBy])
    | (refine Or.inl ⟨fun D S => _, fun D S st => rfl, fun D S hD hS => ?_⟩
       simp [linedBy, labelStart, linedBy_false_append, hD, hS, himm, hrem])

/-- A successful `transformExpression` appends whole lines, none of them an
if-label. -/
theorem transformExpression_plain {e : Node} {s s1 : Lowering} {a : Unit}
    (h : transformExpression e s = .ok a s1) :
    s1.ifCount = s.ifCount ∧
    (∀ k, regOf s1.variableToRegisterMap k = regOf s.variableToRegisterMap k) ∧
    ∃ text, s1.details = s.details ++ text ∧
      (CleanRegs s.variableToRegisterMap → linedBy labelStart true text = true) := by
  rcases transformExpression_eq e with ⟨ex, hex⟩ | ⟨expression, operation, secOperation,
    remaining, dest, src, imm, hrem, heq⟩
  · rw [hex s] at h; cases h
  · rw [heq s] at h
    rcases emitOperation_plain expression operation secOperation remaining imm hrem with
      ⟨F, hF, hshape⟩ | ⟨ex, hex⟩
    · rw [hF] at h
      injection h with _ h
      subst h
      exact ⟨rfl, fun k => by simp, _, rfl, fun hclean => hshape _ _ (hclean _) (hclean _)⟩
    · rw [hex] at h; cases h

/-- What a successful `transformIfStatement` does: the node has a condition
with operator `==` or `!=` and a first body statement, the counter is
incremented, the registers stay, and the text appended is the block of the
if-statement around the text of the body. -/
theorem transformIfStatement_run {node : Node} {s s1 : Lowering} {a : Unit}
    (h : transformIfStatement node s = .ok a s1) :
    ∃ cond body1 rest instr bodyText,
      node.children = cond :: body1 :: rest ∧
      ((conditionOperator cond.leaf.1 = "==".toList ∧ instr = "beq".toList) ∨
        (conditionOperator cond.leaf.1 = "!=".toList ∧ instr = "bne".toList)) ∧
      s1.ifCount = wrapInt (s.ifCount + 1) ∧
      (∀ k, regOf s1.variableToRegisterMap k = regOf s.variableToRegisterMap k) ∧
      s1.details = s.details ++ ifBlock instr
        (regOf s.variableToRegisterMap (conditionName cond.leaf.1))
        (regOf s.variableToRegisterMap "b".toList) (to_string s.ifCount) bodyText ∧
      (CleanRegs s.variableToRegisterMap → linedBy labelStart true bodyText = true) := by
  unfold transformIfStatement at h
  simp only [bind_apply, childAt] at h
  cases hc : node.children[0]? with
  | none => simp [hc] at h
  | some cond =>
    cases hb : node.children[1]? with
    | none =>
      simp [hc, hb, nextIfCount] at h
      split_ifs at h
      all_goals simp at h
    | some body =>
      have hch : ∃ rest, node.children = cond :: body :: rest := by
        cases hl : node.children with
        | nil => simp [hl] at hc
        | cons x xs =>
          cases xs with
          | nil => simp [hl] at hb
          | cons y ys =>
            simp [hl] at hc hb
            exact ⟨ys, by rw [hc, hb]⟩
      obtain ⟨rest, hrest⟩ := hch
      simp [hc, hb, nextIfCount] at h
      split_ifs at h with h1 h2
      all_goals simp at h
      · revert h
        cases he : transformExpression body _ with
        | ok b s2 =>
          intro h
          obtain ⟨hcount, hregs, Tb, hTb, hshape⟩ := transformExpression_plain he
          simp at h
          subst h
          simp at hcount hregs hTb
          refine ⟨cond, body, rest, "beq".toList, Tb, hrest, Or.inl ⟨?_, rfl⟩, by simpa using hcount,
            fun k => by simpa using hregs k, ?_, fun hclean => hshape (fun k => by simpa using hclean k)⟩
          · simp [conditionOperator, h1]
          · simp [hTb, ifBlock, conditionName]
        | thrown ex s2 => simp
        | outOfBounds i n => simp
        | fuel => simp
      · revert h
        cases he : transformExpression body _ with
        | ok b s2 =>
          intro h
          obtain ⟨hcount, hregs, Tb, hTb, hshape⟩ := transformExpression_plain he
          simp at h
          subst h
          simp at hcount hregs hTb
          refine ⟨cond, body, rest, "bne".toList, Tb, hrest, Or.inr ⟨?_, rfl⟩, by simpa using hcount,
            fun k => by simpa using hregs k, ?_, fun hclean => hshape (fun k => by simpa using hclean k)⟩
          · simp [conditionOperator, h2]
          · simp [hTb, ifBlock, conditionName]
        | thrown ex s2 => simp
        | outOfBounds i n => simp
        | fuel => simp

/-! ## The branch line of an if-statement -/

/-- C19: from a state in which `b` is mapped to `$t2` (as the constructor maps
it), for an if-statement with operator `==` or `!=`: the call does not depend on
the compare value stored in the condition, and when it ends normally the text
it appends starts with the branch line `beq R, $t2, IF_TRUEn` (or `bne`), `R`
the register of the condition's variable and `n` the counter. -/
theorem transformIfStatement_branch_line (type : Str) (leaf : Str × Str) (cond : Node)
    (body : List Node) (s : Lowering) (instr appended : Str)
    (hb : regOf s.variableToRegisterMap "b".toList = "$t2".toList)
    (hop : (conditionOperator cond.leaf.1 = "==".toList ∧ instr = "beq".toList) ∨
      (conditionOperator cond.leaf.1 = "!=".toList ∧ instr = "bne".toList))
    (h : Appends (transformIfStatement ⟨type, cond :: body, leaf⟩) s appended) :
    (∀ value2, transformIfStatement
        ⟨type, ⟨cond.type, cond.children, (cond.leaf.1, value2)⟩ :: body, leaf⟩ s
      = transformIfStatement ⟨type, cond :: body, leaf⟩ s) ∧
    ∃ rest, appended =
      (instr ++ " ".toList ++ regOf s.variableToRegisterMap (conditionName cond.leaf.1)
        ++ ", $t2, IF_TRUE".toList ++ to_string s.ifCount ++ "\n".toList) ++ rest := by
  refine ⟨fun value2 => by simp [transformIfStatement, childAt], ?_⟩
  obtain ⟨s1, h1, e1⟩ := h
  obtain ⟨cond2, body1, rest, instr2, bodyText, hch, hop2, -, -, hdet, -⟩ :=
    transformIfStatement_run h1
  simp only [List.cons.injEq] at hch
  obtain ⟨rfl, -⟩ := hch
  have hinstr : instr2 = instr := by
    rcases hop with ⟨h1, rfl⟩ | ⟨h1, rfl⟩ <;> rcases hop2 with ⟨h2, rfl⟩ | ⟨h2, rfl⟩
    · rfl
    · rw [h1] at h2; exact absurd h2 (by decide)
    · rw [h1] at h2; exact absurd h2 (by decide)
    · rfl
  subst hinstr
  rw [hdet] at e1
  have := List.append_cancel_left e1
  rw [← this, hb]
  exact ⟨("j IF_FALSE".toList ++ to_string s.ifCount) ++ "\n".toList
    ++ (("IF_TRUE".toList ++ to_string s.ifCount ++ ":".toList) ++ "\n".toList
    ++ (bodyText
    ++ (("j END_IF".toList ++ to_string s.ifCount) ++ "\n".toList
    ++ (("IF_FALSE".toList ++ to_string s.ifCount ++ ":".toList) ++ "\n".toList
    ++ (("END_IF".toList ++ to_string s.ifCount ++ ":".toList) ++ "\n".toList))))),
    by simp [ifBlock]⟩

/-- Witness of C19: `if (a == 5)` and `if (a == b)` start with the same branch
line `beq $t0, $t2, IF_TRUE0`. -/
theorem transformIfStatement_branch_line_witness :
    transformIfStatement ⟨"IfStatement".toList,
        [⟨"Condition".toList, [], ("a ==".toList, "b".toList)⟩,
         ⟨"Expression".toList, [], ("a = a + 1 ".toList, [])⟩], ([], [])⟩ (Transformer.new 0)
      = transformIfStatement ⟨"IfStatement".toList,
        [⟨"Condition".toList, [], ("a ==".toList, "5".toList)⟩,
         ⟨"Expression".toList, [], ("a = a + 1 ".toList, [])⟩], ([], [])⟩ (Transformer.new 0) ∧
    ∃ rest, ("beq $t0, $t2, IF_TRUE0\nj IF_FALSE0\nIF_TRUE0:\nadd $t0, $t0, 1\nj END_IF0\n"
        ++ "IF_FALSE0:\nEND_IF0:\n").toList
      = "beq $t0, $t2, IF_TRUE0\n".toList ++ rest :=
  have h := transformIfStatement_branch_line "IfStatement".toList ([], [])
    ⟨"Condition".toList, [], ("a ==".toList, "5".toList)⟩
    [⟨"Expression".toList, [], ("a = a + 1 ".toList, [])⟩] (Transformer.new 0) "beq".toList
    ("beq $t0, $t2, IF_TRUE0\nj IF_FALSE0\nIF_TRUE0:\nadd $t0, $t0, 1\nj END_IF0\n"
        ++ "IF_FALSE0:\nEND_IF0:\n").toList
    (by decide) (Or.inl ⟨by decide, rfl⟩) (appends_of_run (by decide!))
  ⟨h.1 "b".toList, h.2⟩

/-! ## The printed counter and the label lines of an if-statement -/

theorem digitChar_value (m : Nat) (h : m < 10) : (Nat.digitChar m).toNat - 48 = m := by
  interval_cases m <;> rfl

theorem foldl_toDigitsCore (fuel n : Nat) (ds : List Char) (h : n < fuel) :
    (Nat.toDigitsCore 10 fuel n ds).foldl (fun acc c => acc * 10 + (c.toNat - 48)) 0
      = ds.foldl (fun acc c => acc * 10 + (c.toNat - 48)) n := by
  induction fuel generalizing n ds with
  | zero => omega
  | succ f ih =>
    simp only [Nat.toDigitsCore]
    split_ifs with h0
    · simp only [List.foldl_cons, Nat.zero_mul, Nat.zero_add]
      rw [digitChar_value _ (Nat.mod_lt _ (by decide))]
      congr 1
      omega
    · rw [ih (n / 10) _ (by omega)]
      simp only [List.foldl_cons]
      rw [digitChar_value _ (Nat.mod_lt _ (by decide))]
      congr 1
      omega

/-- Reading the printed text of a number gives the number back. -/
theorem digitsValue_natToStr (n : Nat) : digitsValue (natToStr n) = n := by
  unfold digitsValue natToStr Nat.repr Nat.toDigits
  simpa [List.asString] using foldl_toDigitsCore (n + 1) n [] (by omega)

theorem natToStr_injective {a b : Nat} (h : natToStr a = natToStr b) : a = b := by
  have := congrArg digitsValue h
  rwa [digitsValue_natToStr, digitsValue_natToStr] at this

theorem to_string_natCast (n : Nat) : to_string n = natToStr n := rfl

theorem digitChar_ne_minus (n : Nat) : Nat.digitChar n ≠ '-' := by
  by_cases h : n < 16
  · interval_cases n <;> decide
  · unfold Nat.digitChar
    repeat rw [if_neg (by omega)]
    decide

theorem toDigitsCore_no_minus (fuel n : Nat) (ds : List Char) (h : '-' ∉ ds) :
    '-' ∉ Nat.toDigitsCore 10 fuel n ds := by
  induction fuel generalizing n ds with
  | zero => simpa [Nat.toDigitsCore] using h
  | succ f ih =>
    have hd : '-' ∉ Nat.digitChar (n % 10) :: ds := by
      simp only [List.mem_cons, not_or]
      exact ⟨fun e => digitChar_ne_minus _ e.symm, h⟩
    simp only [Nat.toDigitsCore]
    split_ifs
    · exact hd
    · exact ih _ _ hd

theorem natToStr_no_minus (n : Nat) : '-' ∉ natToStr n := by
  unfold natToStr Nat.repr Nat.toDigits
  simpa [List.asString] using toDigitsCore_no_minus (n + 1) n [] (by simp)

/-- Different values of an `int` are printed differently. -/
theorem to_string_injective {a b : Int} (h : to_string a = to_string b) : a = b := by
  cases a with
  | ofNat m =>
    cases b with
    | ofNat n =>
      have h2 : natToStr m = natToStr n := h
      rw [natToStr_injective h2]
    | negSucc n =>
      exfalso
      have h2 : natToStr m = '-' :: natToStr (n + 1) := h
      have := natToStr_no_minus m
      rw [h2] at this
      simp at this
  | negSucc m =>
    cases b with
    | ofNat n =>
      exfalso
      have h2 : '-' :: natToStr (m + 1) = natToStr n := h
      have := natToStr_no_minus n
      rw [← h2] at this
      simp at this
    | negSucc n =>
      have h2 : '-' :: natToStr (m + 1) = '-' :: natToStr (n + 1) := h
      have h3 := natToStr_injective (List.cons.inj h2).2
      have : m = n := by omega
      rw [this]

/-- The three label lines of one if-statement are different. -/
theorem ifLabels_nodup (n : Int) : (ifLabels n).Nodup := by
  simp [ifLabels]

/-- The label lines of if-statements with different counters are different. -/
theorem ifLabels_disjoint {a b : Int} (h : a ≠ b) : List.Disjoint (ifLabels a) (ifLabels b) := by
  have hne : to_string a ≠ to_string b := fun e => h (to_string_injective e)
  intro l ha hb
  simp only [ifLabels, List.mem_cons, List.mem_singleton,
    List.not_mem_nil, or_false] at ha hb
  rcases ha with rfl | rfl | rfl <;> rcases hb with hb | hb | hb
  all_goals simp at hb
  all_goals exact hne hb

end Badge

namespace Badge

/-- A line without newline, ended by a newline, is a whole line. -/
theorem linedBy_anyStart_line (b : Bool) (l rest : Str) (h : '\n' ∉ l) :
    linedBy anyStart b (l ++ '\n' :: rest) = linedBy anyStart true rest := by
  induction l generalizing b with
  | nil => simp
  | cons c cs ih =>
    have hc : c ≠ '\n' := fun e => h (by simp [e])
    rw [List.cons_append]
    simp only [linedBy, if_neg hc, anyStart]
    rw [ih false (fun hm => h (by simp [hm]))]
    simp

/-- The lines of the block of an if-statement whose registers contain no
newline and whose body text has no if-label line: whole lines, of which exactly
the three labels are if-label lines. -/
theorem ifBlock_labels (instr R Rb bodyText : Str) (n : Int)
    (hinstr : instr = "beq".toList ∨ instr = "bne".toList)
    (hR : '\n' ∉ R) (hRb : '\n' ∉ Rb) (hbody : linedBy labelStart true bodyText = true) :
    linedBy anyStart true (ifBlock instr R Rb (to_string n) bodyText) = true ∧
    labelLines (ifBlock instr R Rb (to_string n) bodyText) = ifLabels n := by
  have hn : '\n' ∉ to_string n := to_string_clean n
  have hi : '\n' ∉ instr := by rcases hinstr with rfl | rfl <;> decide
  have h1 : '\n' ∉ instr ++ " ".toList ++ R ++ ", ".toList ++ Rb ++ ", IF_TRUE".toList
      ++ to_string n := by simp [hi, hR, hRb, hn]
  have h2 : '\n' ∉ "j IF_FALSE".toList ++ to_string n := by simp [hn]
  have h3 : '\n' ∉ "IF_TRUE".toList ++ to_string n ++ ":".toList := by simp [hn]
  have h4 : '\n' ∉ "j END_IF".toList ++ to_string n := by simp [hn]
  have h5 : '\n' ∉ "IF_FALSE".toList ++ to_string n ++ ":".toList := by simp [hn]
  have h6 : '\n' ∉ "END_IF".toList ++ to_string n ++ ":".toList := by simp [hn]
  have e : "\n".toList = ['\n'] := rfl
  have hany := linedBy_anyStart _ _ _ hbody
  constructor
  · unfold ifBlock
    rw [e]
    simp only [List.append_assoc (_ ++ _) ['\n'], List.singleton_append]
    rw [linedBy_anyStart_line _ _ _ h1, linedBy_anyStart_line _ _ _ h2,
      linedBy_anyStart_line _ _ _ h3, linedBy_append _ _ _ _ hany,
      linedBy_anyStart_line _ _ _ h4, linedBy_anyStart_line _ _ _ h5,
      linedBy_anyStart_line _ _ _ h6]
    rfl
  · unfold ifBlock labelLines
    rw [e]
    simp only [List.append_assoc (_ ++ _) ['\n'], List.singleton_append]
    rw [lines_line_append _ _ h1, lines_line_append _ _ h2, lines_line_append _ _ h3,
      lines_append_of_linedBy _ _ _ _ hbody, lines_line_append _ _ h4,
      lines_line_append _ _ h5, lines_line_append _ _ h6]
    have hb : (lines bodyText).filter isIfLabel = [] := labelLines_of_plain _ hbody
    have f1 : isIfLabel (instr ++ " ".toList ++ R ++ ", ".toList ++ Rb ++ ", IF_TRUE".toList
        ++ to_string n) = false := by
      rcases hinstr with rfl | rfl <;> rfl
    have f2 : isIfLabel ("j IF_FALSE".toList ++ to_string n) = false := rfl
    have f3 : isIfLabel ("IF_TRUE".toList ++ to_string n ++ ":".toList) = true := by
      simp [isIfLabel]
    have f4 : isIfLabel ("j END_IF".toList ++ to_string n) = false := rfl
    have f5 : isIfLabel ("IF_FALSE".toList ++ to_string n ++ ":".toList) = true := by
      simp [isIfLabel]
    have f6 : isIfLabel ("END_IF".toList ++ to_string n ++ ":".toList) = true := by
      simp [isIfLabel]
    simp only [List.filter_cons, List.filter_append, f1, f2, f3, f4, f5, f6, hb, lines,
      List.filter_nil, List.nil_append, if_true, Bool.false_eq_true, if_false, ifLabels]

/-! ## The if-label lines of a run -/

/-- The label lines of `m1 + m2` consecutive counters are those of the first
`m1` followed by those of the next `m2`. -/
theorem labels_add (c : Int) (m1 m2 : Nat) :
    (List.range (m1 + m2)).flatMap (fun k => ifLabels (c + k))
      = (List.range m1).flatMap (fun k => ifLabels (c + k))
        ++ (List.range m2).flatMap (fun k => ifLabels (c + m1 + k)) := by
  induction m2 with
  | zero => simp
  | succ m ih =>
    rw [← Nat.add_assoc, List.range_succ, List.flatMap_append, ih, List.range_succ,
      List.flatMap_append, List.append_assoc]
    simp only [List.flatMap_cons, List.flatMap_nil, List.append_nil, Nat.cast_add]
    rw [Int.add_assoc]

theorem labels_one (c : Int) :
    (List.range 1).flatMap (fun k => ifLabels (c + k)) = ifLabels c := by
  simp [List.range_succ]

theorem countIfs_cons (child : Node) (rest : List Node) :
    countIfs (child :: rest)
      = (if child.type = "IfStatement".toList then 1 else 0) + countIfs rest := by
  unfold countIfs
  by_cases h : child.type = "IfStatement".toList
  · simp [List.filter, h]; omega
  · have h2 := h
    simp at h2
    simp [List.filter, h2]

/-- A successful body loop that does not take the counter out of the range of
`int` advances it by the number of `IfStatement` children, keeps the registers,
and appends whole lines whose if-label lines are the label lines of the
consecutive counters, in order. -/
theorem transformForBody_labels {body : List Node} {s s1 : Lowering} {a : Unit}
    (h : transformForBody body s = .ok a s1)
    (hlo : -2147483648 ≤ s.ifCount) (hhi : s.ifCount + countIfs body ≤ 2147483647) :
    s1.ifCount = s.ifCount + countIfs body ∧
    (∀ k, regOf s1.variableToRegisterMap k = regOf s.variableToRegisterMap k) ∧
    ∃ text, s1.details = s.details ++ text ∧
      (CleanRegs s.variableToRegisterMap →
        linedBy anyStart true text = true ∧
        labelLines text
          = (List.range (countIfs body)).flatMap (fun k => ifLabels (s.ifCount + k))) := by
  induction body generalizing s with
  | nil =>
    simp [transformForBody] at h
    subst h
    exact ⟨by simp [countIfs], fun _ => rfl, [], by simp,
      fun _ => ⟨rfl, by simp [countIfs, labelLines, lines]⟩⟩
  | cons child rest ih =>
    simp only [transformForBody] at h
    rw [countIfs_cons] at hhi ⊢
    by_cases hif : child.type = "IfStatement".toList
    · simp only [hif, if_true, bind_apply] at h
      rw [if_pos hif] at hhi ⊢
      push_cast at hhi
      cases hc : transformIfStatement child s with
      | ok b s2 =>
        rw [hc] at h
        obtain ⟨cond, body1, rest1, instr, bodyText, -, hop, c1, r1, e1, l1⟩ :=
          transformIfStatement_run hc
        rw [wrapInt_succ _ hlo (by omega)] at c1
        obtain ⟨c2, r2, T2, e2, l2⟩ := ih h (by omega) (by omega)
        refine ⟨by rw [c2, c1]; push_cast; omega, fun k => by rw [r2, r1], _,
          by rw [e2, e1, List.append_assoc], fun hclean => ?_⟩
        have hinstr : instr = "beq".toList ∨ instr = "bne".toList := by
          rcases hop with ⟨-, h⟩ | ⟨-, h⟩
          · exact Or.inl h
          · exact Or.inr h
        obtain ⟨b1, b2⟩ := ifBlock_labels instr _ _ bodyText s.ifCount hinstr
          (hclean _) (hclean _) (l1 hclean)
        obtain ⟨t1, t2⟩ := l2 (fun k => by rw [r1]; exact hclean k)
        refine ⟨linedBy_true_append _ _ _ b1 t1, ?_⟩
        rw [labelLines_append anyStart _ _ b1, b2, t2, c1, labels_add, labels_one]
        rfl
      | thrown ex s2 => rw [hc] at h; cases h
      | outOfBounds i n => rw [hc] at h; cases h
      | fuel => rw [hc] at h; cases h
    · simp only [hif, if_false] at h
      rw [if_neg hif, Nat.zero_add] at hhi ⊢
      by_cases hex : child.type = "Expression".toList
      · simp only [hex, if_true, bind_apply] at h
        cases hc : transformExpression child s with
        | ok b s2 =>
          rw [hc] at h
          obtain ⟨c1, r1, T1, e1, l1⟩ := transformExpression_plain hc
          obtain ⟨c2, r2, T2, e2, l2⟩ := ih h (by rw [c1]; exact hlo) (by rw [c1]; exact hhi)
          refine ⟨by rw [c2, c1], fun k => by rw [r2, r1], T1 ++ T2,
            by rw [e2, e1, List.append_assoc], fun hclean => ?_⟩
          obtain ⟨t1, t2⟩ := l2 (fun k => by rw [r1]; exact hclean k)
          have p1 := l1 hclean
          refine ⟨linedBy_true_append _ _ _ (linedBy_anyStart _ _ _ p1) t1, ?_⟩
          rw [labelLines_append _ _ _ p1, labelLines_of_plain _ p1, t2, c1, List.nil_append]
        | thrown ex s2 => rw [hc] at h; cases h
        | outOfBounds i n => rw [hc] at h; cases h
        | fuel => rw [hc] at h; cases h
      · simp only [hex, if_false, bind_apply, pure_apply] at h
        exact ih h hlo hhi

/-- The head of a loop with newline-free registers and payloads: whole lines,
none of them an if-label. -/
theorem loopHead_plain (s : Lowering) (init cond : Node)
    (hclean : CleanRegs s.variableToRegisterMap) (hinit : '\n' ∉ init.leaf.2)
    (hval : '\n' ∉ cond.leaf.2) : linedBy labelStart true (loopHead s init cond) = true := by
  have hR := hclean init.leaf.1
  have hC := hclean (conditionName cond.leaf.1)
  unfold loopHead
  simp only []
  split_ifs
  · simp [linedBy, labelStart, linedBy_false_append, hR, hC, hinit, hval]
  · simp [linedBy, labelStart, linedBy_false_append, hR, hC, hinit, hval]

/-- A successful `transformIncrement` appends whole lines, none of them an
if-label, and changes nothing else. -/
theorem transformIncrement_plain {incr : Node} {reg : Str} {s s1 : Lowering} {a : Unit}
    (h : transformIncrement incr reg s = .ok a s1) :
    ∃ text, s1 = { s with details := s.details ++ text } ∧
      ('\n' ∉ reg → '\n' ∉ incr.leaf.2 → linedBy labelStart true text = true) := by
  unfold transformIncrement at h
  split_ifs at h
  · simp at h
    exact ⟨_, h.symm, fun hr _ => by simp [linedBy, labelStart, linedBy_false_append, hr]⟩
  · simp at h
    exact ⟨_, h.symm, fun hr _ => by simp [linedBy, labelStart, linedBy_false_append, hr]⟩
  · cases hsub : substr incr.leaf.2 2 with
    | error ex => simp [hsub] at h
    | ok number =>
      simp [hsub] at h
      refine ⟨_, h.symm, fun hr hop => ?_⟩
      have hnum : '\n' ∉ number := fun hm => hop (substr_mem hsub _ hm)
      simp [linedBy, labelStart, linedBy_false_append, hr, hnum]
  · cases hsub : substr incr.leaf.2 2 with
    | error ex => simp [hsub] at h
    | ok number =>
      simp [hsub] at h
      refine ⟨_, h.symm, fun hr hop => ?_⟩
      have hnum : '\n' ∉ number := fun hm => hop (substr_mem hsub _ hm)
      simp [linedBy, labelStart, linedBy_false_append, hr, hnum]
  · simp at h
    exact ⟨[], by simp [← h], fun _ _ => rfl⟩

/-- A `transformForLoop` that ends normally was given at least the three
structural children. -/
theorem transformForLoop_children {node : Node} {s s1 : Lowering} {a : Unit}
    (h : transformForLoop node s = .ok a s1) :
    ∃ init cond incr body, node.children = init :: cond :: incr :: body := by
  rcases node with ⟨type, children, leaf⟩
  match children, h with
  | [], h => simp [transformForLoop, childAt] at h
  | [x], h =>
    exfalso
    unfold transformForLoop at h
    simp only [bind_ok_iff, childAt] at h
    obtain ⟨_, _, _, _, _, _, _, _, _, h⟩ := h
    split_ifs at h
    all_goals
      simp only [bind_ok_iff, childAt] at h
      obtain ⟨_, _, _, _, _, _, _, _, hc, _⟩ := h
      simp at hc
  | [x, y], h =>
    exfalso
    unfold transformForLoop at h
    simp only [bind_ok_iff, childAt] at h
    obtain ⟨_, _, _, _, _, _, _, _, _, h⟩ := h
    split_ifs at h
    all_goals
      simp only [bind_ok_iff, childAt] at h
      obtain ⟨_, _, _, _, _, _, _, _, _, _, _, _, _, _, _, _, _, _, _, _, _, _, _, hc, _⟩ := h
      simp at hc
  | init :: cond :: incr :: body, _ => exact ⟨init, cond, incr, body, rfl⟩

/-- A successful `transformForLoop` that does not take the counter out of the
range of `int` advances it by the number of `IfStatement` nodes among
`children[2..]`, keeps the registers, and (on newline-free registers and
payloads) appends whole lines whose if-label lines are the label lines of the
consecutive counters, in order. -/
theorem transformForLoop_run {node : Node} {s s1 : Lowering} {a : Unit}
    (h : transformForLoop node s = .ok a s1)
    (hlo : -2147483648 ≤ s.ifCount)
    (hhi : s.ifCount + countIfs (node.children.drop 2) ≤ 2147483647) :
    s1.ifCount = s.ifCount + countIfs (node.children.drop 2) ∧
    (∀ k, regOf s1.variableToRegisterMap k = regOf s.variableToRegisterMap k) ∧
    ∃ text, s1.details = s.details ++ text ∧
      (CleanRegs s.variableToRegisterMap → (∀ g ∈ node.children, '\n' ∉ g.leaf.2) →
        linedBy anyStart true text = true ∧
        labelLines text = (List.range (countIfs (node.children.drop 2))).flatMap
          (fun k => ifLabels (s.ifCount + k))) := by
  obtain ⟨init, cond, incr, body, hch⟩ := transformForLoop_children h
  rcases node with ⟨type, children, leaf⟩
  simp only at hch
  subst hch
  rw [transformForLoop_eq] at h
  simp only [bind_ok_iff, emit_apply, Outcome.ok.injEq] at h
  obtain ⟨_, sB, hb, _, sI, hi, _, sJ, ⟨-, hj⟩, -, hk⟩ := h
  simp only [List.drop_succ_cons, List.drop_zero] at hhi ⊢
  obtain ⟨cB, rB, Tb, eB, lB⟩ := transformForBody_labels hb
    (by simpa [afterHead] using hlo) (by simpa [afterHead] using hhi)
  obtain ⟨Ti, eI, lI⟩ := transformIncrement_plain hi
  subst hk hj eI
  refine ⟨by simpa [afterHead] using cB, fun k => by simpa [afterHead] using rB k,
    loopHead s init cond ++ (Tb ++ (Ti ++ "j LOOP_START\nLOOP_END:\n".toList)),
    by simp [eB, afterHead], fun hclean hpay => ?_⟩
  have hH := loopHead_plain s init cond hclean (hpay _ (by simp)) (hpay _ (by simp))
  obtain ⟨hTb, hL⟩ := lB (fun k => by simpa [afterHead] using hclean k)
  have hTi := lI (hclean _) (hpay _ (by simp))
  have hT : linedBy labelStart true "j LOOP_START\nLOOP_END:\n".toList = true := by decide
  have hTail : linedBy labelStart true (Ti ++ "j LOOP_START\nLOOP_END:\n".toList) = true :=
    linedBy_true_append _ _ _ hTi hT
  refine ⟨linedBy_true_append _ _ _ (linedBy_anyStart _ _ _ hH)
    (linedBy_true_append _ _ _ hTb (linedBy_anyStart _ _ _ hTail)), ?_⟩
  rw [labelLines_append _ _ _ hH, labelLines_of_plain _ hH, labelLines_append _ _ _ hTb,
    labelLines_of_plain _ hTail, hL]
  simp [afterHead]

/-- What `transformDeclaration` does: the register of the name is looked up and
the line `li R, value` is appended. -/
theorem transformDeclaration_run (decl : Node) (s : Lowering) :
    transformDeclaration decl s = .ok ()
      { variableToRegisterMap := touch s.variableToRegisterMap decl.leaf.1
        ifCount := s.ifCount
        details := s.details ++ ("li ".toList ++ regOf s.variableToRegisterMap decl.leaf.1
          ++ ", ".toList ++ decl.leaf.2 ++ "\n".toList) } := by
  unfold transformDeclaration
  simp only [bind_apply, lookupReg_apply, emit_apply]

/-- A successful loop over the children of the root that does not take the
counter out of the range of `int` advances it by the number of if-statements
lowered (for any tree), keeps the registers, and on newline-free registers and
payloads appends whole lines whose if-label lines are the label lines of the
consecutive counters, in order. -/
theorem transformChildren_run {children : List Node} {s s1 : Lowering} {a : Unit}
    (h : transformChildren children s = .ok a s1)
    (hlo : -2147483648 ≤ s.ifCount)
    (hhi : s.ifCount + countIfsOfChildren children ≤ 2147483647) :
    s1.ifCount = s.ifCount + countIfsOfChildren children ∧
    (∀ k, regOf s1.variableToRegisterMap k = regOf s.variableToRegisterMap k) ∧
    ∃ text, s1.details = s.details ++ text ∧
      (CleanRegs s.variableToRegisterMap →
        (∀ c ∈ children, '\n' ∉ c.leaf.2 ∧ ∀ g ∈ c.children, '\n' ∉ g.leaf.2) →
        linedBy anyStart true text = true ∧
        labelLines text = (List.range (countIfsOfChildren children)).flatMap
          (fun k => ifLabels (s.ifCount + k))) := by
  induction children generalizing s with
  | nil =>
    simp [transformChildren] at h
    subst h
    exact ⟨by simp [countIfsOfChildren], fun _ => rfl, [], by simp,
      fun _ _ => ⟨rfl, by simp [countIfsOfChildren, labelLines, lines]⟩⟩
  | cons child rest ih =>
    simp only [transformChildren] at h
    simp only [countIfsOfChildren] at hhi ⊢
    by_cases hd : child.type = "Declaration".toList
    · have hnf : ¬ child.type = "ForLoop".toList := by rw [hd]; decide
      simp only [hd, if_true, bind_apply, transformDeclaration_run] at h
      rw [if_neg hnf, Nat.zero_add] at hhi ⊢
      obtain ⟨c2, r2, T2, e2, l2⟩ := ih h hlo hhi
      refine ⟨by simpa using c2, fun k => by simpa using r2 k,
        ("li ".toList ++ regOf s.variableToRegisterMap child.leaf.1 ++ ", ".toList
          ++ child.leaf.2 ++ "\n".toList) ++ T2,
        by rw [e2, List.append_assoc], fun hclean hpay => ?_⟩
      obtain ⟨t1, t2⟩ := l2 (fun k => by simpa using hclean k)
        (fun c hc => hpay c (List.mem_cons_of_mem _ hc))
      have hline : linedBy labelStart true ("li ".toList
          ++ regOf s.variableToRegisterMap child.leaf.1 ++ ", ".toList ++ child.leaf.2
          ++ "\n".toList) = true := by
        have h1 := hclean child.leaf.1
        have h2 := (hpay child (by simp)).1
        simp [linedBy, labelStart, linedBy_false_append, h1, h2]
      refine ⟨linedBy_true_append _ _ _ (linedBy_anyStart _ _ _ hline) t1, ?_⟩
      rw [labelLines_append _ _ _ hline, labelLines_of_plain _ hline, t2, List.nil_append]
    · simp only [hd, if_false] at h
      by_cases hf : child.type = "ForLoop".toList
      · simp only [hf, if_true, bind_apply] at h
        rw [if_pos hf] at hhi ⊢
        push_cast at hhi
        cases hc : transformForLoop child s with
        | ok b s2 =>
          rw [hc] at h
          obtain ⟨c1, r1, T1, e1, l1⟩ := transformForLoop_run hc hlo (by omega)
          obtain ⟨c2, r2, T2, e2, l2⟩ := ih h (by omega) (by omega)
          refine ⟨by rw [c2, c1]; push_cast; omega, fun k => by rw [r2, r1], T1 ++ T2,
            by rw [e2, e1, List.append_assoc], fun hclean hpay => ?_⟩
          obtain ⟨p1, p2⟩ := l1 hclean (hpay child (by simp)).2
          obtain ⟨t1, t2⟩ := l2 (fun k => by rw [r1]; exact hclean k)
            (fun c hc => hpay c (List.mem_cons_of_mem _ hc))
          refine ⟨linedBy_true_append _ _ _ p1 t1, ?_⟩
          rw [labelLines_append _ _ _ p1, p2, t2, c1, labels_add]
        | thrown ex s2 => rw [hc] at h; cases h
        | outOfBounds i n => rw [hc] at h; cases h
        | fuel => rw [hc] at h; cases h
      · simp only [hf, if_false, bind_apply, pure_apply] at h
        rw [if_neg hf, Nat.zero_add] at hhi ⊢
        obtain ⟨c2, r2, T2, e2, l2⟩ := ih h hlo hhi
        exact ⟨c2, r2, T2, e2, fun hclean hpay =>
          l2 hclean (fun c hc => hpay c (List.mem_cons_of_mem _ hc))⟩

/-- A successful run of `transform` from a state with counter `c` that does not
take the counter out of the range of `int`: the counter ends at `c` plus the
number of if-statements lowered; the output is what the loop over the children
appended to the empty text. -/
theorem transform_run {ast : Node} {s s1 : Lowering} {a : Unit}
    (h : transform ast s = .ok a s1)
    (hlo : -2147483648 ≤ s.ifCount)
    (hhi : s.ifCount + countIfsOfChildren ast.children ≤ 2147483647) :
    s1.ifCount = s.ifCount + countIfsOfChildren ast.children ∧
    (CleanRegs s.variableToRegisterMap → CleanTree ast →
      linedBy anyStart true s1.details = true ∧
      labelLines s1.details = (List.range (countIfsOfChildren ast.children)).flatMap
        (fun k => ifLabels (s.ifCount + k))) := by
  unfold transform at h
  simp only [bind_apply] at h
  obtain ⟨c, -, T, e, l⟩ := transformChildren_run h hlo hhi
  simp only [List.nil_append] at e
  refine ⟨c, fun hclean htree => ?_⟩
  rw [e]
  exact l hclean htree

/-! ## Progress of the parser -/

theorem bind_fuel_iff {σ α β : Type} (x : M σ α) (f : α → M σ β) (s : σ) :
    (x >>= f) s = .fuel ↔ x s = .fuel ∨ ∃ a s1, x s = .ok a s1 ∧ f a s1 = .fuel := by
  rw [bind_apply]
  cases x s with
  | ok a s1 =>
    constructor
    · intro h
      exact Or.inr ⟨a, s1, rfl, h⟩
    · rintro (h | ⟨a2, s3, h1, h2⟩)
      · cases h
      · injection h1 with h1 h3
        subst h1 h3
        exact h2
  | thrown e s1 => simp
  | outOfBounds i n => simp
  | fuel => simp

theorem bind_not_fuel {σ α β : Type} {x : M σ α} {f : α → M σ β} {s : σ}
    (hx : x s ≠ .fuel) (hf : ∀ a s1, x s = .ok a s1 → f a s1 ≠ .fuel) :
    (x >>= f) s ≠ .fuel := by
  rw [ne_eq, bind_fuel_iff]
  rintro (h | ⟨a, s1, h1, h2⟩)
  · exact hx h
  · exact hf a s1 h1 h2

theorem pure_not_fuel {σ α : Type} (a : α) (s : σ) : (pure a : M σ α) s ≠ .fuel := by
  simp [pure_apply]

theorem consume_step {tokens : List Token} {type : TokenType} {value : Str} {cur cur2 : Nat}
    {t : Token} (h : consume tokens type value cur = .ok t cur2) :
    cur2 = cur + 1 ∧ cur < tokens.length := by
  unfold consume at h
  cases hg : tokens[cur]? with
  | none => simp [hg] at h
  | some u =>
    simp only [hg] at h
    split_ifs at h with hc
    injection h with h1 h2
    obtain ⟨hlt, -⟩ := List.getElem?_eq_some_iff.mp hg
    exact ⟨h2.symm, hlt⟩

theorem consumeTypes_step {tokens : List Token} {types : List TokenType} {cur cur2 : Nat}
    {t : Token} (h : consumeTypes tokens types cur = .ok t cur2) :
    cur2 = cur + 1 ∧ cur < tokens.length := by
  unfold consumeTypes at h
  cases hg : tokens[cur]? with
  | none => simp [hg] at h
  | some u =>
    simp only [hg] at h
    split_ifs at h with hc
    injection h with h1 h2
    obtain ⟨hlt, -⟩ := List.getElem?_eq_some_iff.mp hg
    exact ⟨h2.symm, hlt⟩

theorem consume_not_fuel (tokens : List Token) (type : TokenType) (value : Str) (cur : Nat) :
    consume tokens type value cur ≠ .fuel := by
  unfold consume
  cases tokens[cur]? with
  | none => simp
  | some u => simp only; split_ifs <;> simp

theorem consumeTypes_not_fuel (tokens : List Token) (types : List TokenType) (cur : Nat) :
    consumeTypes tokens types cur ≠ .fuel := by
  unfold consumeTypes
  cases tokens[cur]? with
  | none => simp
  | some u => simp only; split_ifs <;> simp

theorem parseInitialization_step {tokens : List Token} {cur cur2 : Nat} {n : Node}
    (h : parseInitialization tokens cur = .ok n cur2) : cur < cur2 ∧ cur2 ≤ tokens.length := by
  unfold parseInitialization at h
  simp only [bind_ok_iff, pure_apply, Outcome.ok.injEq] at h
  obtain ⟨_, c1, h1, _, c2, h2, _, c3, h3, -, rfl⟩ := h
  have := consume_step h1
  have := consume_step h2
  have := consumeTypes_step h3
  omega

theorem parseInitialization_not_fuel (tokens : List Token) (cur : Nat) :
    parseInitialization tokens cur ≠ .fuel := by
  unfold parseInitialization
  refine bind_not_fuel (consume_not_fuel _ _ _ _) fun _ _ _ => ?_
  refine bind_not_fuel (consume_not_fuel _ _ _ _) fun _ _ _ => ?_
  refine bind_not_fuel (consumeTypes_not_fuel _ _ _) fun _ _ _ => ?_
  exact pure_not_fuel _ _

theorem parseCondition_step {tokens : List Token} {cur cur2 : Nat} {n : Node}
    (h : parseCondition tokens cur = .ok n cur2) : cur < cur2 ∧ cur2 ≤ tokens.length := by
  unfold parseCondition at h
  simp only [bind_ok_iff, pure_apply, Outcome.ok.injEq] at h
  obtain ⟨_, c1, h1, _, c2, h2, _, c3, h3, -, rfl⟩ := h
  have := consume_step h1
  have := consume_step h2
  have := consumeTypes_step h3
  omega

theorem parseCondition_not_fuel (tokens : List Token) (cur : Nat) :
    parseCondition tokens cur ≠ .fuel := by
  unfold parseCondition
  refine bind_not_fuel (consume_not_fuel _ _ _ _) fun _ _ _ => ?_
  refine bind_not_fuel (consume_not_fuel _ _ _ _) fun _ _ _ => ?_
  refine bind_not_fuel (consumeTypes_not_fuel _ _ _) fun _ _ _ => ?_
  exact pure_not_fuel _ _

theorem parseIncrement_step {tokens : List Token} {cur cur2 : Nat} {n : Node}
    (h : parseIncrement tokens cur = .ok n cur2) : cur < cur2 ∧ cur2 ≤ tokens.length := by
  unfold parseIncrement at h
  simp only [bind_ok_iff, pure_apply, Outcome.ok.injEq] at h
  obtain ⟨_, c1, h1, _, c2, h2, -, rfl⟩ := h
  have := consume_step h1
  have := consume_step h2
  omega

theorem parseIncrement_not_fuel (tokens : List Token) (cur : Nat) :
    parseIncrement tokens cur ≠ .fuel := by
  unfold parseIncrement
  refine bind_not_fuel (consume_not_fuel _ _ _ _) fun _ _ _ => ?_
  refine bind_not_fuel (consume_not_fuel _ _ _ _) fun _ _ _ => ?_
  exact pure_not_fuel _ _

/-- A successful `parseExpression` returns an `Expression` node without
children and with an empty second payload, and moves the cursor forward. -/
theorem parseExpression_ok {tokens : List Token} {cur cur2 : Nat} {n : Node}
    (h : parseExpression tokens cur = .ok n cur2) :
    n.type = "Expression".toList ∧ n.children = [] ∧ n.leaf.2 = [] ∧
      cur < cur2 ∧ cur2 ≤ tokens.length := by
  unfold parseExpression at h
  simp only [bind_ok_iff, pure_apply, Outcome.ok.injEq] at h
  obtain ⟨_, c1, ⟨-, rfl⟩, _, c2, h2, rfl, rfl⟩ := h
  have := consume_step h2
  exact ⟨rfl, rfl, rfl, by omega, by omega⟩

theorem parseExpression_not_fuel (tokens : List Token) (cur : Nat) :
    parseExpression tokens cur ≠ .fuel := by
  unfold parseExpression
  refine bind_not_fuel (by simp) fun _ _ _ => ?_
  refine bind_not_fuel (consume_not_fuel _ _ _ _) fun _ _ _ => ?_
  exact pure_not_fuel _ _

theorem parseDeclaration_not_fuel (tokens : List Token) (cur : Nat) :
    parseDeclaration tokens cur ≠ .fuel := by
  unfold parseDeclaration
  refine bind_not_fuel (consume_not_fuel _ _ _ _) fun _ _ _ => ?_
  refine bind_not_fuel (consume_not_fuel _ _ _ _) fun _ _ _ => ?_
  refine bind_not_fuel (by simp [peek]) fun next _ _ => ?_
  cases next with
  | none =>
    refine bind_not_fuel (pure_not_fuel _ _) fun _ _ _ => ?_
    refine bind_not_fuel (consume_not_fuel _ _ _ _) fun _ _ _ => ?_
    exact pure_not_fuel _ _
  | some t =>
    simp only
    split_ifs
    · refine bind_not_fuel (consume_not_fuel _ _ _ _) fun _ _ _ => ?_
      refine bind_not_fuel (consumeTypes_not_fuel _ _ _) fun _ _ _ => ?_
      refine bind_not_fuel (pure_not_fuel _ _) fun _ _ _ => ?_
      refine bind_not_fuel (consume_not_fuel _ _ _ _) fun _ _ _ => ?_
      exact pure_not_fuel _ _
    · refine bind_not_fuel (pure_not_fuel _ _) fun _ _ _ => ?_
      refine bind_not_fuel (consume_not_fuel _ _ _ _) fun _ _ _ => ?_
      exact pure_not_fuel _ _

/-- A successful `parseDeclaration` returns a `Declaration` node without
children whose value is the text of a token or `0`, and moves the cursor
forward. -/
theorem parseDeclaration_ok {tokens : List Token} {cur cur2 : Nat} {n : Node}
    (h : parseDeclaration tokens cur = .ok n cur2) :
    n.type = "Declaration".toList ∧ n.children = [] ∧
      (∃ t ∈ tokens, t.value = n.leaf.1) ∧
      ((∃ t ∈ tokens, t.value = n.leaf.2) ∨ n.leaf.2 = "0".toList) ∧
      cur < cur2 ∧ cur2 ≤ tokens.length := by
  unfold parseDeclaration at h
  simp only [bind_ok_iff] at h
  obtain ⟨_, c1, h1, t2, c2, h2, next, c3, h3, h4⟩ := h
  have s1 := consume_step h1
  have s2 := consume_step h2
  have m2 := (consume_ok h2).1
  simp only [peek, Outcome.ok.injEq] at h3
  obtain ⟨-, rfl⟩ := h3
  split at h4
  · split_ifs at h4
    · simp only [bind_ok_iff, pure_apply, Outcome.ok.injEq] at h4
      obtain ⟨_, c4, h5, v, c5, h6, _, _, ⟨rfl, rfl⟩, _, _, h7, rfl, rfl⟩ := h4
      have s5 := consume_step h5
      have s6 := consumeTypes_step h6
      have s7 := consume_step h7
      exact ⟨rfl, rfl, ⟨t2, m2, rfl⟩, Or.inl ⟨v, (consumeTypes_ok h6).1, rfl⟩, by omega, by omega⟩
    · simp only [bind_ok_iff, pure_apply, Outcome.ok.injEq] at h4
      obtain ⟨_, _, ⟨rfl, rfl⟩, _, _, h7, rfl, rfl⟩ := h4
      have s7 := consume_step h7
      exact ⟨rfl, rfl, ⟨t2, m2, rfl⟩, Or.inr rfl, by omega, by omega⟩
  · simp only [bind_ok_iff, pure_apply, Outcome.ok.injEq] at h4
    obtain ⟨_, _, ⟨rfl, rfl⟩, _, _, h7, rfl, rfl⟩ := h4
    have s7 := consume_step h7
    exact ⟨rfl, rfl, ⟨t2, m2, rfl⟩, Or.inr rfl, by omega, by omega⟩

/-- The body loop of `parseIfStatement` pushes results of `parseExpression`
behind the nodes it starts with, and never moves the cursor back or past the
end. -/
theorem parseIfBody_run (tokens : List Token) : ∀ (fuel : Nat) (acc children : List Node)
    (cur cur2 : Nat), parseIfBody tokens fuel acc cur = .ok children cur2 →
    cur ≤ cur2 ∧ (cur ≤ tokens.length → cur2 ≤ tokens.length) ∧
    ∃ more, children = acc ++ more ∧
      ∀ n ∈ more, ∃ c c2, parseExpression tokens c = .ok n c2 := by
  intro fuel
  induction fuel with
  | zero =>
    intro acc children cur cur2 h
    cases h
  | succ fuel ih =>
    intro acc children cur cur2 h
    unfold parseIfBody at h
    simp only [bind_ok_iff, peek] at h
    obtain ⟨next, c1, h1, h2⟩ := h
    injection h1 with h1 hc
    subst h1 hc
    split_ifs at h2 with hb
    · simp only [bind_ok_iff] at h2
      obtain ⟨e, c2, he, h3⟩ := h2
      obtain ⟨-, -, -, hlt, hle⟩ := parseExpression_ok he
      obtain ⟨g1, g2, more, hm, hall⟩ := ih _ _ _ _ h3
      refine ⟨by omega, fun _ => g2 hle, e :: more, by simp [hm], ?_⟩
      intro n hn
      simp only [List.mem_cons] at hn
      rcases hn with rfl | hn
      · exact ⟨_, _, he⟩
      · exact hall n hn
    · simp only [pure_apply, Outcome.ok.injEq] at h2
      obtain ⟨rfl, rfl⟩ := h2
      exact ⟨le_refl _, fun h => h, [], by simp, by simp⟩

theorem parseIfBody_not_fuel (tokens : List Token) : ∀ (fuel : Nat) (acc : List Node)
    (cur : Nat), cur ≤ tokens.length → tokens.length < fuel + cur →
    parseIfBody tokens fuel acc cur ≠ .fuel := by
  intro fuel
  induction fuel with
  | zero =>
    intro acc cur h1 h2
    omega
  | succ fuel ih =>
    intro acc cur h1 h2
    unfold parseIfBody
    refine bind_not_fuel (by simp [peek]) fun next c1 hp => ?_
    simp only [peek, Outcome.ok.injEq] at hp
    obtain ⟨-, rfl⟩ := hp
    split_ifs
    · refine bind_not_fuel (parseExpression_not_fuel _ _) fun e c2 he => ?_
      obtain ⟨-, -, -, hlt, hle⟩ := parseExpression_ok he
      exact ih _ _ hle (by omega)
    · exact pure_not_fuel _ _

/-- A successful `parseIfStatement` returns an `IfStatement` node with empty
payload whose first child is a result of `parseCondition` and whose other
children are results of `parseExpression`, and moves the cursor forward. -/
theorem parseIfStatement_ok {tokens : List Token} {cur cur2 : Nat} {n : Node}
    (h : parseIfStatement tokens cur = .ok n cur2) :
    n.type = "IfStatement".toList ∧ n.leaf = ([], []) ∧
      (∃ cond more, n.children = cond :: more ∧
        (∃ c c2, parseCondition tokens c = .ok cond c2) ∧
        ∀ e ∈ more, ∃ c c2, parseExpression tokens c = .ok e c2) ∧
      cur < cur2 ∧ cur2 ≤ tokens.length := by
  unfold parseIfStatement at h
  simp only [bind_ok_iff, pure_apply, Outcome.ok.injEq] at h
  obtain ⟨_, c1, h1, _, c2, h2, cond, c3, h3, _, c4, h4, _, c5, h5, children, c6, h6,
    _, c7, h7, rfl, rfl⟩ := h
  have s1 := consume_step h1
  have s2 := consume_step h2
  have s3 := parseCondition_step h3
  have s4 := consume_step h4
  have s5 := consume_step h5
  have s7 := consume_step h7
  obtain ⟨g1, g2, more, hm, hall⟩ := parseIfBody_run _ _ _ _ _ _ h6
  exact ⟨rfl, rfl, ⟨cond, more, by simp [hm], ⟨_, _, h3⟩, hall⟩, by omega, by omega⟩

theorem parseIfStatement_not_fuel (tokens : List Token) (cur : Nat) :
    parseIfStatement tokens cur ≠ .fuel := by
  unfold parseIfStatement
  refine bind_not_fuel (consume_not_fuel _ _ _ _) fun _ _ h1 => ?_
  refine bind_not_fuel (consume_not_fuel _ _ _ _) fun _ _ h2 => ?_
  refine bind_not_fuel (parseCondition_not_fuel _ _) fun _ _ h3 => ?_
  refine bind_not_fuel (consume_not_fuel _ _ _ _) fun _ _ h4 => ?_
  refine bind_not_fuel (consume_not_fuel _ _ _ _) fun _ _ h5 => ?_
  have s5 := consume_step h5
  refine bind_not_fuel (parseIfBody_not_fuel _ _ _ _ (by omega) (by omega)) fun _ _ _ => ?_
  refine bind_not_fuel (consume_not_fuel _ _ _ _) fun _ _ _ => ?_
  exact pure_not_fuel _ _

/-- The body loop of `parseForLoop` pushes results of `parseIfStatement` and of
`parseExpression` behind the nodes it starts with, and never moves the cursor
back or past the end. -/
theorem parseForBody_run (tokens : List Token) : ∀ (fuel : Nat) (acc children : List Node)
    (cur cur2 : Nat), parseForBody tokens fuel acc cur = .ok children cur2 →
    cur ≤ cur2 ∧ (cur ≤ tokens.length → cur2 ≤ tokens.length) ∧
    ∃ more, children = acc ++ more ∧
      ∀ n ∈ more, (∃ c c2, parseIfStatement tokens c = .ok n c2) ∨
        (∃ c c2, parseExpression tokens c = .ok n c2) := by
  intro fuel
  induction fuel with
  | zero =>
    intro acc children cur cur2 h
    cases h
  | succ fuel ih =>
    intro acc children cur cur2 h
    unfold parseForBody at h
    simp only [bind_ok_iff, peek] at h
    obtain ⟨next, c1, h1, h2⟩ := h
    injection h1 with h1 hc
    subst h1 hc
    cases hn : tokens[cur]? with
    | none =>
      simp only [hn, pure_apply, Outcome.ok.injEq] at h2
      obtain ⟨rfl, rfl⟩ := h2
      exact ⟨le_refl _, fun h => h, [], by simp, by simp⟩
    | some t =>
      simp only [hn] at h2
      by_cases hb : bodyContinues (some t) = true
      · rw [if_pos hb] at h2
        split_ifs at h2
        · simp only [bind_ok_iff] at h2
          obtain ⟨child, c2, hchild, h3⟩ := h2
          obtain ⟨-, -, -, hlt, hle⟩ := parseIfStatement_ok hchild
          obtain ⟨g1, g2, more, hm, hall⟩ := ih _ _ _ _ h3
          refine ⟨by omega, fun _ => g2 hle, child :: more, by simp [hm], ?_⟩
          intro n hmem
          simp only [List.mem_cons] at hmem
          rcases hmem with rfl | hmem
          · exact Or.inl ⟨_, _, hchild⟩
          · exact hall n hmem
        · simp only [bind_ok_iff] at h2
          obtain ⟨child, c2, hchild, h3⟩ := h2
          obtain ⟨-, -, -, hlt, hle⟩ := parseExpression_ok hchild
          obtain ⟨g1, g2, more, hm, hall⟩ := ih _ _ _ _ h3
          refine ⟨by omega, fun _ => g2 hle, child :: more, by simp [hm], ?_⟩
          intro n hmem
          simp only [List.mem_cons] at hmem
          rcases hmem with rfl | hmem
          · exact Or.inr ⟨_, _, hchild⟩
          · exact hall n hmem
      · rw [if_neg hb, pure_apply, Outcome.ok.injEq] at h2
        obtain ⟨rfl, rfl⟩ := h2
        exact ⟨le_refl _, fun h => h, [], by simp, by simp⟩

theorem parseForBody_not_fuel (tokens : List Token) : ∀ (fuel : Nat) (acc : List Node)
    (cur : Nat), cur ≤ tokens.length → tokens.length < fuel + cur →
    parseForBody tokens fuel acc cur ≠ .fuel := by
  intro fuel
  induction fuel with
  | zero =>
    intro acc cur h1 h2
    omega
  | succ fuel ih =>
    intro acc cur h1 h2
    unfold parseForBody
    refine bind_not_fuel (by simp [peek]) fun next c1 hp => ?_
    simp only [peek, Outcome.ok.injEq] at hp
    obtain ⟨rfl, rfl⟩ := hp
    cases hn : tokens[cur]? with
    | none => exact pure_not_fuel _ _
    | some t =>
      simp only
      split_ifs
      · refine bind_not_fuel (parseIfStatement_not_fuel _ _) fun e c2 he => ?_
        obtain ⟨-, -, -, hlt, hle⟩ := parseIfStatement_ok he
        exact ih _ _ hle (by omega)
      · refine bind_not_fuel (parseExpression_not_fuel _ _) fun e c2 he => ?_
        obtain ⟨-, -, -, hlt, hle⟩ := parseExpression_ok he
        exact ih _ _ hle (by omega)
      · exact pure_not_fuel _ _

/-- A successful `parseForLoop` returns a `ForLoop` node with empty payload
whose first three children are results of `parseInitialization`,
`parseCondition` and `parseIncrement` and whose later children are results of
`parseIfStatement` or `parseExpression`, and moves the cursor forward. -/
theorem parseForLoop_run {tokens : List Token} {cur cur2 : Nat} {n : Node}
    (h : parseForLoop tokens cur = .ok n cur2) :
    n.type = "ForLoop".toList ∧ n.leaf = ([], []) ∧
      (∃ init cond incr body, n.children = init :: cond :: incr :: body ∧
        (∃ c c2, parseInitialization tokens c = .ok init c2) ∧
        (∃ c c2, parseCondition tokens c = .ok cond c2) ∧
        (∃ c c2, parseIncrement tokens c = .ok incr c2) ∧
        ∀ b ∈ body, (∃ c c2, parseIfStatement tokens c = .ok b c2) ∨
          (∃ c c2, parseExpression tokens c = .ok b c2)) ∧
      cur < cur2 ∧ cur2 ≤ tokens.length := by
  unfold parseForLoop at h
  simp only [bind_ok_iff] at h
  obtain ⟨_, c1, h1, _, c2, h2, init, c3, h3, _, c4, h4, cond, c5, h5, _, c6, h6, incr, c7, h7,
    _, c8, h8, _, c9, h9, children, c10, h10, _, c11, h11, h12⟩ := h
  simp only [pure_apply, Outcome.ok.injEq] at h12
  obtain ⟨rfl, rfl⟩ := h12
  have s1 := consume_step h1
  have s11 := consume_step h11
  obtain ⟨g1, g2, more, hm, hall⟩ := parseForBody_run _ _ _ _ _ _ h10
  have s2 := consume_step h2
  have s3 := parseInitialization_step h3
  have s4 := consume_step h4
  have s5 := parseCondition_step h5
  have s6 := consume_step h6
  have s7 := parseIncrement_step h7
  have s8 := consume_step h8
  have s9 := consume_step h9
  exact ⟨rfl, rfl, ⟨init, cond, incr, more, by simp [hm], ⟨_, _, h3⟩, ⟨_, _, h5⟩, ⟨_, _, h7⟩,
    hall⟩, by omega, by omega⟩

theorem parseForLoop_not_fuel (tokens : List Token) (cur : Nat) :
    parseForLoop tokens cur ≠ .fuel := by
  unfold parseForLoop
  refine bind_not_fuel (consume_not_fuel _ _ _ _) fun _ _ _ => ?_
  refine bind_not_fuel (consume_not_fuel _ _ _ _) fun _ _ _ => ?_
  refine bind_not_fuel (parseInitialization_not_fuel _ _) fun _ _ _ => ?_
  refine bind_not_fuel (consume_not_fuel _ _ _ _) fun _ _ _ => ?_
  refine bind_not_fuel (parseCondition_not_fuel _ _) fun _ _ _ => ?_
  refine bind_not_fuel (consume_not_fuel _ _ _ _) fun _ _ _ => ?_
  refine bind_not_fuel (parseIncrement_not_fuel _ _) fun _ _ _ => ?_
  refine bind_not_fuel (consume_not_fuel _ _ _ _) fun _ _ _ => ?_
  refine bind_not_fuel (consume_not_fuel _ _ _ _) fun _ _ h9 => ?_
  have s9 := consume_step h9
  refine bind_not_fuel (parseForBody_not_fuel _ _ _ _ (by omega) (by omega)) fun _ _ _ => ?_
  refine bind_not_fuel (consume_not_fuel _ _ _ _) fun _ _ _ => ?_
  exact pure_not_fuel _ _

/-- The top-level loop does not run out of fuel when it has one unit per
remaining token and one more. -/
theorem parseTop_not_fuel (tokens : List Token) : ∀ (fuel : Nat) (acc : List Node)
    (cur : Nat), cur ≤ tokens.length → tokens.length < fuel + cur →
    parseTop tokens fuel acc cur ≠ .fuel := by
  intro fuel
  induction fuel with
  | zero =>
    intro acc cur h1 h2
    omega
  | succ fuel ih =>
    intro acc cur h1 h2
    unfold parseTop
    refine bind_not_fuel (by simp [peek]) fun next c1 hp => ?_
    simp only [peek, Outcome.ok.injEq] at hp
    obtain ⟨rfl, rfl⟩ := hp
    cases hn : tokens[cur]? with
    | none => exact pure_not_fuel _ _
    | some t =>
      obtain ⟨hlt, -⟩ := List.getElem?_eq_some_iff.mp hn
      simp only
      split_ifs
      · refine bind_not_fuel (parseDeclaration_not_fuel _ _) fun e c2 he => ?_
        obtain ⟨-, -, -, -, hlt, hle⟩ := parseDeclaration_ok he
        exact ih _ _ hle (by omega)
      · refine bind_not_fuel (parseForLoop_not_fuel _ _) fun e c2 he => ?_
        obtain ⟨-, -, -, hlt, hle⟩ := parseForLoop_run he
        exact ih _ _ hle (by omega)
      · refine bind_not_fuel (by simp) fun _ c2 he => ?_
        simp only [Outcome.ok.injEq] at he
        obtain ⟨-, rfl⟩ := he
        exact ih _ _ (by omega) (by omega)

/-- The parser terminates on every token sequence: `parse` never runs out of
the fuel it gives its loops. -/
theorem parse_not_fuel (tokens : List Token) : parse tokens ≠ .fuel := by
  unfold parse
  refine bind_not_fuel (parseTop_not_fuel _ _ _ _ (by omega) (by omega)) fun _ _ _ => ?_
  exact pure_not_fuel _ _

/-! ## The top-level loop without declarations and loops -/

/-- Without a token `int` or `for`, the top-level loop skips every token and
pushes nothing. -/
theorem parseTop_skips (tokens : List Token)
    (h : ∀ t ∈ tokens, t.value ≠ "int".toList ∧ t.value ≠ "for".toList) :
    ∀ (fuel : Nat) (acc : List Node) (cur : Nat), cur ≤ tokens.length →
      tokens.length < fuel + cur → parseTop tokens fuel acc cur = .ok acc tokens.length := by
  intro fuel
  induction fuel with
  | zero =>
    intro acc cur h1 h2
    omega
  | succ fuel ih =>
    intro acc cur h1 h2
    unfold parseTop
    simp only [bind_apply, peek]
    cases hn : tokens[cur]? with
    | none =>
      have : tokens.length ≤ cur := List.getElem?_eq_none_iff.mp hn
      have hcur : cur = tokens.length := by omega
      simp [pure_apply, hcur]
    | some t =>
      obtain ⟨hlt, -⟩ := List.getElem?_eq_some_iff.mp hn
      obtain ⟨hint, hfor⟩ := h t (List.getElem?_mem hn)
      simp only [if_neg hint, if_neg hfor, bind_apply]
      exact ih _ _ (by omega) (by omega)

/-- C17: on a token sequence in which no token has the text `int` or `for`,
`parse` ends normally at the end of the tokens with a root without children,
and `transform` on that root ends normally with the empty output text (for
every value `c` of the counter); in particular the empty input string compiles
to the empty text. -/
theorem parse_without_int_for (tokens : List Token) (c : Int)
    (h : ∀ t ∈ tokens, t.value ≠ "int".toList ∧ t.value ≠ "for".toList) :
    parse tokens = .ok ⟨"Root".toList, [], ([], [])⟩ tokens.length ∧
    (∃ s1, transform ⟨"Root".toList, [], ([], [])⟩ (Transformer.new c) = .ok () s1 ∧
      generateCode s1 = []) ∧
    tokenize [] = some [] ∧ compile [] c = some [] := by
  refine ⟨?_, ⟨Transformer.new c, rfl, rfl⟩, rfl, rfl⟩
  have hskip := parseTop_skips tokens h (tokens.length + 1) [] 0 (Nat.zero_le _) (by omega)
  unfold parse
  simp only [bind_apply, hskip, pure_apply]
  rfl

/-- Witness of C17: the tokens of `a = 1 ;`. -/
theorem parse_without_int_for_witness :
    parse [⟨.Identifier, "a".toList⟩, ⟨.Operator, "=".toList⟩, ⟨.Number, "1".toList⟩,
        ⟨.Punctuation, ";".toList⟩] = .ok ⟨"Root".toList, [], ([], [])⟩ 4 ∧
    (∃ s1, transform ⟨"Root".toList, [], ([], [])⟩ (Transformer.new 0) = .ok () s1 ∧
      generateCode s1 = []) ∧
    tokenize [] = some [] ∧ compile [] 0 = some [] :=
  parse_without_int_for [⟨.Identifier, "a".toList⟩, ⟨.Operator, "=".toList⟩,
    ⟨.Number, "1".toList⟩, ⟨.Punctuation, ";".toList⟩] 0 (by decide)

/-! ## Termination of the parser and the shape of its trees -/

/-- C16 (the code at the failing input, and what holds): on every token
sequence `parse` terminates, its loops never using up their fuel of one unit
per token, and returns a tree, throws, or reads a token past the end; every
declaration, loop, if-statement and expression that is parsed moves the cursor
forward and not past the end; on the tokens of `for (i = 0; i <= 3; i++) \x7b`
`parse` reads a token past the end, so it neither returns a tree nor throws its
error. -/
theorem parse_terminates :
    (∀ tokens : List Token, parse tokens ≠ .fuel) ∧
    (∀ tokens : List Token, (∃ root cur, parse tokens = .ok root cur) ∨
      (∃ e cur, parse tokens = .thrown e cur) ∨ ∃ i n, parse tokens = .outOfBounds i n) ∧
    (∀ (tokens : List Token) (cur cur2 : Nat) (n : Node),
      (parseDeclaration tokens cur = .ok n cur2 ∨ parseForLoop tokens cur = .ok n cur2 ∨
        parseIfStatement tokens cur = .ok n cur2 ∨ parseExpression tokens cur = .ok n cur2) →
      cur < cur2 ∧ cur2 ≤ tokens.length) ∧
    (tokenize "for (i = 0; i <= 3; i++) \x7b".toList).map parse = some (.outOfBounds 14 14) := by
  refine ⟨parse_not_fuel, fun tokens => ?_, fun tokens cur cur2 n h => ?_, rfl⟩
  · have := parse_not_fuel tokens
    cases hp : parse tokens with
    | ok root cur => exact Or.inl ⟨_, _, rfl⟩
    | thrown e cur => exact Or.inr (Or.inl ⟨_, _, rfl⟩)
    | outOfBounds i n => exact Or.inr (Or.inr ⟨_, _, rfl⟩)
    | fuel => exact absurd hp this
  · rcases h with h | h | h | h
    · exact (parseDeclaration_ok h).2.2.2.2
    · exact (parseForLoop_run h).2.2.2
    · exact (parseIfStatement_ok h).2.2.2
    · exact (parseExpression_ok h).2.2.2

theorem isLeaf_of {t : Str} {n : Node} (h1 : n.type = t) (h2 : n.children = []) :
    isLeaf t n = true := by
  simp [isLeaf, h1, h2]

theorem ifShape_of_parse {tokens : List Token} {cur cur2 : Nat} {n : Node}
    (h : parseIfStatement tokens cur = .ok n cur2) : ifShape n = true := by
  obtain ⟨ht, -, ⟨cond, more, hch, ⟨c, c2, hcond⟩, hmore⟩, -, -⟩ := parseIfStatement_ok h
  obtain ⟨t1, t2, -⟩ := parseCondition_ok hcond
  simp only [ifShape, ht, hch, beq_self_eq_true, Bool.true_and, Bool.and_eq_true,
    List.all_eq_true]
  refine ⟨isLeaf_of t1 t2, fun e he => ?_⟩
  obtain ⟨c, c2, hexp⟩ := hmore e he
  obtain ⟨e1, e2, -⟩ := parseExpression_ok hexp
  exact isLeaf_of e1 e2

theorem forShape_of_parse {tokens : List Token} {cur cur2 : Nat} {n : Node}
    (h : parseForLoop tokens cur = .ok n cur2) : forShape n = true := by
  obtain ⟨ht, -, ⟨init, cond, incr, body, hch, ⟨_, _, hinit⟩, ⟨_, _, hcond⟩, ⟨_, _, hincr⟩,
    hbody⟩, -, -⟩ := parseForLoop_run h
  obtain ⟨i1, i2, -⟩ := parseInitialization_ok hinit
  obtain ⟨c1, c2, -⟩ := parseCondition_ok hcond
  obtain ⟨n1, n2, -⟩ := parseIncrement_ok hincr
  simp only [forShape, ht, hch, beq_self_eq_true, Bool.true_and, Bool.and_eq_true,
    List.all_eq_true, Bool.or_eq_true]
  refine ⟨⟨⟨isLeaf_of i1 i2, isLeaf_of c1 c2⟩, isLeaf_of n1 n2⟩, fun b hb => ?_⟩
  rcases hbody b hb with ⟨_, _, hif⟩ | ⟨_, _, hexp⟩
  · exact Or.inl (ifShape_of_parse hif)
  · obtain ⟨e1, e2, -⟩ := parseExpression_ok hexp
    exact Or.inr (isLeaf_of e1 e2)

/-- C14: a tree returned by `parse` is a `Root` that satisfies the shape
invariant: its children are `Declaration` nodes without children and `ForLoop`
nodes; a `ForLoop` has an `Initialization`, a `Condition` and an `Increment`
as its first three children and then `IfStatement` and `Expression` nodes; an
`IfStatement` has a `Condition` first and then `Expression` nodes; and
`Initialization`, `Condition`, `Increment` and `Expression` nodes have no
children. -/
theorem parse_shape (tokens : List Token) (root : Node) (cur : Nat)
    (h : parse tokens = .ok root cur) :
    root.type = "Root".toList ∧ shapeInvariant root = true := by
  constructor
  · unfold parse at h
    simp only [bind_ok_iff, pure_apply, Outcome.ok.injEq] at h
    obtain ⟨_, _, -, rfl, -⟩ := h
    rfl
  · simp only [shapeInvariant, List.all_eq_true, Bool.or_eq_true]
    intro n hn
    rcases parse_children h n hn with ⟨_, _, hd⟩ | ⟨_, _, hf⟩
    · obtain ⟨d1, d2, -⟩ := parseDeclaration_ok hd
      exact Or.inl (isLeaf_of d1 d2)
    · exact Or.inr (forShape_of_parse hf)

/-- Witness of C14: the tree of a loop that holds an if-statement. -/
theorem parse_shape_witness :
    ifLoopParsed.type = "Root".toList ∧ shapeInvariant ifLoopParsed = true :=
  parse_shape ifLoopTokens ifLoopParsed 29 rfl

/-! ## The operator tokens and the branches of `transformIncrement` -/

theorem forall_cons_of_map {P : Token → Prop} (r : Option (List Token)) (tok : Token)
    (ts : List Token) (h : r.map (fun ts => tok :: ts) = some ts) (htok : P tok)
    (ih : ∀ ts2, r = some ts2 → ∀ t ∈ ts2, P t) : ∀ t ∈ ts, P t := by
  simp only [Option.map_eq_some'] at h
  obtain ⟨ts2, h2, rfl⟩ := h
  intro t ht
  simp only [List.mem_cons] at ht
  rcases ht with rfl | ht
  · exact htok
  · exact ih ts2 h2 t ht

/-- An operator token of the scanner is one operator character, or one
operator character followed by an operator character or `=`. -/
theorem tokenizeLoop_operator : ∀ (fuel : Nat) (code : Str) (ts : List Token),
    tokenizeLoop fuel code = some ts → ∀ t ∈ ts, t.type = .Operator → t.value.length ≤ 2 := by
  intro fuel
  induction fuel with
  | zero =>
    intro code ts h
    cases code with
    | nil => simp [tokenizeLoop] at h; subst h; simp
    | cons c rest => simp [tokenizeLoop] at h
  | succ fuel ih =>
    intro code ts h
    cases code with
    | nil => simp [tokenizeLoop] at h; subst h; simp
    | cons c rest =>
      unfold tokenizeLoop at h
      by_cases hsp : isspace c = true
      · rw [if_pos hsp] at h
        exact ih _ _ h
      rw [if_neg hsp] at h
      by_cases hdig : isdigit c = true
      · rw [if_pos hdig] at h
        exact forall_cons_of_map _ _ _ h (fun hty => by cases hty) (fun ts2 h2 => ih _ _ h2)
      rw [if_neg hdig] at h
      by_cases halpha : isalpha c = true
      · rw [if_pos halpha] at h
        refine forall_cons_of_map _ _ _ h (fun hty => ?_) (fun ts2 h2 => ih _ _ h2)
        simp only at hty
        split_ifs at hty
      rw [if_neg halpha] at h
      by_cases hop : c ∈ operators
      · rw [if_pos hop] at h
        cases rest with
        | nil =>
          exact forall_cons_of_map _ _ _ h (fun _ => by simp) (fun ts2 h2 => ih _ _ h2)
        | cons d rest2 =>
          simp only at h
          by_cases hd : d ∈ operators ∨ d = '='
          · rw [if_pos hd] at h
            exact forall_cons_of_map _ _ _ h (fun _ => by simp) (fun ts2 h2 => ih _ _ h2)
          · rw [if_neg hd] at h
            exact forall_cons_of_map _ _ _ h (fun _ => by simp) (fun ts2 h2 => ih _ _ h2)
      rw [if_neg hop] at h
      by_cases hpunct : c ∈ punctuation
      · rw [if_pos hpunct] at h
        exact forall_cons_of_map _ _ _ h (fun hty => by cases hty) (fun ts2 h2 => ih _ _ h2)
      rw [if_neg hpunct] at h
      exact ih _ _ h

/-- Two normal outcomes that differ at most in the text appended append the
same text. -/
theorem appended_eq {s : Lowering} {x y : Str}
    (h : (Outcome.ok () { s with details := s.details ++ x } : Outcome Lowering Unit)
      = .ok () { s with details := s.details ++ y }) : x = y := by
  injection h with _ h
  exact List.append_cancel_left (congrArg Lowering.details h)

/-- On an operator text of at most two characters `transformIncrement` appends
the line `addi R, R, k` with a given `k` out of empty and `-` exactly for the
text `+=`, respectively `-=`. -/
theorem transformIncrement_compound (incr : Node) (reg : Str) (s : Lowering)
    (hlen : incr.leaf.2.length ≤ 2) :
    (transformIncrement incr reg s
        = .ok () { s with details := s.details ++ addiLine reg [] }
      ↔ incr.leaf.2 = "+=".toList) ∧
    (transformIncrement incr reg s
        = .ok () { s with details := s.details ++ addiLine reg "-".toList }
      ↔ incr.leaf.2 = "-=".toList) := by
  rcases incr with ⟨type, children, name, op⟩
  simp only at hlen ⊢
  have key := fun line hop => transformIncrement_short type children name op reg line s hop
  by_cases h1 : op = "++".toList
  · have e := key _ (Or.inl ⟨h1, rfl⟩)
    rw [e]
    constructor
    · exact ⟨fun h => absurd (addiLine_inj (appended_eq h)) (by decide),
        fun h => absurd (h1.symm.trans h) (by decide)⟩
    · exact ⟨fun h => absurd (addiLine_inj (appended_eq h)) (by decide),
        fun h => absurd (h1.symm.trans h) (by decide)⟩
  by_cases h2 : op = "--".toList
  · have e := key _ (Or.inr (Or.inl ⟨h2, rfl⟩))
    rw [e]
    constructor
    · exact ⟨fun h => absurd (addiLine_inj (appended_eq h)) (by decide),
        fun h => absurd (h2.symm.trans h) (by decide)⟩
    · exact ⟨fun h => absurd (addiLine_inj (appended_eq h)) (by decide),
        fun h => absurd (h2.symm.trans h) (by decide)⟩
  by_cases h3 : op = "+=".toList
  · have e := key _ (Or.inr (Or.inr (Or.inl ⟨h3, rfl⟩)))
    rw [e]
    constructor
    · exact ⟨fun _ => h3, fun _ => rfl⟩
    · exact ⟨fun h => absurd (addiLine_inj (appended_eq h)) (by decide),
        fun h => absurd (h3.symm.trans h) (by decide)⟩
  by_cases h4 : op = "-=".toList
  · have e := key _ (Or.inr (Or.inr (Or.inr (Or.inl ⟨h4, rfl⟩))))
    rw [e]
    constructor
    · exact ⟨fun h => absurd (addiLine_inj (appended_eq h)) (by decide),
        fun h => absurd (h4.symm.trans h) (by decide)⟩
    · exact ⟨fun _ => h4, fun _ => rfl⟩
  · have e := key _ (Or.inr (Or.inr (Or.inr (Or.inr ⟨hlen, h1, h2, h3, h4, rfl⟩))))
    rw [e]
    constructor
    · exact ⟨fun h => absurd (appended_eq h).symm (addiLine_ne_nil _ _),
        fun h => absurd h h3⟩
    · exact ⟨fun h => absurd (appended_eq h).symm (addiLine_ne_nil _ _),
        fun h => absurd h h4⟩

/-- C18 (amended): in a tree that `parse` returns on the tokens of a text, the
increment operator of every `ForLoop` is one operator token, of at most two
characters; on it `transformIncrement` appends the line of its `+=` branch with
an empty operand, `addi R, R, `, exactly when the token is `+=`, and the line
of its `-=` branch with an empty operand, `addi R, R, -`, exactly when the
token is `-=`. -/
theorem parse_increment_branch (code : Str) (tokens : List Token) (ast : Node) (cur : Nat)
    (f : Node) (ht : tokenize code = some tokens) (hp : parse tokens = .ok ast cur)
    (hf : f ∈ ast.children) (hty : f.type = "ForLoop".toList) :
    ∃ init cond incr body, f.children = init :: cond :: incr :: body ∧
      incr.leaf.2.length ≤ 2 ∧
      ∀ (reg : Str) (s : Lowering),
        (transformIncrement incr reg s
            = .ok () { s with details := s.details ++ addiLine reg [] }
          ↔ incr.leaf.2 = "+=".toList) ∧
        (transformIncrement incr reg s
            = .ok () { s with details := s.details ++ addiLine reg "-".toList }
          ↔ incr.leaf.2 = "-=".toList) := by
  rcases parse_children hp f hf with ⟨_, _, hd⟩ | ⟨_, _, hfor⟩
  · have := parseDeclaration_type hd
    rw [hty] at this
    exact absurd this (by decide)
  · obtain ⟨-, -, ⟨init, cond, incr, body, hch, -, -, ⟨_, _, hincr⟩, -⟩, -, -⟩ :=
      parseForLoop_run hfor
    obtain ⟨-, -, -, t, htmem, htype, hval⟩ := parseIncrement_ok hincr
    have hlen : incr.leaf.2.length ≤ 2 := by
      rw [← hval]
      exact tokenizeLoop_operator _ _ _ ht t htmem htype
    exact ⟨init, cond, incr, body, hch, hlen,
      fun reg s => transformIncrement_compound incr reg s hlen⟩

/-- Witness of C18 (amended): the loop `for (i = 0; i <= 3; i +=)`. -/
theorem parse_increment_branch_witness :
    ∃ init cond incr body, plusAssignLoop.children = init :: cond :: incr :: body ∧
      incr.leaf.2.length ≤ 2 ∧
      ∀ (reg : Str) (s : Lowering),
        (transformIncrement incr reg s
            = .ok () { s with details := s.details ++ addiLine reg [] }
          ↔ incr.leaf.2 = "+=".toList) ∧
        (transformIncrement incr reg s
            = .ok () { s with details := s.details ++ addiLine reg "-".toList }
          ↔ incr.leaf.2 = "-=".toList) :=
  parse_increment_branch plusAssignCode plusAssignTokens plusAssignParsed 15 plusAssignLoop
    (by decide!) rfl (List.mem_cons_self _ _) rfl

/-! ## Programs of declarations -/

/-- The lines of a text made of newline-free lines, each ended by a newline. -/
theorem lines_flatten (ls : List Str) (h : ∀ l ∈ ls, '\n' ∉ l) :
    lines (ls.map (fun l => l ++ "\n".toList)).flatten = ls := by
  induction ls with
  | nil => rfl
  | cons l rest ih =>
    have e : "\n".toList = ['\n'] := rfl
    simp only [List.map_cons, List.flatten_cons, e, List.append_assoc, List.singleton_append]
    rw [lines_line_append _ _ (h l (by simp))]
    simp only [e] at ih
    rw [ih (fun x hx => h x (List.mem_cons_of_mem _ hx))]

/-- The loop over the children of the root on `Declaration` nodes: it ends
normally, keeps the counter and the registers, and appends one line
`li R, value` per node. -/
theorem transformChildren_declarations (children : List Node) (s : Lowering)
    (h : ∀ d ∈ children, d.type = "Declaration".toList) :
    ∃ s1, transformChildren children s = .ok () s1 ∧ s1.ifCount = s.ifCount ∧
      (∀ k, regOf s1.variableToRegisterMap k = regOf s.variableToRegisterMap k) ∧
      s1.details = s.details ++ (children.map (fun d =>
        ("li ".toList ++ regOf s.variableToRegisterMap d.leaf.1 ++ ", ".toList ++ d.leaf.2)
          ++ "\n".toList)).flatten := by
  induction children generalizing s with
  | nil => exact ⟨s, rfl, rfl, fun _ => rfl, by simp⟩
  | cons d rest ih =>
    have hd := h d (by simp)
    obtain ⟨s1, h1, c1, r1, e1⟩ := ih
      { variableToRegisterMap := touch s.variableToRegisterMap d.leaf.1
        ifCount := s.ifCount
        details := s.details ++ ("li ".toList ++ regOf s.variableToRegisterMap d.leaf.1
          ++ ", ".toList ++ d.leaf.2 ++ "\n".toList) }
      (fun x hx => h x (List.mem_cons_of_mem _ hx))
    refine ⟨s1, ?_, c1, fun k => by rw [r1]; simp, ?_⟩
    · simp only [transformChildren, hd, if_true, bind_apply, transformDeclaration_run]
      exact h1
    · rw [e1]
      simp only [regOf_touch, List.map_cons, List.flatten_cons, List.append_assoc]

/-- A declaration without initializer: on the tokens `int x ;` the parser
returns a `Declaration` with the value `0`. -/
theorem parseDeclaration_default (tokens : List Token) (cur : Nat) (x : Str)
    (h0 : tokens[cur]? = some ⟨.Keyword, "int".toList⟩)
    (h1 : tokens[cur + 1]? = some ⟨.Identifier, x⟩)
    (h2 : tokens[cur + 2]? = some ⟨.Punctuation, ";".toList⟩) :
    parseDeclaration tokens cur
      = .ok ⟨"Declaration".toList, [], (x, "0".toList)⟩ (cur + 3) := by
  unfold parseDeclaration
  simp [bind_apply, consume, peek, h0, h1, h2, pure_apply, Node.new]

/-- C13: for a tree whose children are `Declaration` nodes with values taken
from the tokens of a text (or the default `0`), `transform` from the
constructor's state ends normally and `generateCode` returns exactly one line
per declaration, in order, the line of `(name, value)` being `li R, value`
with `R` the register mapped to `name`: `$t0` for `a`, `$t1` for `i`, `$t2` for
`b`; and a declaration `int x ;` without initializer is parsed with the value
`0`. -/
theorem transform_declarations (code : Str) (tokens : List Token) (ast : Node) (c : Int)
    (ht : tokenize code = some tokens)
    (hdecl : ∀ d ∈ ast.children, d.type = "Declaration".toList ∧
      ((∃ t ∈ tokens, t.value = d.leaf.2) ∨ d.leaf.2 = "0".toList)) :
    (∃ s1, transform ast (Transformer.new c) = .ok () s1 ∧
      lines (generateCode s1) = ast.children.map (fun d =>
        "li ".toList ++ regOf (Transformer.new c).variableToRegisterMap d.leaf.1
          ++ ", ".toList ++ d.leaf.2)) ∧
    regOf (Transformer.new c).variableToRegisterMap "a".toList = "$t0".toList ∧
    regOf (Transformer.new c).variableToRegisterMap "i".toList = "$t1".toList ∧
    regOf (Transformer.new c).variableToRegisterMap "b".toList = "$t2".toList ∧
    (∀ (toks : List Token) (cur : Nat) (x : Str),
      toks[cur]? = some ⟨.Keyword, "int".toList⟩ →
      toks[cur + 1]? = some ⟨.Identifier, x⟩ →
      toks[cur + 2]? = some ⟨.Punctuation, ";".toList⟩ →
      parseDeclaration toks cur
        = .ok ⟨"Declaration".toList, [], (x, "0".toList)⟩ (cur + 3)) := by
  refine ⟨?_, rfl, rfl, rfl, parseDeclaration_default⟩
  obtain ⟨s1, h1, -, -, e1⟩ := transformChildren_declarations ast.children
    { Transformer.new c with details := [] } (fun d hd => (hdecl d hd).1)
  refine ⟨s1, ?_, ?_⟩
  · unfold transform
    simp only [bind_apply]
    exact h1
  · unfold generateCode
    rw [e1, List.nil_append]
    have hmap : (ast.children.map (fun d =>
        ("li ".toList ++ regOf (Transformer.new c).variableToRegisterMap d.leaf.1
          ++ ", ".toList ++ d.leaf.2) ++ "\n".toList))
        = (ast.children.map (fun d =>
          "li ".toList ++ regOf (Transformer.new c).variableToRegisterMap d.leaf.1
            ++ ", ".toList ++ d.leaf.2)).map (fun l => l ++ "\n".toList) := by
      rw [List.map_map]
      rfl
    have hmap2 : (ast.children.map (fun d =>
        ("li ".toList ++ regOf ({ Transformer.new c with details := [] } : Lowering).variableToRegisterMap d.leaf.1
          ++ ", ".toList ++ d.leaf.2) ++ "\n".toList))
        = (ast.children.map (fun d =>
        ("li ".toList ++ regOf (Transformer.new c).variableToRegisterMap d.leaf.1
          ++ ", ".toList ++ d.leaf.2) ++ "\n".toList)) := rfl
    rw [hmap2, hmap, lines_flatten]
    intro l hl
    simp only [List.mem_map] at hl
    obtain ⟨d, hd, rfl⟩ := hl
    have hreg := cleanRegs_new c d.leaf.1
    have hval : '\n' ∉ d.leaf.2 := by
      rcases (hdecl d hd).2 with ⟨t, htmem, hv⟩ | hv
      · rw [← hv]
        exact (not_space_of_isspace_false (tokenizeLoop_no_space _ _ _ ht t htmem)).2
      · rw [hv]; decide
    simp [hreg, hval]

/-- Witness of C13: the tree of `int a = 3; int b; int x;`, whose third
declaration names a variable without register. -/
theorem transform_declarations_witness :
    parse declTokens = .ok declParsed 11 ∧
    ∃ s1, transform declParsed (Transformer.new 0) = .ok () s1 ∧
      lines (generateCode s1) = ["li $t0, 3".toList, "li $t2, 0".toList, "li , 0".toList] :=
  ⟨rfl, (transform_declarations "int a = 3; int b; int x;".toList declTokens declParsed 0
    (by decide!) (by unfold declParsed declTokens; decide)).1⟩

/-- A tree that `parse` returns on the tokens of a text copies no newline into
the output: the payloads come from token texts, which hold no white space. -/
theorem parse_clean {code : Str} {tokens : List Token} {ast : Node} {cur : Nat}
    (ht : tokenize code = some tokens) (hp : parse tokens = .ok ast cur) : CleanTree ast := by
  have htok : ∀ t ∈ tokens, '\n' ∉ t.value := fun t hmem =>
    (not_space_of_isspace_false (tokenizeLoop_no_space _ _ _ ht t hmem)).2
  intro n hn
  rcases parse_children hp n hn with ⟨_, _, hd⟩ | ⟨_, _, hf⟩
  · obtain ⟨-, hch, -, hval, -, -⟩ := parseDeclaration_ok hd
    refine ⟨?_, fun g hg => by rw [hch] at hg; cases hg⟩
    rcases hval with ⟨t, hmem, hv⟩ | hv
    · rw [← hv]; exact htok t hmem
    · rw [hv]; decide
  · obtain ⟨-, hleaf, ⟨init, cond, incr, body, hch, ⟨_, _, hinit⟩, ⟨_, _, hcond⟩,
      ⟨_, _, hincr⟩, hbody⟩, -, -⟩ := parseForLoop_run hf
    refine ⟨by rw [hleaf]; decide, fun g hg => ?_⟩
    rw [hch] at hg
    simp only [List.mem_cons] at hg
    rcases hg with rfl | rfl | rfl | hg
    · obtain ⟨-, -, -, t, hmem, hv⟩ := parseInitialization_ok hinit
      rw [← hv]; exact htok t hmem
    · obtain ⟨-, -, name, op, value, hl, -, -, hmem⟩ := parseCondition_ok hcond
      rw [hl]; exact htok value hmem
    · obtain ⟨-, -, -, t, hmem, -, hv⟩ := parseIncrement_ok hincr
      rw [← hv]; exact htok t hmem
    · rcases hbody g hg with ⟨_, _, hif⟩ | ⟨_, _, hexp⟩
      · obtain ⟨-, hl, -⟩ := parseIfStatement_ok hif
        rw [hl]; decide
      · obtain ⟨-, -, hl, -⟩ := parseExpression_ok hexp
        rw [hl]; decide

/-! ## The if-labels within a run and across two runs -/

/-- The first label line of a non-empty run of counters. -/
theorem labels_head (c : Int) (m : Nat) (hm : m ≠ 0) :
    ((List.range m).flatMap (fun k => ifLabels (c + k))).head?
      = some ("IF_TRUE".toList ++ to_string c ++ ":".toList) := by
  cases m with
  | zero => exact absurd rfl hm
  | succ n =>
    rw [List.range_succ_eq_map]
    simp [ifLabels]

/-- C11 (counterexample): the example program of `main`, lowered in a process
whose counter is `INT_MAX` when the run starts: the first if-statement uses the
suffix 2147483647 and the second the suffix -2147483648, not 2147483648. -/
theorem compile_counter_overflow :
    compile exampleCode 2147483647 = some
      ("li $t0, 3\nli $t2, 4\nli $t1, 0\nLOOP_START:\nbgt $t1, 3, LOOP_END\n"
        ++ "beq $t0, $t2, IF_TRUE2147483647\nj IF_FALSE2147483647\nIF_TRUE2147483647:\n"
        ++ "add $t0, $t0, $t1\naddi $t0, $t0, 2\nj END_IF2147483647\n"
        ++ "IF_FALSE2147483647:\nEND_IF2147483647:\n"
        ++ "bne $t0, $t2, IF_TRUE-2147483648\nj IF_FALSE-2147483648\nIF_TRUE-2147483648:\n"
        ++ "add $t0, $t0, 1\nj END_IF-2147483648\nIF_FALSE-2147483648:\nEND_IF-2147483648:\n"
        ++ "addi $t1, $t1, 1\nj LOOP_START\nLOOP_END:\n").toList := by
  decide!

/-- C11 (amended): a run of `transform` on any tree, started with a counter `c`
in the range of `int` and ending normally, with `c + m` still in the range of
`int` for the number `m` of if-statements lowered, ends with counter `c + m`;
the label lines of different counters are disjoint; and when no payload copied
into the output contains a newline, as in every tree that `parse` returns on
the tokens of a text, the if-label lines of the output are exactly the label
lines of the counters `c`, `c + 1`, ..., `c + m - 1`, three per if-statement in
the order of lowering, and none of them occurs twice. -/
theorem transform_if_labels (ast : Node) (c : Int) (s1 : Lowering)
    (h : transform ast (Transformer.new c) = .ok () s1)
    (hlo : -2147483648 ≤ c) (hhi : c + countIfsOfChildren ast.children ≤ 2147483647) :
    s1.ifCount = c + countIfsOfChildren ast.children ∧
    (∀ j k : Int, j ≠ k → List.Disjoint (ifLabels (c + j)) (ifLabels (c + k))) ∧
    (CleanTree ast →
      labelLines (generateCode s1)
        = (List.range (countIfsOfChildren ast.children)).flatMap (fun k => ifLabels (c + k)) ∧
      (labelLines (generateCode s1)).Nodup) ∧
    (∀ (code : Str) (tokens : List Token) (cur : Nat),
      tokenize code = some tokens → parse tokens = .ok ast cur → CleanTree ast) := by
  obtain ⟨hc, hl⟩ := transform_run h hlo hhi
  have hdis : ∀ j k : Int, j ≠ k → List.Disjoint (ifLabels (c + j)) (ifLabels (c + k)) :=
    fun j k hjk => ifLabels_disjoint (by omega)
  refine ⟨hc, hdis, fun htree => ?_, fun code tokens cur ht hp => parse_clean ht hp⟩
  obtain ⟨-, hlab⟩ := hl (cleanRegs_new c) htree
  have hlab2 : labelLines (generateCode s1)
      = (List.range (countIfsOfChildren ast.children)).flatMap (fun k => ifLabels (c + k)) :=
    hlab
  refine ⟨hlab2, ?_⟩
  rw [hlab2, List.nodup_flatMap]
  refine ⟨fun k _ => ifLabels_nodup _, ?_⟩
  exact (List.nodup_range _).imp (fun hjk => hdis _ _ (by exact_mod_cast hjk))

/-- Witness of C11 (amended): the tree of `int a = 0;` and a loop with one
if-statement, lowered with counter 5. -/
theorem transform_if_labels_witness :
    (6 : Int) = 5 + countIfsOfChildren ifLoopTree.children ∧
    labelLines ("li $t0, 0\nli $t1, 0\nLOOP_START:\nbgt $t1, 3, LOOP_END\n"
        ++ "beq $t0, $t2, IF_TRUE5\nj IF_FALSE5\nIF_TRUE5:\nadd $t0, $t0, 1\nj END_IF5\n"
        ++ "IF_FALSE5:\nEND_IF5:\naddi $t1, $t1, 1\nj LOOP_START\nLOOP_END:\n").toList
      = (List.range (countIfsOfChildren ifLoopTree.children)).flatMap
          (fun k => ifLabels (5 + k)) ∧
    (labelLines ("li $t0, 0\nli $t1, 0\nLOOP_START:\nbgt $t1, 3, LOOP_END\n"
        ++ "beq $t0, $t2, IF_TRUE5\nj IF_FALSE5\nIF_TRUE5:\nadd $t0, $t0, 1\nj END_IF5\n"
        ++ "IF_FALSE5:\nEND_IF5:\naddi $t1, $t1, 1\nj LOOP_START\nLOOP_END:\n").toList).Nodup :=
  have h := transform_if_labels ifLoopTree 5
    { variableToRegisterMap :=
        [("a".toList, "$t0".toList), ("i".toList, "$t1".toList), ("b".toList, "$t2".toList)]
      ifCount := 6
      details := ("li $t0, 0\nli $t1, 0\nLOOP_START:\nbgt $t1, 3, LOOP_END\n"
        ++ "beq $t0, $t2, IF_TRUE5\nj IF_FALSE5\nIF_TRUE5:\nadd $t0, $t0, 1\nj END_IF5\n"
        ++ "IF_FALSE5:\nEND_IF5:\naddi $t1, $t1, 1\nj LOOP_START\nLOOP_END:\n").toList }
    (by decide!) (by decide) (by decide)
  ⟨h.1, h.2.2.1 (by unfold CleanTree; decide)⟩

/-- C12 (amended): when two successive runs of the pipeline on the same text
both end normally (the text lowering `m` if-statements, with `2 * m` in the
range of `int`), the first output is that of a run started with counter 0 and
the second is that of a run started with counter `m`: the counter is never
reset; and the two outputs are the same exactly when the program lowers no
if-statement. -/
theorem compileTwice_counter (code : Str) (tokens : List Token) (ast : Node) (cur : Nat)
    (o1 o2 : Str) (ht : tokenize code = some tokens) (hp : parse tokens = .ok ast cur)
    (h : compileTwice code = some (o1, o2))
    (hm : 2 * countIfsOfChildren ast.children ≤ 2147483647) :
    compile code 0 = some o1 ∧
    compile code (countIfsOfChildren ast.children) = some o2 ∧
    (o1 = o2 ↔ countIfsOfChildren ast.children = 0) := by
  have hl : ∀ c, lower code c = some (transform ast (Transformer.new c)) := by
    intro c
    simp [lower, ht, hp]
  unfold compileTwice at h
  rw [hl 0] at h
  cases h1 : transform ast (Transformer.new 0) with
  | ok a s1 =>
    simp only [h1, hl] at h
    cases h2 : transform ast (Transformer.new s1.ifCount) with
    | ok a2 s2 =>
      simp only [h2, Option.some.injEq, Prod.mk.injEq] at h
      obtain ⟨rfl, rfl⟩ := h
      have hlo0 : -2147483648 ≤ (Transformer.new 0).ifCount := by decide
      have hhi0 : (Transformer.new 0).ifCount + countIfsOfChildren ast.children
          ≤ 2147483647 := by
        show (0 : Int) + _ ≤ _
        omega
      obtain ⟨hc1, hl1⟩ := transform_run h1 hlo0 hhi0
      have hc1b : s1.ifCount = countIfsOfChildren ast.children := by
        rw [hc1]
        show (0 : Int) + _ = _
        omega
      rw [hc1b] at h2
      have hlo2 : -2147483648 ≤ (Transformer.new (countIfsOfChildren ast.children)).ifCount := by
        show (-2147483648 : Int) ≤ (countIfsOfChildren ast.children : Int)
        omega
      have hhi2 : (Transformer.new (countIfsOfChildren ast.children)).ifCount
          + countIfsOfChildren ast.children ≤ 2147483647 := by
        show (countIfsOfChildren ast.children : Int) + _ ≤ _
        omega
      obtain ⟨-, hl2⟩ := transform_run h2 hlo2 hhi2
      have htree := parse_clean ht hp
      obtain ⟨-, lab1⟩ := hl1 (cleanRegs_new 0) htree
      obtain ⟨-, lab2⟩ := hl2 (cleanRegs_new _) htree
      have c1 : compile code 0 = some (generateCode s1) := by
        simp [compile, ht, hp, h1]
      have c2 : compile code (countIfsOfChildren ast.children) = some (generateCode s2) := by
        simp [compile, ht, hp, h2]
      refine ⟨c1, c2, fun heq => ?_, fun h0 => ?_⟩
      · by_contra hne
        have e : labelLines s1.details = labelLines s2.details := by
          unfold generateCode at heq
          rw [heq]
        rw [lab1, lab2] at e
        have e2 := congrArg List.head? e
        rw [labels_head _ _ hne, labels_head _ _ hne] at e2
        have e3 : to_string (Transformer.new 0).ifCount
            = to_string (Transformer.new (countIfsOfChildren ast.children)).ifCount :=
          List.append_cancel_left (List.append_cancel_right (Option.some.inj e2))
        have e4 := to_string_injective e3
        have e5 : (0 : Int) = (countIfsOfChildren ast.children : Int) := e4
        omega
      · rw [h0] at c2
        have c3 : compile code 0 = some (generateCode s2) := c2
        rw [c1] at c3
        exact Option.some.inj c3
    | thrown e s => simp [h2] at h
    | outOfBounds i n => simp [h2] at h
    | fuel => simp [h2] at h
  | thrown e s => simp [h1] at h
  | outOfBounds i n => simp [h1] at h
  | fuel => simp [h1] at h

/-- Witness of C12 (amended): two successive runs on a loop with one
if-statement; the second output is that of a run started with counter 1 and
differs from the first. -/
theorem compileTwice_counter_witness :
    compile ifLoopCode 0 = some
      ("li $t1, 0\nLOOP_START:\nbgt $t1, 3, LOOP_END\nbeq $t0, $t2, IF_TRUE0\nj IF_FALSE0\n"
        ++ "IF_TRUE0:\nadd $t0, $t0, 1\nj END_IF0\nIF_FALSE0:\nEND_IF0:\n"
        ++ "addi $t1, $t1, 1\nj LOOP_START\nLOOP_END:\n").toList ∧
    compile ifLoopCode (countIfsOfChildren ifLoopParsed.children) = some
      ("li $t1, 0\nLOOP_START:\nbgt $t1, 3, LOOP_END\nbeq $t0, $t2, IF_TRUE1\nj IF_FALSE1\n"
        ++ "IF_TRUE1:\nadd $t0, $t0, 1\nj END_IF1\nIF_FALSE1:\nEND_IF1:\n"
        ++ "addi $t1, $t1, 1\nj LOOP_START\nLOOP_END:\n").toList ∧
    (("li $t1, 0\nLOOP_START:\nbgt $t1, 3, LOOP_END\nbeq $t0, $t2, IF_TRUE0\nj IF_FALSE0\n"
        ++ "IF_TRUE0:\nadd $t0, $t0, 1\nj END_IF0\nIF_FALSE0:\nEND_IF0:\n"
        ++ "addi $t1, $t1, 1\nj LOOP_START\nLOOP_END:\n").toList
      = ("li $t1, 0\nLOOP_START:\nbgt $t1, 3, LOOP_END\nbeq $t0, $t2, IF_TRUE1\nj IF_FALSE1\n"
        ++ "IF_TRUE1:\nadd $t0, $t0, 1\nj END_IF1\nIF_FALSE1:\nEND_IF1:\n"
        ++ "addi $t1, $t1, 1\nj LOOP_START\nLOOP_END:\n").toList
      ↔ countIfsOfChildren ifLoopParsed.children = 0) :=
  compileTwice_counter ifLoopCode ifLoopTokens ifLoopParsed 29 _ _ (by decide!) rfl
    (by decide!) (by decide)

/-! ## The scanner keeps the recognized characters -/

theorem recognized_of_isspace (c : Char) (h : isspace c = true) : recognized c = false := by
  simp only [isspace, Bool.or_eq_true, beq_iff_eq] at h
  rcases h with ((((rfl | rfl) | rfl) | rfl) | rfl) | rfl <;> decide

theorem recognized_of_isdigit (c : Char) (h : isdigit c = true) : recognized c = true := by
  simp [recognized, h]

theorem recognized_of_isalpha (c : Char) (h : isalpha c = true) : recognized c = true := by
  simp [recognized, h]

theorem recognized_of_isalnum (c : Char) (h : isalnum c = true) : recognized c = true := by
  simp only [isalnum, Bool.or_eq_true] at h
  rcases h with h | h
  · exact recognized_of_isalpha c h
  · exact recognized_of_isdigit c h

theorem recognized_of_operator (c : Char) (h : c ∈ operators) : recognized c = true := by
  simp [recognized, h]

theorem recognized_of_punctuation (c : Char) (h : c ∈ punctuation) : recognized c = true := by
  simp [recognized, h]

/-- A run of characters that `p` accepts, all of them recognized, is kept by
the filter, and the filter goes on behind it. -/
theorem filter_recognized_run (p : Char → Bool) (rest : Str)
    (hp : ∀ c, p c = true → recognized c = true) :
    rest.filter recognized
      = rest.takeWhile p ++ (rest.dropWhile p).filter recognized := by
  conv_lhs => rw [← List.takeWhile_append_dropWhile p rest]
  rw [List.filter_append]
  congr 1
  rw [List.filter_eq_self]
  intro c hc
  exact hp c (List.mem_takeWhile_imp hc)

theorem tokenTexts_cons (t : Token) (ts : List Token) :
    tokenTexts (t :: ts) = t.value ++ tokenTexts ts := rfl

/-- With one unit of fuel per character the main loop of `tokenize` returns;
the texts of its tokens, concatenated, are the recognized characters of the
text in order, and no token text is empty. -/
theorem tokenizeLoop_texts : ∀ (fuel : Nat) (code : Str), code.length ≤ fuel →
    ∃ ts, tokenizeLoop fuel code = some ts ∧ tokenTexts ts = code.filter recognized ∧
      ∀ t ∈ ts, t.value ≠ [] := by
  intro fuel
  induction fuel with
  | zero =>
    intro code h
    cases code with
    | nil => exact ⟨[], rfl, rfl, by simp⟩
    | cons c rest => simp at h
  | succ fuel ih =>
    intro code h
    cases code with
    | nil => exact ⟨[], rfl, rfl, by simp⟩
    | cons c rest =>
      have hrest : rest.length ≤ fuel := by simpa using h
      unfold tokenizeLoop
      by_cases hsp : isspace c = true
      · rw [if_pos hsp]
        obtain ⟨ts, h1, h2, h3⟩ := ih rest hrest
        exact ⟨ts, h1, by rw [h2, List.filter_cons_of_neg (by simp [recognized_of_isspace c hsp])],
          h3⟩
      rw [if_neg hsp]
      by_cases hdig : isdigit c = true
      · rw [if_pos hdig]
        obtain ⟨ts, h1, h2, h3⟩ := ih (rest.dropWhile isdigit)
          (le_trans (List.dropWhile_sublist _).length_le hrest)
        refine ⟨_ :: ts, by rw [h1]; rfl, ?_, ?_⟩
        · rw [tokenTexts_cons, h2, List.filter_cons_of_pos (recognized_of_isdigit c hdig),
            filter_recognized_run isdigit rest recognized_of_isdigit]
          rfl
        · intro t ht
          simp only [List.mem_cons] at ht
          rcases ht with rfl | ht
          · simp
          · exact h3 t ht
      rw [if_neg hdig]
      by_cases halpha : isalpha c = true
      · rw [if_pos halpha]
        obtain ⟨ts, h1, h2, h3⟩ := ih (rest.dropWhile isalnum)
          (le_trans (List.dropWhile_sublist _).length_le hrest)
        refine ⟨_ :: ts, by rw [h1]; rfl, ?_, ?_⟩
        · rw [tokenTexts_cons, h2, List.filter_cons_of_pos (recognized_of_isalpha c halpha),
            filter_recognized_run isalnum rest recognized_of_isalnum]
          rfl
        · intro t ht
          simp only [List.mem_cons] at ht
          rcases ht with rfl | ht
          · simp
          · exact h3 t ht
      rw [if_neg halpha]
      by_cases hop : c ∈ operators
      · rw [if_pos hop]
        cases rest with
        | nil =>
          obtain ⟨ts, h1, h2, h3⟩ := ih [] (Nat.zero_le _)
          refine ⟨_ :: ts, by simp only [h1]; rfl, ?_, ?_⟩
          · rw [tokenTexts_cons, h2, List.filter_cons_of_pos (recognized_of_operator c hop)]
            rfl
          · intro t ht
            simp only [List.mem_cons] at ht
            rcases ht with rfl | ht
            · simp
            · exact h3 t ht
        | cons d rest2 =>
          simp only
          by_cases hd : d ∈ operators ∨ d = '='
          · rw [if_pos hd]
            have hd2 : d ∈ operators := by
              rcases hd with hd | rfl
              · exact hd
              · decide
            obtain ⟨ts, h1, h2, h3⟩ := ih rest2 (by simp at hrest; omega)
            refine ⟨_ :: ts, by rw [h1]; rfl, ?_, ?_⟩
            · rw [tokenTexts_cons, h2, List.filter_cons_of_pos (recognized_of_operator c hop),
                List.filter_cons_of_pos (recognized_of_operator d hd2)]
              rfl
            · intro t ht
              simp only [List.mem_cons] at ht
              rcases ht with rfl | ht
              · simp
              · exact h3 t ht
          · rw [if_neg hd]
            obtain ⟨ts, h1, h2, h3⟩ := ih (d :: rest2) hrest
            refine ⟨_ :: ts, by rw [h1]; rfl, ?_, ?_⟩
            · rw [tokenTexts_cons, h2, List.filter_cons_of_pos (recognized_of_operator c hop)]
              rfl
            · intro t ht
              simp only [List.mem_cons] at ht
              rcases ht with rfl | ht
              · simp
              · exact h3 t ht
      rw [if_neg hop]
      by_cases hpunct : c ∈ punctuation
      · rw [if_pos hpunct]
        obtain ⟨ts, h1, h2, h3⟩ := ih rest hrest
        refine ⟨_ :: ts, by rw [h1]; rfl, ?_, ?_⟩
        · rw [tokenTexts_cons, h2, List.filter_cons_of_pos (recognized_of_punctuation c hpunct)]
          rfl
        · intro t ht
          simp only [List.mem_cons] at ht
          rcases ht with rfl | ht
          · simp
          · exact h3 t ht
      rw [if_neg hpunct]
      obtain ⟨ts, h1, h2, h3⟩ := ih rest hrest
      refine ⟨ts, h1, ?_, h3⟩
      rw [h2, List.filter_cons_of_neg]
      simp only [recognized, Bool.or_eq_true, decide_eq_true_eq, not_or]
      exact ⟨⟨⟨halpha, hdig⟩, hop⟩, hpunct⟩

/-- C21: on every input text `tokenize` returns, and the texts of the tokens it
returns, concatenated in order, are the input with every character removed
that is not a letter, a digit, one of `+-*/<=>!` or one of `()\x7b\x7d;`; every
token text is non-empty. -/
theorem tokenize_texts (code : Str) :
    ∃ tokens, tokenize code = some tokens ∧
      tokenTexts tokens = code.filter recognized ∧ ∀ t ∈ tokens, t.value ≠ [] :=
  tokenizeLoop_texts code.length code (Nat.le_refl _)

end Badge
